import Mathlib

/-!
Saiga: Vulkan memory subsystem, spin lock, scene points, sparse TSDF.

A shallow embedding of parts of the saiga sources and the properties stated about them.

* `vulkan/memory/MemoryType.h`  : `MemoryType` with `operator==`, `operator!=`, `valid`.
* `vulkan/memory/Defragger.h`   : `DefragOperation::operator<`, the `std::set` keyed by it,
  and the shutdown path `exit()` / `~Defragger()`.
* `vulkan/memory/FitStrategy.h` : the `findRange` interface of the three fit strategies;
  their bodies (FitStrategy.cpp) and the chunk bookkeeping (ChunkAllocation.h,
  MemoryLocation.h) are not among the sources and are modelled from the specification,
  sections 3 and 4.
* `core/util/SpinLock.h`        : `SpinLock` as a sequential state machine.
* `vision/scene/Scene.h`        : `WorldPoint::uniqueReferences`, `isValid`.
* `vision/reconstruction/SparseTSDF.h` : trilinear access, bisection, ray marching, with
  every `SAIGA_ASSERT` a possible failure of the call. The header is embedded twice: in
  exact arithmetic (`Saiga.SparseTSDF`, every `float` a rational number), for the
  properties stated in exact arithmetic, and in machine arithmetic
  (`Saiga.Machine.SparseTSDF`, every `float` an IEEE 754 binary32 value `Saiga.F32` with
  NaN, infinities and rounding to nearest, `int` a 32-bit integer), for the others.

Flag words (`vk::Flags`, a wrapper around a 32-bit mask) are natural numbers; bitwise
AND cannot overflow, so no reduction modulo `2^32` is needed. Offsets and sizes
(`vk::DeviceSize`, 64 bits) are natural numbers as well: every offset and size of a
chunk's bookkeeping is bounded by the chunk's `totalSize`.
-/

namespace Saiga.Vulkan.Memory

/-! ## MemoryType.h -/

/-- Source: `template <typename T> struct MemoryType`: `T usageFlags` and
`vk::MemoryPropertyFlags memoryFlags`, both bit masks. -/
structure MemoryType where
  usageFlags : Nat
  memoryFlags : Nat
  deriving DecidableEq, Repr

namespace MemoryType

/-- Source `operator==`: `std::tie(usageFlags, memoryFlags) == std::tie(rhs.usageFlags, rhs.memoryFlags)`;
tuple equality compares the components from left to right and conjoins the results. -/
def eq (self rhs : MemoryType) : Bool :=
  (self.usageFlags == rhs.usageFlags) && (self.memoryFlags == rhs.memoryFlags)

/-- Source `operator!=`: `return !(rhs == *this);` (the source swaps the operands). -/
def ne (self rhs : MemoryType) : Bool :=
  !(eq rhs self)

/-- Source `valid(other)`:
`((usageFlags & other.usageFlags) == other.usageFlags) &&
 ((memoryFlags & other.memoryFlags) == other.memoryFlags)`. -/
def valid (self other : MemoryType) : Bool :=
  ((self.usageFlags &&& other.usageFlags) == other.usageFlags) &&
  ((self.memoryFlags &&& other.memoryFlags) == other.memoryFlags)

end MemoryType

/-- Every bit set in `b` is also set in `a`. -/
def bitsSubset (b a : Nat) : Prop :=
  ∀ i : Nat, b.testBit i = true → a.testBit i = true


/-! ## Defragger.h -/

/-- The value of a C++ `float` as far as the comparison operators see it: not-a-number,
the two infinities, or a finite number (a dyadic rational; `-0` and `+0` are the same
value `0`). -/
inductive FloatVal where
  | nan
  | negInf
  | finite (q : ℚ)
  | posInf
  deriving DecidableEq

/-- The built-in `a > b` on `float`: false as soon as one operand is NaN, otherwise the
order `-inf < finite < +inf` with finite values compared as numbers. -/
def FloatVal.gt : FloatVal → FloatVal → Bool
  | .finite a, .finite b => decide (b < a)
  | .posInf, .finite _ => true
  | .posInf, .negInf => true
  | .finite _, .negInf => true
  | _, _ => false

/-- Modelled from the spec: `MemoryLocation` (MemoryLocation.h is not among the sources),
a live allocation `{ chunk, offset, size, mappedPointer, bufferOrImageHandle }`. `chunk`
is the index of the owning chunk in the allocator's chunk table; the mapped pointer and
the buffer/image handle are device state and carry no weight in the bookkeeping. -/
structure MemoryLocation where
  chunk : Nat
  offset : Nat
  size : Nat
  deriving DecidableEq, Repr

/-- Source: `struct DefragOperation { MemoryLocation source; MemoryLocation target; float weight; }`. -/
structure Defragger.DefragOperation where
  source : MemoryLocation
  target : MemoryLocation
  weight : FloatVal
  deriving DecidableEq

/-- Source: `bool operator<(const DefragOperation& second) const { return this->weight > second.weight; }` -/
def Defragger.DefragOperation.lt (self second : Defragger.DefragOperation) : Bool :=
  FloatVal.gt self.weight second.weight

/-- Standard `std::set<DefragOperation>::insert` on the sequence the set iterates over: the new
element goes to the first position whose element is not ordered before it (its lower
bound), unless the element there is equivalent to it (neither is ordered before the
other), in which case the set is unchanged. -/
def Defragger.setInsert (x : Defragger.DefragOperation) :
    List Defragger.DefragOperation → List Defragger.DefragOperation
  | [] => [x]
  | y :: ys =>
    if Defragger.DefragOperation.lt y x then y :: Defragger.setInsert x ys
    else if Defragger.DefragOperation.lt x y then x :: y :: ys
    else y :: ys

/-- The iteration sequence of `defrag_operations` (initially empty, `defrag_operations()`)
after inserting `ops` one after the other. -/
def Defragger.defrag_operations (ops : List Defragger.DefragOperation) :
    List Defragger.DefragOperation :=
  ops.foldl (fun s x => Defragger.setInsert x s) []

/-! ## FitStrategy.h and the chunk data model -/

/-- Modelled from the spec: the free region `{ offset: uint64, size: uint64 }` a
`FreeIterator` points to (ChunkAllocation.h is not among the sources). -/
structure FreeListLocation where
  offset : Nat
  size : Nat
  deriving DecidableEq, Repr

/-- Modelled from the spec: `ChunkAllocation` (ChunkAllocation.h is not among the sources),
`{ totalSize, freeList: ordered sequence of free regions, liveAllocations: set of
MemoryLocation }`; the device-memory handle and the memory type play no part in the
bookkeeping. -/
structure ChunkAllocation where
  totalSize : Nat
  freeList : List FreeListLocation
  liveAllocations : List MemoryLocation
  deriving DecidableEq, Repr

/-- Byte `p` lies in the free region `[offset, offset + size)`. -/
def FreeListLocation.covers (r : FreeListLocation) (p : Nat) : Prop :=
  r.offset ≤ p ∧ p < r.offset + r.size

/-- Byte `p` lies in the live allocation `[offset, offset + size)`. -/
def MemoryLocation.covers (l : MemoryLocation) (p : Nat) : Prop :=
  l.offset ≤ p ∧ p < l.offset + l.size

/-- Scan of one free list, first fit: position and region of the first region, in
iteration order, that `fits`. -/
def firstFitIn (fits : FreeListLocation → Bool) :
    List FreeListLocation → Option (Nat × FreeListLocation)
  | [] => none
  | r :: rs =>
    if fits r then some (0, r)
    else (firstFitIn fits rs).map (fun x => (x.1 + 1, x.2))

/-- Scan of one free list, best fit: position and region of the smallest region that
`fits` (the earliest one among equally small ones). -/
def bestFitIn (fits : FreeListLocation → Bool) :
    List FreeListLocation → Option (Nat × FreeListLocation)
  | [] => none
  | r :: rs =>
    match bestFitIn fits rs with
    | none => if fits r then some (0, r) else none
    | some (i, b) =>
      if fits r && decide (r.size ≤ b.size) then some (0, r) else some (i + 1, b)

/-- Scan of one free list, worst fit: position and region of the largest region that
`fits` (the earliest one among equally large ones). -/
def worstFitIn (fits : FreeListLocation → Bool) :
    List FreeListLocation → Option (Nat × FreeListLocation)
  | [] => none
  | r :: rs =>
    match worstFitIn fits rs with
    | none => if fits r then some (0, r) else none
    | some (i, b) =>
      if fits r && decide (b.size ≤ r.size) then some (0, r) else some (i + 1, b)

/-- A region is large enough to hold `size` bytes. -/
def holds (size : Nat) (r : FreeListLocation) : Bool :=
  decide (size ≤ r.size)

/-- Modelled from the spec: `FirstFitStrategy::findRange(begin, end, size)` (FitStrategy.cpp
is not among the sources; the header only declares it): "returns the first chunk/region,
in iteration order, large enough to hold `size`". The result is the pair (position of the
chunk in the range, position of the region in that chunk's free list); `none` is the
spec's "none". -/
def FirstFitStrategy.findRange : List ChunkAllocation → Nat → Option (Nat × Nat)
  | [], _ => none
  | c :: cs, size =>
    match firstFitIn (holds size) c.freeList with
    | some (fi, _) => some (0, fi)
    | none => (FirstFitStrategy.findRange cs size).map (fun x => (x.1 + 1, x.2))

/-- Best region over a range of chunks, with the region itself: the smallest sufficient
region of the first chunk competes with the best of the remaining chunks. -/
def BestFitStrategy.best : List ChunkAllocation → Nat → Option (Nat × Nat × FreeListLocation)
  | [], _ => none
  | c :: cs, size =>
    match bestFitIn (holds size) c.freeList, BestFitStrategy.best cs size with
    | none, none => none
    | some (fi, r), none => some (0, fi, r)
    | none, some (cj, fj, b) => some (cj + 1, fj, b)
    | some (fi, r), some (cj, fj, b) =>
      if r.size ≤ b.size then some (0, fi, r) else some (cj + 1, fj, b)

/-- Modelled from the spec: `BestFitStrategy::findRange(begin, end, size)` (FitStrategy.cpp
is not among the sources): "returns the region with the smallest sufficient size across
all chunks". -/
def BestFitStrategy.findRange (chunks : List ChunkAllocation) (size : Nat) : Option (Nat × Nat) :=
  (BestFitStrategy.best chunks size).map (fun x => (x.1, x.2.1))

/-- Worst region over a range of chunks, with the region itself: the largest sufficient
region of the first chunk competes with the worst of the remaining chunks. -/
def WorstFitStrategy.worst : List ChunkAllocation → Nat → Option (Nat × Nat × FreeListLocation)
  | [], _ => none
  | c :: cs, size =>
    match worstFitIn (holds size) c.freeList, WorstFitStrategy.worst cs size with
    | none, none => none
    | some (fi, r), none => some (0, fi, r)
    | none, some (cj, fj, b) => some (cj + 1, fj, b)
    | some (fi, r), some (cj, fj, b) =>
      if b.size ≤ r.size then some (0, fi, r) else some (cj + 1, fj, b)

/-- Modelled from the spec: `WorstFitStrategy::findRange(begin, end, size)` (FitStrategy.cpp
is not among the sources): "returns the region with the largest size"; a region that
cannot hold `size` is never returned, the answer is then "none". -/
def WorstFitStrategy.findRange (chunks : List ChunkAllocation) (size : Nat) : Option (Nat × Nat) :=
  (WorstFitStrategy.worst chunks size).map (fun x => (x.1, x.2.1))

/-- The free region a `(ChunkIterator, FreeIterator)` pair points to. -/
def regionAt (chunks : List ChunkAllocation) (ci fi : Nat) : Option FreeListLocation :=
  match chunks[ci]? with
  | none => none
  | some c => c.freeList[fi]?

/-- Position `(cj, fj)` is visited before `(ci, fi)` when chunks are iterated in order and
each chunk's free list is iterated in order. -/
def visitedBefore (cj fj ci fi : Nat) : Prop :=
  cj < ci ∨ (cj = ci ∧ fj < fi)

/-! ## ChunkAllocation: allocate, deallocate, defragment -/

/-- Modelled from the spec: the error taxonomy of section 7 (`OutOfSpace`, `CopyFailed`,
`StaleLocation`); no source file declares it. -/
inductive AllocError where
  | outOfSpace
  | copyFailed
  | staleLocation
  deriving DecidableEq, Repr

/-- Modelled from the spec: a freshly created chunk (ChunkAllocation.h is not among the
sources): the whole block `[0, totalSize)` is one free region, nothing is live. -/
def ChunkAllocation.create (totalSize : Nat) : ChunkAllocation :=
  { totalSize := totalSize, freeList := [⟨0, totalSize⟩], liveAllocations := [] }

/-- The smallest multiple of `alignment` that is not below `offset` (`0` for the
degenerate alignment `0`, which no region below fits unless it starts at `0`). -/
def alignUp (offset alignment : Nat) : Nat :=
  (offset + alignment - 1) / alignment * alignment

/-- The aligned sub-range of the free region `r` fits `size` bytes: the range of `size`
bytes starting at the aligned offset lies inside the region. -/
def fitsAligned (size alignment : Nat) (r : FreeListLocation) : Bool :=
  decide (r.offset ≤ alignUp r.offset alignment) &&
  decide (alignUp r.offset alignment + size ≤ r.offset + r.size)

/-- The three `FitStrategy` implementations of FitStrategy.h. -/
inductive FitStrategy where
  | firstFit
  | bestFit
  | worstFit
  deriving DecidableEq, Repr

/-- The virtual call `strategy->findRange(begin, end, size)`. -/
def FitStrategy.findRange (s : FitStrategy) (chunks : List ChunkAllocation) (size : Nat) :
    Option (Nat × Nat) :=
  match s with
  | .firstFit => FirstFitStrategy.findRange chunks size
  | .bestFit => BestFitStrategy.findRange chunks size
  | .worstFit => WorstFitStrategy.findRange chunks size

/-- The scan of one chunk's free list "for the first/best/worst region (per injected
strategy)" among the regions that `fits`. -/
def FitStrategy.scan (s : FitStrategy) (fits : FreeListLocation → Bool)
    (fl : List FreeListLocation) : Option (Nat × FreeListLocation) :=
  match s with
  | .firstFit => firstFitIn fits fl
  | .bestFit => bestFitIn fits fl
  | .worstFit => worstFitIn fits fl

/-- What is left of the free region `f` once `[offset, offset + size)` is taken out of it:
the part in front of the range and the part behind it, each only when it is not empty. -/
def remainder (f : FreeListLocation) (offset size : Nat) : List FreeListLocation :=
  (if f.offset < offset then [⟨f.offset, offset - f.offset⟩] else []) ++
  (if offset + size < f.offset + f.size then
    [⟨offset + size, f.offset + f.size - (offset + size)⟩] else [])

/-- Modelled from the spec: `ChunkAllocation::allocate(size, alignment)` (ChunkAllocation.h
is not among the sources): "scans free list for the first/best/worst region (per injected
strategy) whose aligned sub-range fits `size`; splits the region, leaving a smaller free
remainder (if any) and inserting a new entry into liveAllocations"; fails with
`OutOfSpace`. `self` is the chunk's index in the chunk table, recorded in the location. -/
def ChunkAllocation.allocate (c : ChunkAllocation) (strategy : FitStrategy) (self : Nat)
    (size alignment : Nat) : Except AllocError (ChunkAllocation × MemoryLocation) :=
  match strategy.scan (fitsAligned size alignment) c.freeList with
  | none => .error .outOfSpace
  | some (i, r) =>
    let offset := alignUp r.offset alignment
    let location : MemoryLocation := ⟨self, offset, size⟩
    .ok ({ c with
            freeList := c.freeList.take i ++ remainder r offset size ++ c.freeList.drop (i + 1)
            liveAllocations := location :: c.liveAllocations }, location)

/-- Reinsert the range `r` into an offset-ordered free list, merging it "with any adjacent
free neighbor(s) (left and/or right) in the same operation": a region ending where `r`
starts absorbs `r` and the walk goes on with the merged range, a region starting where
the range ends is absorbed by it. -/
def insertFree : List FreeListLocation → FreeListLocation → List FreeListLocation
  | [], r => [r]
  | f :: fs, r =>
    if f.offset + f.size < r.offset then f :: insertFree fs r
    else if f.offset + f.size = r.offset then insertFree fs ⟨f.offset, f.size + r.size⟩
    else if r.offset + r.size = f.offset then ⟨r.offset, r.size + f.size⟩ :: fs
    else r :: f :: fs

/-- Modelled from the spec: `ChunkAllocation::deallocate(location)` (ChunkAllocation.h is
not among the sources): "removes `location` from liveAllocations, reinserts its range into
the free list, and merges with any adjacent free neighbor(s)". A location that is not
live in the chunk is refused. -/
def ChunkAllocation.deallocate (c : ChunkAllocation) (location : MemoryLocation) :
    Except AllocError ChunkAllocation :=
  if location ∈ c.liveAllocations then
    .ok { c with
          liveAllocations := c.liveAllocations.erase location
          freeList := insertFree c.freeList ⟨location.offset, location.size⟩ }
  else .error .staleLocation

/-- Take `[offset, offset + size)` out of the free region that contains it, if any. -/
def carveAt : List FreeListLocation → Nat → Nat → Option (List FreeListLocation)
  | [], _, _ => none
  | f :: fs, offset, size =>
    if f.offset ≤ offset ∧ offset + size ≤ f.offset + f.size then
      some (remainder f offset size ++ fs)
    else (carveAt fs offset size).map (fun fs2 => f :: fs2)

/-- The receiving half of a move: make `[offset, offset + size)` of chunk `c` a live
allocation, which takes a free region containing the range (`OutOfSpace` otherwise). -/
def ChunkAllocation.place (c : ChunkAllocation) (self : Nat) (offset size : Nat) :
    Except AllocError (ChunkAllocation × MemoryLocation) :=
  match carveAt c.freeList offset size with
  | none => .error .outOfSpace
  | some fl =>
    let location : MemoryLocation := ⟨self, offset, size⟩
    .ok ({ c with freeList := fl, liveAllocations := location :: c.liveAllocations }, location)

/-- Allocation in chunk `ci` of the chunk table: `ChunkAllocation::allocate` on that chunk. -/
def allocate (chunks : List ChunkAllocation) (strategy : FitStrategy) (ci : Nat)
    (size alignment : Nat) : Except AllocError (List ChunkAllocation × MemoryLocation) :=
  match chunks[ci]? with
  | none => .error .outOfSpace
  | some c =>
    match c.allocate strategy ci size alignment with
    | .error e => .error e
    | .ok (c2, location) => .ok (chunks.set ci c2, location)

/-- Deallocation of `location`, "routed to the owning chunk" of the chunk table. -/
def deallocate (chunks : List ChunkAllocation) (location : MemoryLocation) :
    Except AllocError (List ChunkAllocation) :=
  match chunks[location.chunk]? with
  | none => .error .staleLocation
  | some c =>
    match c.deallocate location with
    | .error e => .error e
    | .ok c2 => .ok (chunks.set location.chunk c2)

/-- Modelled from the spec: `ChunkAllocation::defragment(target_offset, source)` on chunk
`ci` (ChunkAllocation.h is not among the sources): "moves the contents backing `source`
to a new region at `target_offset` inside the same or another chunk; performs the
device-memory copy, updates liveAllocations, and frees the old region (merge rules
apply)". A source that is no longer live is `StaleLocation`; a device copy that cannot
be issued (`copyIssued = false`) is `CopyFailed` and leaves the chunks unchanged, the
bookkeeping being committed only after the copy. -/
def defragment (chunks : List ChunkAllocation) (ci : Nat) (target_offset : Nat)
    (source : MemoryLocation) (copyIssued : Bool) :
    Except AllocError (List ChunkAllocation × MemoryLocation) :=
  match chunks[source.chunk]? with
  | none => .error .staleLocation
  | some sc =>
    if source ∈ sc.liveAllocations then
      match chunks[ci]? with
      | none => .error .outOfSpace
      | some tc =>
        match tc.place ci target_offset source.size with
        | .error e => .error e
        | .ok (tc2, location) =>
          if copyIssued then
            match deallocate (chunks.set ci tc2) source with
            | .error e => .error e
            | .ok chunks2 => .ok (chunks2, location)
          else .error .copyFailed
    else .error .staleLocation

/-- The chunk tables the allocator is in when every allocation requests a positive
number of bytes: it starts with no chunk, creates chunks (of any size), allocates,
deallocates and defragments; only completed operations change the table. -/
inductive Reachable : List ChunkAllocation → Prop where
  | empty : Reachable []
  | create (chunks : List ChunkAllocation) (totalSize : Nat) :
      Reachable chunks → Reachable (chunks ++ [ChunkAllocation.create totalSize])
  | allocate (chunks chunks2 : List ChunkAllocation) (strategy : FitStrategy)
      (ci size alignment : Nat) (location : MemoryLocation) :
      Reachable chunks → 0 < size →
      allocate chunks strategy ci size alignment = .ok (chunks2, location) →
      Reachable chunks2
  | deallocate (chunks chunks2 : List ChunkAllocation) (location : MemoryLocation) :
      Reachable chunks → deallocate chunks location = .ok chunks2 → Reachable chunks2
  | defragment (chunks chunks2 : List ChunkAllocation) (ci target_offset : Nat)
      (source location : MemoryLocation) (copyIssued : Bool) :
      Reachable chunks →
      defragment chunks ci target_offset source copyIssued = .ok (chunks2, location) →
      Reachable chunks2

/-- Sum of the sizes of the free regions of a chunk. -/
def ChunkAllocation.freeSize (c : ChunkAllocation) : Nat :=
  (c.freeList.map (fun f => f.size)).sum

/-- Sum of the sizes of the live allocations of a chunk. -/
def ChunkAllocation.liveSize (c : ChunkAllocation) : Nat :=
  (c.liveAllocations.map (fun l => l.size)).sum

/-- The partition invariant of a chunk. The free list is in offset order with a gap
between any two regions (so free regions neither overlap nor touch), no region is empty or
leaves the chunk, no byte belongs to two regions, every byte of `[0, totalSize)` belongs
to a region, and the sizes add up to `totalSize`. -/
structure ChunkAllocation.Partition (c : ChunkAllocation) : Prop where
  free_separated : c.freeList.Pairwise (fun a b => a.offset + a.size < b.offset)
  free_inside : ∀ f ∈ c.freeList, 0 < f.size ∧ f.offset + f.size ≤ c.totalSize
  live_inside : ∀ l ∈ c.liveAllocations, 0 < l.size ∧ l.offset + l.size ≤ c.totalSize
  live_disjoint : c.liveAllocations.Pairwise (fun a b => ∀ p, ¬ (a.covers p ∧ b.covers p))
  free_live_disjoint : ∀ f ∈ c.freeList, ∀ l ∈ c.liveAllocations,
    ∀ p, ¬ (f.covers p ∧ l.covers p)
  covered : ∀ p, p < c.totalSize →
    (∃ f ∈ c.freeList, f.covers p) ∨ (∃ l ∈ c.liveAllocations, l.covers p)
  sizes : c.freeSize + c.liveSize = c.totalSize

/-- The chunk of size 1024 after allocating 100, 200 and 300 bytes, deallocating the
first allocation and moving the second one to offset 600. -/
def movedExample : ChunkAllocation :=
  ⟨1024, [⟨0, 300⟩, ⟨800, 224⟩], [⟨0, 600, 200⟩, ⟨0, 300, 300⟩]⟩

/-- The worker thread member `std::thread worker`, as its owner sees it: started by the
constructor (`worker(&Defragger::worker_func, this)`) and joinable until `join()` has
returned. -/
inductive Defragger.Worker where
  | started
  | joined
  deriving DecidableEq, Repr

/-- What the owning thread does to the objects it shares with the worker, in program
order: stores to the atomic flags, notifications of `start_condition`, and the join. -/
inductive Defragger.Event where
  | storeRunning (b : Bool)
  | storeQuit (b : Bool)
  | notifyStartCondition
  | joinWorker
  deriving DecidableEq, Repr

/-- Source: `class Defragger`, the members its shutdown path touches: `enabled`, the
atomic flags `running` and `quit`, and `worker`; `events` records the owner's operations
on shared objects in program order. The chunk vector, the strategy and
`defrag_operations` are not touched by `exit()`. -/
structure Defragger where
  enabled : Bool
  running : Bool
  quit : Bool
  worker : Defragger.Worker
  events : List Defragger.Event
  deriving DecidableEq, Repr

/-- Source: the constructor's initialiser list, `enabled(true)`, `running(false)`,
`quit(false)`, `worker(&Defragger::worker_func, this)`. -/
def Defragger.create : Defragger :=
  { enabled := true, running := false, quit := false, worker := .started, events := [] }

/-- How a call on the Defragger ends for the calling thread: it returns, it is left by an
exception, or it never comes back. -/
inductive Defragger.Ending where
  | returned
  | threw
  | blocked
  deriving DecidableEq, Repr

/-- The result of a call on the Defragger: how the call ended, and the Defragger at that
point (for a call that never comes back, the Defragger its caller is stuck with). -/
structure Defragger.Outcome where
  ending : Defragger.Ending
  state : Defragger
  deriving DecidableEq, Repr

/-- Standard `std::thread::join()` on the member `worker`, called by the owner. On a thread
that is not joinable (it has been joined before) the call throws `std::system_error`; on
a joinable thread it blocks until the thread has finished and then leaves it not
joinable. `worker_func` is in Defragger.cpp, which is not among the sources, so whether
the worker finishes is a parameter, `workerEnds`, which may depend on everything the
owner has done before the join. -/
def Defragger.join (workerEnds : Defragger → Bool) (self : Defragger) : Defragger.Outcome :=
  let called := { self with events := self.events ++ [Defragger.Event.joinWorker] }
  match self.worker with
  | .joined => ⟨.threw, called⟩
  | .started =>
    if workerEnds self then ⟨.returned, { called with worker := .joined }⟩
    else ⟨.blocked, called⟩

/-- Source: `void exit() { stop(); quit = true; worker.join(); }`. The body of `stop()` is
in Defragger.cpp, which is not among the sources, so `stop` is a parameter: any effect on
the Defragger. `quit = true` is a store to the atomic flag; `worker.join()` ends as
`Defragger.join` says, and so does `exit()`. -/
def Defragger.exit (stop : Defragger → Defragger) (workerEnds : Defragger → Bool)
    (self : Defragger) : Defragger.Outcome :=
  let s1 := stop self
  let s2 := { s1 with quit := true, events := s1.events ++ [Defragger.Event.storeQuit true] }
  Defragger.join workerEnds s2

/-- Modelled from the spec: `Defragger::stop()` (Defragger.cpp is not among the sources;
the header only declares it): "`start()` / `stop()`: toggle the `running` flag"; `stop()`
clears it. -/
def Defragger.stop (self : Defragger) : Defragger :=
  { self with running := false,
              events := self.events ++ [Defragger.Event.storeRunning false] }

/-- Source: `virtual ~Defragger() { exit(); }` (the rest of the body is commented out). An
exception that leaves the destructor ends the program (`std::terminate`); the ending is
`threw` all the same. -/
def Defragger.destructor (stop : Defragger → Defragger) (workerEnds : Defragger → Bool)
    (self : Defragger) : Defragger.Outcome :=
  Defragger.exit stop workerEnds self

/-- The operations that come after the last store of `true` to `quit` in a sequence of
operations (the whole sequence when `quit` is never set). -/
def Defragger.afterQuit : List Defragger.Event → List Defragger.Event
  | [] => []
  | e :: es =>
    if Defragger.Event.storeQuit true ∈ es then Defragger.afterQuit es
    else if e = Defragger.Event.storeQuit true then es
    else e :: es

end Saiga.Vulkan.Memory

namespace Saiga

/-! ## core/util/SpinLock.h -/

/-- Source: `class SpinLock`, whose only member is `std::atomic_flag v = ATOMIC_FLAG_INIT`
(clear). `v = true` means the flag is set, that is, the lock is held. -/
structure SpinLock where
  v : Bool
  deriving DecidableEq, Repr

/-- The lock as constructed: `ATOMIC_FLAG_INIT`, the flag is clear. -/
def SpinLock.free : SpinLock := ⟨false⟩

/-- Source: `bool try_lock() { return !v.test_and_set(std::memory_order_acquire); }`;
`test_and_set` sets the flag and returns the value it held before. -/
def SpinLock.try_lock (self : SpinLock) : Bool × SpinLock :=
  (!self.v, ⟨true⟩)

/-- Source: `void unlock() { v.clear(std::memory_order_release); }`. -/
def SpinLock.unlock (_self : SpinLock) : SpinLock :=
  ⟨false⟩

/-- The loop of `lock()`, `for (unsigned k = 0; !try_lock(); ++k) { yield(k); }`, run for at
most `fuel` attempts: the result is the final value of `k` (the number of failed attempts;
`unsigned` wraps at `2^32`) and the lock, or `none` when the lock is still not acquired.
`yield(k)` does nothing or gives up the time slice; it changes no state. -/
def SpinLock.lockLoop : Nat → Nat → SpinLock → Option (Nat × SpinLock)
  | 0, _, _ => none
  | fuel + 1, k, self =>
    match self.try_lock with
    | (true, s) => some (k, s)
    | (false, s) => SpinLock.lockLoop fuel ((k + 1) % 2 ^ 32) s

/-- Source: `void lock()`, the loop started with `k = 0`. -/
def SpinLock.lock (fuel : Nat) (self : SpinLock) : Option (Nat × SpinLock) :=
  SpinLock.lockLoop fuel 0 self

/-- The calls a single thread can make on a lock without blocking. -/
inductive SpinLock.Op where
  | try_lock
  | unlock
  deriving DecidableEq, Repr

/-- The lock after a sequence of calls. -/
def SpinLock.after : List SpinLock.Op → SpinLock → SpinLock
  | [], s => s
  | .try_lock :: ops, s => SpinLock.after ops s.try_lock.2
  | .unlock :: ops, s => SpinLock.after ops s.unlock

/-- The results of `n` calls of `try_lock()` in a row, and the lock after them. -/
def SpinLock.tryLockTimes : Nat → SpinLock → List Bool × SpinLock
  | 0, s => ([], s)
  | n + 1, s =>
    let r := s.try_lock
    let rest := SpinLock.tryLockTimes n r.2
    (r.1 :: rest.1, rest.2)

/-! ## vision/scene/Scene.h -/

/-- A vector of three numbers (`vec3`, `Eigen::Vector3d`); floating-point components are
rational numbers, arithmetic on them is exact. -/
structure Vec3 where
  x : ℚ
  y : ℚ
  z : ℚ
  deriving DecidableEq, Repr

/-- Source: `struct WorldPoint`: `p`, `valid`, `constant` and
`std::vector<std::pair<int, int>> stereoreferences` (pairs ImageID, ImagePointID). -/
structure WorldPoint where
  p : Vec3
  valid : Bool
  constant : Bool
  stereoreferences : List (Int × Int)
  deriving DecidableEq, Repr

/-- The `operator<` of `std::pair<int, int>`: lexicographic,
`a.first < b.first || (!(b.first < a.first) && a.second < b.second)`. -/
def pairLt (a b : Int × Int) : Bool :=
  decide (a.1 < b.1) || (!decide (b.1 < a.1) && decide (a.2 < b.2))

/-- Insertion of one pair into an ascending sequence, behind the elements that are less. -/
def sortInsert (x : Int × Int) : List (Int × Int) → List (Int × Int)
  | [] => [x]
  | y :: ys => if pairLt y x then y :: sortInsert x ys else x :: y :: ys

/-- Standard `std::sort(cpy.begin(), cpy.end())` on pairs: the ascending rearrangement of
the sequence (there is only one, the order being total). -/
def stdSort : List (Int × Int) → List (Int × Int)
  | [] => []
  | x :: xs => sortInsert x (stdSort xs)

/-- Standard `std::unique(first, last)`: the elements kept in front of the returned
iterator, one element of every group of consecutive equal elements. -/
def stdUnique : List (Int × Int) → List (Int × Int)
  | [] => []
  | [x] => [x]
  | x :: y :: rest => if x = y then stdUnique (y :: rest) else x :: stdUnique (y :: rest)

/-- Source: `bool uniqueReferences() const`: copy, sort, `std::unique`, and
`return it == cpy.end()`; the iterator returned by `std::unique` is the end of the copy
exactly when nothing was removed. The point itself is returned next to the result, as the
method leaves it. -/
def WorldPoint.uniqueReferences (self : WorldPoint) : Bool × WorldPoint :=
  let cpy := self.stereoreferences
  let cpy := stdSort cpy
  let it := (stdUnique cpy).length
  (it == cpy.length, self)

/-- Source: `bool isValid() const { return valid && (!stereoreferences.empty()); }`. -/
def WorldPoint.isValid (self : WorldPoint) : Bool :=
  self.valid && !self.stereoreferences.isEmpty

/-- Source: `explicit operator bool() const { return isValid(); }`. -/
def WorldPoint.toBool (self : WorldPoint) : Bool :=
  self.isValid

/-! ## vision/reconstruction/SparseTSDF.h in exact arithmetic

The functions of the header with every `float` a rational number and every operation on
it exact, for the properties that are stated in exact arithmetic. Rounding, NaN, the
infinities and the range of `int` are the subject of the second embedding of the header
further down (`Saiga.Machine`). -/

/-- A vector of three integers (`ivec3`, `VoxelIndex`). -/
structure IVec3 where
  x : Int
  y : Int
  z : Int
  deriving DecidableEq, Repr

/-- Componentwise `corner + ivec3(..)`. -/
def IVec3.add (a b : IVec3) : IVec3 :=
  ⟨a.x + b.x, a.y + b.y, a.z + b.z⟩

/-- Componentwise sum of two vectors. -/
def Vec3.add (a b : Vec3) : Vec3 :=
  ⟨a.x + b.x, a.y + b.y, a.z + b.z⟩

/-- Componentwise difference of two vectors. -/
def Vec3.sub (a b : Vec3) : Vec3 :=
  ⟨a.x - b.x, a.y - b.y, a.z - b.z⟩

/-- Product of a vector with a scalar (`position * voxel_size_inv`, `c * ray_dir`). -/
def Vec3.scale (a : Vec3) (s : ℚ) : Vec3 :=
  ⟨a.x * s, a.y * s, a.z * s⟩

/-- Componentwise `.array().floor()`: the result is still a vector of floats. -/
def Vec3.floor (a : Vec3) : Vec3 :=
  ⟨(⌊a.x⌋ : Int), (⌊a.y⌋ : Int), (⌊a.z⌋ : Int)⟩

/-- Conversion of a float to an integer: truncation toward zero. The exact embedding takes
the integer as it is; `F32.toInt` checks it against the range of `int`. -/
def truncToInt (q : ℚ) : Int :=
  if 0 ≤ q then ⌊q⌋ else ⌈q⌉

/-- Componentwise `.cast<int>()`. -/
def Vec3.castInt (a : Vec3) : IVec3 :=
  ⟨truncToInt a.x, truncToInt a.y, truncToInt a.z⟩

/-- Source: `struct TSDFVoxel { float distance = 0; float weight = 0; }`. -/
structure TSDFVoxel where
  distance : ℚ := 0
  weight : ℚ := 0
  deriving DecidableEq, Repr

/-- Source: `struct SparseTSDF : BlockSparseGrid<TSDFVoxel, 8>`. BlockSparseGrid.h is not
among the sources, so what the header uses of it is taken as given: the members
`voxel_size` and `voxel_size_inv`, and `GetVoxel(index)`, the voxel stored for an index
(any function of the index). -/
structure SparseTSDF where
  voxel_size : ℚ
  voxel_size_inv : ℚ
  GetVoxel : IVec3 → TSDFVoxel

/-- The `SAIGA_ASSERT`s of the header, and the read of the local `last_t`, which
`RaySurfaceIntersection` declares without a value. -/
inductive Fault where
  | wSumNearOne
  | cAtLeastT1
  | cAtMostT2
  | sampleWeightPositive
  | resultAtLeastLastT
  | resultAtMostCurrentT
  | lastTUninitialized
  deriving DecidableEq, Repr

/-- Source: `TrilinearAccess(const vec3& position)`, the 8 voxel ids and weights of a
trilinear access, in the order `result[0]` to `result[7]`. -/
def SparseTSDF.TrilinearAccess (self : SparseTSDF) (position : Vec3) : List (IVec3 × ℚ) :=
  let normalized_pos := position.scale self.voxel_size_inv
  let ipos := normalized_pos.floor
  let frac := normalized_pos.sub ipos
  let corner := ipos.castInt
  [(corner.add ⟨0, 0, 0⟩, (1 - frac.x) * (1 - frac.y) * (1 - frac.z)),
   (corner.add ⟨0, 0, 1⟩, (1 - frac.x) * (1 - frac.y) * frac.z),
   (corner.add ⟨0, 1, 0⟩, (1 - frac.x) * frac.y * (1 - frac.z)),
   (corner.add ⟨0, 1, 1⟩, (1 - frac.x) * frac.y * frac.z),
   (corner.add ⟨1, 0, 0⟩, frac.x * (1 - frac.y) * (1 - frac.z)),
   (corner.add ⟨1, 0, 1⟩, frac.x * (1 - frac.y) * frac.z),
   (corner.add ⟨1, 1, 0⟩, frac.x * frac.y * (1 - frac.z)),
   (corner.add ⟨1, 1, 1⟩, frac.x * frac.y * frac.z)]

/-- The loop `for (auto& iw : indices_weights)` of the second `TrilinearAccess`, from the
current values of `result` and `w_sum`: `false` as soon as a voxel has
`v.weight <= min_weight` (with `result` and `w_sum` as they are at that moment), `true`
when the loop runs to its end. -/
def SparseTSDF.accumulate (self : SparseTSDF) (min_weight : ℚ) :
    List (IVec3 × ℚ) → TSDFVoxel → ℚ → Bool × TSDFVoxel × ℚ
  | [], result, w_sum => (true, result, w_sum)
  | iw :: rest, result, w_sum =>
    let v := self.GetVoxel iw.1
    if v.weight ≤ min_weight then (false, result, w_sum)
    else
      SparseTSDF.accumulate self min_weight rest
        { distance := result.distance + v.distance * iw.2,
          weight := result.weight + v.weight * iw.2 }
        (w_sum + iw.2)

/-- Source: `bool TrilinearAccess(const vec3& position, Voxel& result, float min_weight)`:
the returned flag together with `result` as the call leaves it; an error is the failure
of `SAIGA_ASSERT(std::abs(w_sum - 1) < 0.0001)`. -/
def SparseTSDF.TrilinearAccessVoxel (self : SparseTSDF) (position : Vec3) (min_weight : ℚ) :
    Except Fault (Bool × TSDFVoxel) :=
  let indices_weights := self.TrilinearAccess position
  match self.accumulate min_weight indices_weights { distance := 0, weight := 0 } 0 with
  | (false, result, _) => .ok (false, result)
  | (true, result, w_sum) =>
    if |w_sum - 1| < 1 / 10000 then .ok (true, result) else .error .wSumNearOne

/-- Source: `IntersectionLinear`: `t1 + (d1 / (d1 - d2)) * (t2 - t1)`. -/
def SparseTSDF.IntersectionLinear (t1 t2 d1 d2 : ℚ) : ℚ :=
  t1 + (d1 / (d1 - d2)) * (t2 - t1)

/-- The loop of `findIntersectionBisection` with `n` iterations left, from the current
`a`, `b`, `aDist`, `bDist`, `c`: `ok (some c)` is `return true` with `t = c`, `ok none` is
`return false`. -/
def SparseTSDF.bisectLoop (self : SparseTSDF) (ray_origin ray_dir : Vec3)
    (t1 t2 min_weight : ℚ) : Nat → ℚ → ℚ → ℚ → ℚ → ℚ → Except Fault (Option ℚ)
  | 0, _, _, _, _, c => .ok (some c)
  | n + 1, a, b, aDist, bDist, c =>
    if ¬ (c ≥ t1) then .error .cAtLeastT1
    else if ¬ (c ≤ t2) then .error .cAtMostT2
    else
      match self.TrilinearAccessVoxel (ray_origin.add (ray_dir.scale c)) min_weight with
      | .error e => .error e
      | .ok (false, _) => .ok none
      | .ok (true, sample) =>
        let cDist := sample.distance
        if aDist * cDist > 0 then
          SparseTSDF.bisectLoop self ray_origin ray_dir t1 t2 min_weight n c b cDist bDist
            (SparseTSDF.IntersectionLinear c b cDist bDist)
        else
          SparseTSDF.bisectLoop self ray_origin ray_dir t1 t2 min_weight n a c aDist cDist
            (SparseTSDF.IntersectionLinear a c aDist cDist)

/-- Source: `findIntersectionBisection<bisect_iterations>(ray_origin, ray_dir, t1, t2, d1,
d2, t, min_weight)`: `a = t1`, `b = t2`, `aDist = d1`, `bDist = d2`,
`c = IntersectionLinear(a, b, aDist, bDist)`, then the loop. -/
def SparseTSDF.findIntersectionBisection (self : SparseTSDF) (bisect_iterations : Nat)
    (ray_origin ray_dir : Vec3) (t1 t2 d1 d2 min_weight : ℚ) : Except Fault (Option ℚ) :=
  self.bisectLoop ray_origin ray_dir t1 t2 min_weight bisect_iterations t1 t2 d1 d2
    (SparseTSDF.IntersectionLinear t1 t2 d1 d2)

/-- The loop `while (current_t < max_t)` of `RaySurfaceIntersection`, for at most `fuel`
iterations, from the current `current_t`, `last_t` (`none` while it has no value) and
`last_sample`: `none` when the iterations do not suffice, otherwise the returned value or
the assertion that failed. `current_step` is never changed and is `step`. -/
def SparseTSDF.rayLoop (self : SparseTSDF) (bisect_iterations : Nat)
    (ray_origin ray_dir : Vec3) (max_t step min_confidence : ℚ) (verbose : Bool) :
    Nat → ℚ → Option ℚ → TSDFVoxel → Option (Except Fault ℚ)
  | 0, current_t, _, _ => if current_t < max_t then none else some (.ok max_t)
  | fuel + 1, current_t, last_t, last_sample =>
    if current_t < max_t then
      let current_pos := ray_origin.add (ray_dir.scale current_t)
      match self.TrilinearAccessVoxel current_pos min_confidence with
      | .error e => some (.error e)
      | .ok (tril, current_sample) =>
        let next := SparseTSDF.rayLoop self bisect_iterations ray_origin ray_dir max_t step
          min_confidence verbose fuel (current_t + step) (some current_t) current_sample
        if tril then
          if ¬ (current_sample.weight > 0) then some (.error .sampleWeightPositive)
          else if !verbose && decide (last_sample.weight > 0) &&
              decide (last_sample.distance > 0) && decide (current_sample.distance < 0) then
            match last_t with
            | none => some (.error .lastTUninitialized)
            | some last =>
              match self.findIntersectionBisection bisect_iterations ray_origin ray_dir
                  last current_t last_sample.distance current_sample.distance
                  min_confidence with
              | .error e => some (.error e)
              | .ok none => next
              | .ok (some t_bi) =>
                if ¬ (t_bi ≥ last) then some (.error .resultAtLeastLastT)
                else if ¬ (t_bi ≤ current_t) then some (.error .resultAtMostCurrentT)
                else some (.ok t_bi)
          else next
        else next
    else some (.ok max_t)

/-- The fractional part `frac = normalized_pos - ipos` that `TrilinearAccess(position)`
computes, with `normalized_pos = position * voxel_size_inv` and
`ipos = floor(normalized_pos)`. -/
def SparseTSDF.frac (self : SparseTSDF) (position : Vec3) : Vec3 :=
  (position.scale self.voxel_size_inv).sub (position.scale self.voxel_size_inv).floor

/-- The index `corner = ipos.cast<int>()` that `TrilinearAccess(position)` computes. -/
def SparseTSDF.corner (self : SparseTSDF) (position : Vec3) : IVec3 :=
  (position.scale self.voxel_size_inv).floor.castInt

/-- A grid with voxels of size 1 whose distance decreases linearly along x and vanishes
on the plane `x = 5/2`; every voxel has weight 1. -/
def planeTSDF : SparseTSDF :=
  { voxel_size := 1, voxel_size_inv := 1,
    GetVoxel := fun i => { distance := 5 / 2 - i.x, weight := 1 } }

/-! ## Machine arithmetic: `float` as IEEE 754 binary32, `int` as 32 bits -/

/-- The number of times `n` can be halved before it drops below 2, that is
`floor(log2 n)` for `n ≥ 1` (`fuel` bounds the number of halvings; `n` itself suffices). -/
def log2Nat : Nat → Nat → Nat
  | 0, _ => 0
  | fuel + 1, n => if n < 2 then 0 else log2Nat fuel (n / 2) + 1

/-- The power `2^e` of two with an integer exponent. -/
def pow2 (e : Int) : ℚ :=
  if 0 ≤ e then (2 : ℚ) ^ e.toNat else 1 / (2 : ℚ) ^ (-e).toNat

/-- For a positive rational `q`, the exponent `e` with `2^e ≤ q < 2^(e+1)`: the difference
of the binary logarithms of numerator and denominator, or one less. -/
def floorLog2 (q : ℚ) : Int :=
  let e0 : Int := (log2Nat q.num.natAbs q.num.natAbs : Int) - (log2Nat q.den q.den : Int)
  if pow2 e0 ≤ q then e0 else e0 - 1

/-- Rounding of a rational to the nearest integer, a tie going to the even one. -/
def roundHalfEven (y : ℚ) : Int :=
  if y - ⌊y⌋ < 1 / 2 then ⌊y⌋
  else if 1 / 2 < y - ⌊y⌋ then ⌊y⌋ + 1
  else if ⌊y⌋ % 2 = 0 then ⌊y⌋ else ⌊y⌋ + 1

/-- A C++ `float` on a platform with IEEE 754 binary32 arithmetic: not-a-number, the two
infinities, or a finite number. `-0` and `+0` are the same value `0`: they compare equal,
`floor` and the conversion to `int` do not tell them apart, and the one division of the
functions embedded here (`IntersectionLinear`) divides by a difference `d1 - d2`, which
is `+0` when it vanishes with `d1` different from zero. A finite operand may be any
rational number (`isFloat` tells the binary32 numbers); every arithmetic result is
rounded to binary32. -/
inductive F32 where
  | nan
  | negInf
  | finite (q : ℚ)
  | posInf
  deriving DecidableEq

namespace F32

/-- The spacing of the binary32 numbers around `q`: `2^(e - 23)` for
`2^e ≤ |q| < 2^(e+1)` (24 significant bits), and `2^-149` for every `|q| < 2^-126`
(gradual underflow). -/
def spacing (q : ℚ) : ℚ :=
  pow2 (max (floorLog2 |q|) (-126) - 23)

/-- The multiple of the spacing nearest to `q`, a tie going to the even multiple. -/
def nearest (q : ℚ) : ℚ :=
  (roundHalfEven (q / spacing q) : ℚ) * spacing q

/-- Rounding of the exact result of an operation to binary32, in the default rounding mode
(to nearest, ties to even); a result that rounds to `2^128` or beyond is an infinity. -/
def ofRat (q : ℚ) : F32 :=
  if q = 0 then .finite 0
  else if pow2 128 ≤ |nearest q| then (if 0 < q then .posInf else .negInf)
  else .finite (nearest q)

/-- The built-in unary `-a`. -/
def neg : F32 → F32
  | .nan => .nan
  | .negInf => .posInf
  | .finite a => .finite (-a)
  | .posInf => .negInf

/-- The built-in `a + b` on `float`. -/
def add : F32 → F32 → F32
  | .nan, _ => .nan
  | _, .nan => .nan
  | .finite a, .finite b => ofRat (a + b)
  | .posInf, .negInf => .nan
  | .negInf, .posInf => .nan
  | .posInf, _ => .posInf
  | _, .posInf => .posInf
  | .negInf, _ => .negInf
  | _, .negInf => .negInf

/-- The built-in `a - b` on `float`: `a + (-b)`. -/
def sub (a b : F32) : F32 :=
  add a (neg b)

/-- The built-in `a * b` on `float`. -/
def mul : F32 → F32 → F32
  | .nan, _ => .nan
  | _, .nan => .nan
  | .finite a, .finite b => ofRat (a * b)
  | .finite a, .posInf => if a = 0 then .nan else if 0 < a then .posInf else .negInf
  | .finite a, .negInf => if a = 0 then .nan else if 0 < a then .negInf else .posInf
  | .posInf, .finite b => if b = 0 then .nan else if 0 < b then .posInf else .negInf
  | .negInf, .finite b => if b = 0 then .nan else if 0 < b then .negInf else .posInf
  | .posInf, .posInf => .posInf
  | .negInf, .negInf => .posInf
  | .posInf, .negInf => .negInf
  | .negInf, .posInf => .negInf

/-- The built-in `a / b` on `float`; a zero divisor is `+0`. -/
def div : F32 → F32 → F32
  | .nan, _ => .nan
  | _, .nan => .nan
  | .finite a, .finite b =>
    if b = 0 then (if a = 0 then .nan else if 0 < a then .posInf else .negInf)
    else ofRat (a / b)
  | .finite _, .posInf => .finite 0
  | .finite _, .negInf => .finite 0
  | .posInf, .finite b => if 0 ≤ b then .posInf else .negInf
  | .negInf, .finite b => if 0 ≤ b then .negInf else .posInf
  | .posInf, .posInf => .nan
  | .posInf, .negInf => .nan
  | .negInf, .posInf => .nan
  | .negInf, .negInf => .nan

/-- Standard `std::floor` on `float` (Eigen's `.array().floor()` per component): the result
is a `float` again and is exact. -/
def floor : F32 → F32
  | .finite a => .finite (⌊a⌋ : Int)
  | x => x

/-- Standard `std::abs` on `float`. -/
def abs : F32 → F32
  | .nan => .nan
  | .negInf => .posInf
  | .finite a => .finite |a|
  | .posInf => .posInf

/-- The built-in `a < b` on `float`: false as soon as one operand is NaN. -/
def lt : F32 → F32 → Bool
  | .finite a, .finite b => decide (a < b)
  | .negInf, .finite _ => true
  | .negInf, .posInf => true
  | .finite _, .posInf => true
  | _, _ => false

/-- The built-in `a <= b` on `float`: false as soon as one operand is NaN. -/
def le : F32 → F32 → Bool
  | .nan, _ => false
  | _, .nan => false
  | .finite a, .finite b => decide (a ≤ b)
  | .negInf, _ => true
  | _, .posInf => true
  | _, _ => false

/-- The built-in `a > b` on `float`. -/
def gt (a b : F32) : Bool :=
  lt b a

/-- The built-in `a >= b` on `float`. -/
def ge (a b : F32) : Bool :=
  le b a

/-- The conversion `static_cast<int>(a)` (Eigen's `.cast<int>()` per component) to a 32-bit
`int`: the value is truncated toward zero; when the truncated value is not an `int`, or
`a` is not finite, the behaviour is undefined (`none`). -/
def toInt : F32 → Option Int
  | .finite a =>
    if -2147483648 ≤ truncToInt a ∧ truncToInt a ≤ 2147483647 then some (truncToInt a)
    else none
  | _ => none

/-- The operand is a value of the type `float`: not-a-number, an infinity, or a finite
number that binary32 represents (rounding leaves it unchanged). -/
def isFloat : F32 → Bool
  | .finite a => decide (ofRat a = .finite a)
  | _ => true

end F32

/-! ## vision/reconstruction/SparseTSDF.h with machine arithmetic

The functions of SparseTSDF.h once more, for the properties that are not stated in exact
arithmetic: every `float` is an `F32`, every operation on floats is rounded where the
C++ expression rounds (a product and a sum are two roundings, never a fused
multiply-add), and a voxel index is a vector of 32-bit `int`s. -/

namespace Machine

/-- A `vec3` (`Eigen::Vector3f`). -/
structure Vec3 where
  x : F32
  y : F32
  z : F32
  deriving DecidableEq

/-- Componentwise sum of two vectors (`ray_origin + ..`). -/
def Vec3.add (a b : Vec3) : Vec3 :=
  ⟨F32.add a.x b.x, F32.add a.y b.y, F32.add a.z b.z⟩

/-- Componentwise difference of two vectors (`normalized_pos - ipos`). -/
def Vec3.sub (a b : Vec3) : Vec3 :=
  ⟨F32.sub a.x b.x, F32.sub a.y b.y, F32.sub a.z b.z⟩

/-- Product of a vector with a scalar (`position * voxel_size_inv`, `ray_dir * current_t`,
`c * ray_dir`): each component is multiplied by the scalar. -/
def Vec3.scale (a : Vec3) (s : F32) : Vec3 :=
  ⟨F32.mul a.x s, F32.mul a.y s, F32.mul a.z s⟩

/-- Componentwise `.array().floor()`. -/
def Vec3.floor (a : Vec3) : Vec3 :=
  ⟨a.x.floor, a.y.floor, a.z.floor⟩

/-- Componentwise `.cast<int>()`; undefined (`none`) as soon as one component is. -/
def Vec3.castInt (a : Vec3) : Option IVec3 :=
  match a.x.toInt, a.y.toInt, a.z.toInt with
  | some x, some y, some z => some ⟨x, y, z⟩
  | _, _, _ => none

/-- The values of a 32-bit `int`. -/
def isInt32 (n : Int) : Bool :=
  decide (-2147483648 ≤ n) && decide (n ≤ 2147483647)

/-- Source: `struct TSDFVoxel { float distance = 0; float weight = 0; }`. -/
structure TSDFVoxel where
  distance : F32 := .finite 0
  weight : F32 := .finite 0
  deriving DecidableEq

/-- Source: `struct SparseTSDF : BlockSparseGrid<TSDFVoxel, 8>`. BlockSparseGrid.h is not
among the sources, so what the header uses of it is taken as given: the members
`voxel_size` and `voxel_size_inv`, and `GetVoxel(index)`, the voxel stored for an index
(any function of the index). -/
structure SparseTSDF where
  voxel_size : F32
  voxel_size_inv : F32
  GetVoxel : IVec3 → TSDFVoxel

/-- How a call can end without a result: one of the `SAIGA_ASSERT`s of the header fails,
the local `last_t` of `RaySurfaceIntersection` is read without a value, or the
behaviour is undefined because a `float` is converted to an `int` that cannot hold it or
an index computation overflows `int`. -/
inductive Fault where
  | wSumNearOne
  | cAtLeastT1
  | cAtMostT2
  | sampleWeightPositive
  | resultAtLeastLastT
  | resultAtMostCurrentT
  | lastTUninitialized
  | castOutOfRange
  | indexOverflow
  deriving DecidableEq, Repr

/-- What a call yields: a result, or the fault that ends it. -/
inductive Outcome (α : Type) where
  | ok (a : α)
  | fault (f : Fault)
  deriving DecidableEq

/-- Source: `TrilinearAccess(const vec3& position)`, the 8 voxel ids and weights of a
trilinear access, in the order `result[0]` to `result[7]`. `corner` is an `int` vector
in range; `corner + ivec3(..)` adds 0 or 1 per axis, so the eight sums are defined
exactly when `corner + ivec3(1, 1, 1)` is. -/
def SparseTSDF.TrilinearAccess (self : SparseTSDF) (position : Vec3) :
    Outcome (List (IVec3 × F32)) :=
  let normalized_pos := position.scale self.voxel_size_inv
  let ipos := normalized_pos.floor
  let frac := normalized_pos.sub ipos
  match ipos.castInt with
  | none => .fault .castOutOfRange
  | some corner =>
    if isInt32 (corner.x + 1) && isInt32 (corner.y + 1) && isInt32 (corner.z + 1) then
      let one : F32 := .finite 1
      .ok
        [(corner.add ⟨0, 0, 0⟩,
            F32.mul (F32.mul (F32.sub one frac.x) (F32.sub one frac.y)) (F32.sub one frac.z)),
         (corner.add ⟨0, 0, 1⟩,
            F32.mul (F32.mul (F32.sub one frac.x) (F32.sub one frac.y)) frac.z),
         (corner.add ⟨0, 1, 0⟩,
            F32.mul (F32.mul (F32.sub one frac.x) frac.y) (F32.sub one frac.z)),
         (corner.add ⟨0, 1, 1⟩, F32.mul (F32.mul (F32.sub one frac.x) frac.y) frac.z),
         (corner.add ⟨1, 0, 0⟩,
            F32.mul (F32.mul frac.x (F32.sub one frac.y)) (F32.sub one frac.z)),
         (corner.add ⟨1, 0, 1⟩, F32.mul (F32.mul frac.x (F32.sub one frac.y)) frac.z),
         (corner.add ⟨1, 1, 0⟩, F32.mul (F32.mul frac.x frac.y) (F32.sub one frac.z)),
         (corner.add ⟨1, 1, 1⟩, F32.mul (F32.mul frac.x frac.y) frac.z)]
    else .fault .indexOverflow

/-- The loop `for (auto& iw : indices_weights)` of the second `TrilinearAccess`, from the
current values of `result` and `w_sum`: `false` as soon as a voxel has
`v.weight <= min_weight` (with `result` and `w_sum` as they are at that moment), `true`
when the loop runs to its end. -/
def SparseTSDF.accumulate (self : SparseTSDF) (min_weight : F32) :
    List (IVec3 × F32) → TSDFVoxel → F32 → Bool × TSDFVoxel × F32
  | [], result, w_sum => (true, result, w_sum)
  | iw :: rest, result, w_sum =>
    let v := self.GetVoxel iw.1
    if F32.le v.weight min_weight then (false, result, w_sum)
    else
      SparseTSDF.accumulate self min_weight rest
        { distance := F32.add result.distance (F32.mul v.distance iw.2),
          weight := F32.add result.weight (F32.mul v.weight iw.2) }
        (F32.add w_sum iw.2)

/-- The `double` constant `0.0001`: the binary64 number nearest to one ten-thousandth. -/
def double_0_0001 : ℚ :=
  7378697629483821 / 73786976294838206464

/-- Source: `bool TrilinearAccess(const vec3& position, Voxel& result, float min_weight)`:
the returned flag together with `result` as the call leaves it. In
`SAIGA_ASSERT(std::abs(w_sum - 1) < 0.0001)` the difference `w_sum - 1` and its absolute
value are `float`s, and the comparison with the `double` constant is exact. -/
def SparseTSDF.TrilinearAccessVoxel (self : SparseTSDF) (position : Vec3) (min_weight : F32) :
    Outcome (Bool × TSDFVoxel) :=
  match self.TrilinearAccess position with
  | .fault f => .fault f
  | .ok indices_weights =>
    match self.accumulate min_weight indices_weights
        { distance := .finite 0, weight := .finite 0 } (.finite 0) with
    | (false, result, _) => .ok (false, result)
    | (true, result, w_sum) =>
      if F32.lt (F32.sub w_sum (.finite 1)).abs (.finite double_0_0001) then .ok (true, result)
      else .fault .wSumNearOne

/-- Source: `IntersectionLinear`: `t1 + (d1 / (d1 - d2)) * (t2 - t1)`. -/
def SparseTSDF.IntersectionLinear (t1 t2 d1 d2 : F32) : F32 :=
  F32.add t1 (F32.mul (F32.div d1 (F32.sub d1 d2)) (F32.sub t2 t1))

/-- The loop of `findIntersectionBisection` with `n` iterations left, from the current
`a`, `b`, `aDist`, `bDist`, `c`: `ok (some c)` is `return true` with `t = c`, `ok none` is
`return false`. -/
def SparseTSDF.bisectLoop (self : SparseTSDF) (ray_origin ray_dir : Vec3)
    (t1 t2 min_weight : F32) : Nat → F32 → F32 → F32 → F32 → F32 → Outcome (Option F32)
  | 0, _, _, _, _, c => .ok (some c)
  | n + 1, a, b, aDist, bDist, c =>
    if !F32.ge c t1 then .fault .cAtLeastT1
    else if !F32.le c t2 then .fault .cAtMostT2
    else
      match self.TrilinearAccessVoxel (ray_origin.add (ray_dir.scale c)) min_weight with
      | .fault f => .fault f
      | .ok (false, _) => .ok none
      | .ok (true, sample) =>
        let cDist := sample.distance
        if F32.gt (F32.mul aDist cDist) (.finite 0) then
          SparseTSDF.bisectLoop self ray_origin ray_dir t1 t2 min_weight n c b cDist bDist
            (SparseTSDF.IntersectionLinear c b cDist bDist)
        else
          SparseTSDF.bisectLoop self ray_origin ray_dir t1 t2 min_weight n a c aDist cDist
            (SparseTSDF.IntersectionLinear a c aDist cDist)

/-- Source: `findIntersectionBisection<bisect_iterations>(ray_origin, ray_dir, t1, t2, d1,
d2, t, min_weight)`: `a = t1`, `b = t2`, `aDist = d1`, `bDist = d2`,
`c = IntersectionLinear(a, b, aDist, bDist)`, then the loop. -/
def SparseTSDF.findIntersectionBisection (self : SparseTSDF) (bisect_iterations : Nat)
    (ray_origin ray_dir : Vec3) (t1 t2 d1 d2 min_weight : F32) : Outcome (Option F32) :=
  self.bisectLoop ray_origin ray_dir t1 t2 min_weight bisect_iterations t1 t2 d1 d2
    (SparseTSDF.IntersectionLinear t1 t2 d1 d2)

/-- The loop `while (current_t < max_t)` of `RaySurfaceIntersection`, for at most `fuel`
iterations, from the current `current_t`, `last_t` (`none` while it has no value) and
`last_sample`: `none` when the iterations do not suffice, otherwise the returned value or
the fault that ends the call. `current_step` is never changed and is `step`. -/
def SparseTSDF.rayLoop (self : SparseTSDF) (bisect_iterations : Nat)
    (ray_origin ray_dir : Vec3) (max_t step min_confidence : F32) (verbose : Bool) :
    Nat → F32 → Option F32 → TSDFVoxel → Option (Outcome F32)
  | 0, current_t, _, _ => if F32.lt current_t max_t then none else some (.ok max_t)
  | fuel + 1, current_t, last_t, last_sample =>
    if F32.lt current_t max_t then
      let current_pos := ray_origin.add (ray_dir.scale current_t)
      match self.TrilinearAccessVoxel current_pos min_confidence with
      | .fault f => some (.fault f)
      | .ok (tril, current_sample) =>
        let next := SparseTSDF.rayLoop self bisect_iterations ray_origin ray_dir max_t step
          min_confidence verbose fuel (F32.add current_t step) (some current_t) current_sample
        if tril then
          if !F32.gt current_sample.weight (.finite 0) then some (.fault .sampleWeightPositive)
          else if !verbose && F32.gt last_sample.weight (.finite 0) &&
              F32.gt last_sample.distance (.finite 0) &&
              F32.lt current_sample.distance (.finite 0) then
            match last_t with
            | none => some (.fault .lastTUninitialized)
            | some last =>
              match self.findIntersectionBisection bisect_iterations ray_origin ray_dir
                  last current_t last_sample.distance current_sample.distance
                  min_confidence with
              | .fault f => some (.fault f)
              | .ok none => next
              | .ok (some t_bi) =>
                if !F32.ge t_bi last then some (.fault .resultAtLeastLastT)
                else if !F32.le t_bi current_t then some (.fault .resultAtMostCurrentT)
                else some (.ok t_bi)
          else next
        else next
    else some (.ok max_t)

/-- The factor one axis contributes to a trilinear weight: the fractional part `f` when
the corner is the upper one on that axis (bit 1), `1.0f - f` when it is the lower one. -/
def axisWeight (bit : Bool) (f : F32) : F32 :=
  if bit then f else F32.sub (.finite 1) f

/-- A grid with voxels of size 1 in which every voxel has distance 0 and a NaN weight. -/
def nanTSDF : SparseTSDF :=
  { voxel_size := .finite 1, voxel_size_inv := .finite 1,
    GetVoxel := fun _ => { distance := .finite 0, weight := .nan } }

/-- A grid with voxels of size 1 in which every voxel is the default voxel (distance 0,
weight 0). -/
def emptyTSDF : SparseTSDF :=
  { voxel_size := .finite 1, voxel_size_inv := .finite 1, GetVoxel := fun _ => {} }

/-- A grid with voxels of size 1/100 (`voxel_size_inv = 100`) of default voxels. -/
def fineTSDF : SparseTSDF :=
  { voxel_size := F32.ofRat (1 / 100), voxel_size_inv := .finite 100, GetVoxel := fun _ => {} }

/-- A grid with voxels of size 1 and weight 1 whose distance is 1 in the plane `x = -3`,
`-3` in the plane `x = 16777215` and `2^30` elsewhere. -/
def stepTSDF : SparseTSDF :=
  { voxel_size := .finite 1, voxel_size_inv := .finite 1,
    GetVoxel := fun i =>
      { distance := if i.x = -3 then .finite 1
                    else if i.x = 16777215 then .finite (-3) else .finite 1073741824,
        weight := .finite 1 } }

/-- A grid with voxels of size 1 whose distance decreases linearly along x and vanishes
on the plane `x = 5/2`; every voxel has weight 1. -/
def planeTSDF : SparseTSDF :=
  { voxel_size := .finite 1, voxel_size_inv := .finite 1,
    GetVoxel := fun i => { distance := .finite (5 / 2 - i.x), weight := .finite 1 } }

end Machine

end Saiga

namespace Saiga.Vulkan.Memory

/-! # Theorems -/

theorem land_eq_right_iff_bitsSubset (a b : Nat) : a &&& b = b ↔ bitsSubset b a := by
  constructor
  · intro h i hb
    have h2 : (a &&& b).testBit i = true := by rw [h]; exact hb
    rw [Nat.testBit_land] at h2
    simp only [Bool.and_eq_true] at h2
    exact h2.1
  · intro h
    apply Nat.eq_of_testBit_eq
    intro i
    rw [Nat.testBit_land]
    cases hb : b.testBit i
    · simp
    · simp [h i hb]

theorem bitsSubset_antisymm (a b : Nat) (h1 : bitsSubset a b) (h2 : bitsSubset b a) : a = b := by
  apply Nat.eq_of_testBit_eq
  intro i
  cases ha : a.testBit i
  · cases hb : b.testBit i
    · rfl
    · rw [h2 i hb] at ha
      exact ha.symm
  · exact (h1 i ha).symm

theorem MemoryType.valid_iff_land (a b : MemoryType) :
    MemoryType.valid a b = true ↔
      a.usageFlags &&& b.usageFlags = b.usageFlags ∧
      a.memoryFlags &&& b.memoryFlags = b.memoryFlags := by
  simp [MemoryType.valid]

theorem MemoryType.eq_iff_fields (a b : MemoryType) :
    MemoryType.eq a b = true ↔
      a.usageFlags = b.usageFlags ∧ a.memoryFlags = b.memoryFlags := by
  simp [MemoryType.eq]

/-- C1: `a.valid(b)` is true exactly when every bit set in `b.usageFlags` is set in
`a.usageFlags` and every bit set in `b.memoryFlags` is set in `a.memoryFlags`, that is
`(a.usageFlags & b.usageFlags) == b.usageFlags` and
`(a.memoryFlags & b.memoryFlags) == b.memoryFlags`. -/
theorem MemoryType.valid_iff_superset (a b : MemoryType) :
    (MemoryType.valid a b = true ↔
      bitsSubset b.usageFlags a.usageFlags ∧ bitsSubset b.memoryFlags a.memoryFlags) ∧
    (MemoryType.valid a b = true ↔
      a.usageFlags &&& b.usageFlags = b.usageFlags ∧
      a.memoryFlags &&& b.memoryFlags = b.memoryFlags) := by
  refine ⟨?_, MemoryType.valid_iff_land a b⟩
  rw [MemoryType.valid_iff_land, land_eq_right_iff_bitsSubset, land_eq_right_iff_bitsSubset]

/-- C2: `a == b` holds exactly when both flag words agree (so exactly when the two values
are the same value), and `a != b` is the negation of `a == b`. -/
theorem MemoryType.eq_structural (a b : MemoryType) :
    (MemoryType.eq a b = true ↔
      a.usageFlags = b.usageFlags ∧ a.memoryFlags = b.memoryFlags) ∧
    (MemoryType.eq a b = true ↔ a = b) ∧
    MemoryType.ne a b = !(MemoryType.eq a b) := by
  refine ⟨MemoryType.eq_iff_fields a b, ?_, ?_⟩
  · cases a; cases b; simp [MemoryType.eq]
  · simp only [MemoryType.ne, MemoryType.eq]
    congr 1
    rw [Bool.eq_iff_iff]
    simp only [Bool.and_eq_true, beq_iff_eq]
    constructor <;> rintro ⟨h1, h2⟩ <;> exact ⟨h1.symm, h2.symm⟩

/-- C3: `a.valid(b)` and `b.valid(a)` hold together exactly when `a == b`; in particular
`a.valid(a)` always holds. -/
theorem MemoryType.valid_both_iff_eq (a b : MemoryType) :
    ((MemoryType.valid a b = true ∧ MemoryType.valid b a = true) ↔ MemoryType.eq a b = true) ∧
    MemoryType.valid a a = true := by
  constructor
  · rw [MemoryType.valid_iff_land a b, MemoryType.valid_iff_land b a,
      MemoryType.eq_iff_fields a b]
    simp only [land_eq_right_iff_bitsSubset]
    constructor
    · rintro ⟨⟨h1, h2⟩, h3, h4⟩
      exact ⟨bitsSubset_antisymm _ _ h3 h1, bitsSubset_antisymm _ _ h4 h2⟩
    · rintro ⟨h1, h2⟩
      rw [h1, h2]
      exact ⟨⟨fun _ h => h, fun _ h => h⟩, fun _ h => h, fun _ h => h⟩
  · simp [MemoryType.valid]

/-! ## Ordering of defrag operations -/

theorem FloatVal.gt_trans (a b c : FloatVal) (h1 : FloatVal.gt a b = true)
    (h2 : FloatVal.gt b c = true) : FloatVal.gt a c = true := by
  cases a <;> cases b <;> cases c <;> simp_all [FloatVal.gt]
  exact lt_trans h2 h1

theorem mem_setInsert (x y : Defragger.DefragOperation) (s : List Defragger.DefragOperation)
    (h : y ∈ Defragger.setInsert x s) : y = x ∨ y ∈ s := by
  induction s with
  | nil => simpa [Defragger.setInsert] using h
  | cons z zs ih =>
    simp only [Defragger.setInsert] at h
    split at h
    · rcases List.mem_cons.1 h with h | h
      · exact Or.inr (h ▸ List.mem_cons_self _ _)
      · rcases ih h with h | h
        · exact Or.inl h
        · exact Or.inr (List.mem_cons_of_mem _ h)
    · split at h
      · rcases List.mem_cons.1 h with h | h
        · exact Or.inl h
        · exact Or.inr h
      · exact Or.inr h

theorem setInsert_pairwise (x : Defragger.DefragOperation) (s : List Defragger.DefragOperation)
    (h : s.Pairwise (fun a b => Defragger.DefragOperation.lt a b = true)) :
    (Defragger.setInsert x s).Pairwise (fun a b => Defragger.DefragOperation.lt a b = true) := by
  induction s with
  | nil => simp [Defragger.setInsert]
  | cons z zs ih =>
    rw [List.pairwise_cons] at h
    simp only [Defragger.setInsert]
    split
    · rename_i hzx
      rw [List.pairwise_cons]
      refine ⟨?_, ih h.2⟩
      intro y hy
      rcases mem_setInsert x y zs hy with hy | hy
      · rw [hy]; exact hzx
      · exact h.1 y hy
    · split
      · rename_i hxz
        rw [List.pairwise_cons]
        refine ⟨?_, List.pairwise_cons.2 h⟩
        intro y hy
        rcases List.mem_cons.1 hy with hy | hy
        · rw [hy]; exact hxz
        · exact FloatVal.gt_trans _ _ _ hxz (h.1 y hy)
      · exact List.pairwise_cons.2 h

theorem foldl_setInsert_pairwise (ops s : List Defragger.DefragOperation)
    (h : s.Pairwise (fun a b => Defragger.DefragOperation.lt a b = true)) :
    (ops.foldl (fun s x => Defragger.setInsert x s) s).Pairwise
      (fun a b => Defragger.DefragOperation.lt a b = true) := by
  induction ops generalizing s with
  | nil => exact h
  | cons x xs ih => exact ih _ (setInsert_pairwise x s h)

/-- C4: `a < b` on defrag operations is `a.weight > b.weight` (for finite weights the
numeric comparison), and iterating `defrag_operations` from its beginning visits the
operations in strictly decreasing weight, whatever was inserted and in whatever order. -/
theorem Defragger.DefragOperation.ordered_by_descending_weight :
    (∀ a b : Defragger.DefragOperation,
      Defragger.DefragOperation.lt a b = true ↔ FloatVal.gt a.weight b.weight = true) ∧
    (∀ (s1 t1 s2 t2 : MemoryLocation) (p q : ℚ),
      Defragger.DefragOperation.lt ⟨s1, t1, .finite p⟩ ⟨s2, t2, .finite q⟩ = true ↔ p > q) ∧
    (∀ ops : List Defragger.DefragOperation,
      (Defragger.defrag_operations ops).Pairwise
        (fun a b => FloatVal.gt a.weight b.weight = true)) := by
  refine ⟨fun a b => Iff.rfl, ?_, ?_⟩
  · intro s1 t1 s2 t2 p q
    simp [Defragger.DefragOperation.lt, FloatVal.gt]
  · intro ops
    exact foldl_setInsert_pairwise ops [] List.Pairwise.nil

/-! ## Fit strategies -/

theorem regionAt_zero (c : ChunkAllocation) (cs : List ChunkAllocation) (fi : Nat) :
    regionAt (c :: cs) 0 fi = c.freeList[fi]? := by
  simp [regionAt]

theorem regionAt_succ (c : ChunkAllocation) (cs : List ChunkAllocation) (ci fi : Nat) :
    regionAt (c :: cs) (ci + 1) fi = regionAt cs ci fi := by
  simp [regionAt]

theorem regionAt_mem (chunks : List ChunkAllocation) (ci fi : Nat) (r : FreeListLocation)
    (h : regionAt chunks ci fi = some r) : ∃ c ∈ chunks, r ∈ c.freeList := by
  unfold regionAt at h
  cases hc : chunks[ci]? with
  | none => simp [hc] at h
  | some c =>
    simp only [hc] at h
    exact ⟨c, List.getElem?_mem hc, List.getElem?_mem h⟩

theorem firstFitIn_some (fits : FreeListLocation → Bool) (fl : List FreeListLocation)
    (i : Nat) (r : FreeListLocation) (h : firstFitIn fits fl = some (i, r)) :
    fl[i]? = some r ∧ fits r = true ∧
      ∀ j r2, j < i → fl[j]? = some r2 → fits r2 = false := by
  induction fl generalizing i with
  | nil => simp [firstFitIn] at h
  | cons f fs ih =>
    simp only [firstFitIn] at h
    split at h
    · rename_i hf
      simp only [Option.some.injEq, Prod.mk.injEq] at h
      obtain ⟨rfl, rfl⟩ := h
      exact ⟨by simp, hf, fun j r2 hj => absurd hj (Nat.not_lt_zero j)⟩
    · rename_i hf
      cases hrec : firstFitIn fits fs with
      | none => simp [hrec] at h
      | some x =>
        obtain ⟨k, b⟩ := x
        simp only [hrec, Option.map_some', Option.some.injEq, Prod.mk.injEq] at h
        obtain ⟨rfl, rfl⟩ := h
        obtain ⟨h1, h2, h3⟩ := ih k hrec
        refine ⟨by simpa using h1, h2, ?_⟩
        intro j r2 hj hr2
        cases j with
        | zero =>
          simp only [List.getElem?_cons_zero, Option.some.injEq] at hr2
          rw [← hr2]; simpa using hf
        | succ j =>
          simp only [List.getElem?_cons_succ] at hr2
          exact h3 j r2 (by omega) hr2

theorem firstFitIn_none (fits : FreeListLocation → Bool) (fl : List FreeListLocation) :
    firstFitIn fits fl = none ↔ ∀ r ∈ fl, fits r = false := by
  induction fl with
  | nil => simp [firstFitIn]
  | cons f fs ih =>
    simp only [firstFitIn, List.mem_cons, forall_eq_or_imp]
    split
    · rename_i hf
      simp [hf]
    · rename_i hf
      simp only [Option.map_eq_none', ih]
      simp [hf]

theorem FirstFitStrategy.findRange_some_first (chunks : List ChunkAllocation) (size ci fi : Nat)
    (h : FirstFitStrategy.findRange chunks size = some (ci, fi)) :
    ∃ r, regionAt chunks ci fi = some r ∧ size ≤ r.size ∧
      ∀ cj fj r2, visitedBefore cj fj ci fi → regionAt chunks cj fj = some r2 →
        r2.size < size := by
  induction chunks generalizing ci with
  | nil => simp [FirstFitStrategy.findRange] at h
  | cons c cs ih =>
    simp only [FirstFitStrategy.findRange] at h
    cases hin : firstFitIn (holds size) c.freeList with
    | some x =>
      obtain ⟨k, b⟩ := x
      simp only [hin, Option.some.injEq, Prod.mk.injEq] at h
      obtain ⟨rfl, rfl⟩ := h
      obtain ⟨h1, h2, h3⟩ := firstFitIn_some _ _ _ _ hin
      refine ⟨b, by rw [regionAt_zero]; exact h1, by simpa [holds] using h2, ?_⟩
      intro cj fj r2 hb hr2
      rcases hb with hb | ⟨rfl, hb⟩
      · exact absurd hb (Nat.not_lt_zero cj)
      · rw [regionAt_zero] at hr2
        have := h3 fj r2 hb hr2
        simpa [holds] using this
    | none =>
      simp only [hin] at h
      cases hrec : FirstFitStrategy.findRange cs size with
      | none => simp [hrec] at h
      | some x =>
        obtain ⟨k, l⟩ := x
        simp only [hrec, Option.map_some', Option.some.injEq, Prod.mk.injEq] at h
        obtain ⟨rfl, rfl⟩ := h
        obtain ⟨r, h1, h2, h3⟩ := ih k hrec
        refine ⟨r, by rw [regionAt_succ]; exact h1, h2, ?_⟩
        intro cj fj r2 hb hr2
        cases cj with
        | zero =>
          rw [regionAt_zero] at hr2
          have := (firstFitIn_none _ _).1 hin r2 (List.getElem?_mem hr2)
          simpa [holds] using this
        | succ cj =>
          rw [regionAt_succ] at hr2
          refine h3 cj fj r2 ?_ hr2
          rcases hb with hb | ⟨hb1, hb2⟩
          · exact Or.inl (by omega)
          · exact Or.inr ⟨by omega, hb2⟩

theorem FirstFitStrategy.findRange_none_first (chunks : List ChunkAllocation) (size : Nat) :
    FirstFitStrategy.findRange chunks size = none ↔
      ∀ c ∈ chunks, ∀ r ∈ c.freeList, r.size < size := by
  induction chunks with
  | nil => simp [FirstFitStrategy.findRange]
  | cons c cs ih =>
    simp only [FirstFitStrategy.findRange, List.mem_cons, forall_eq_or_imp]
    cases hin : firstFitIn (holds size) c.freeList with
    | some x =>
      obtain ⟨k, b⟩ := x
      obtain ⟨h1, h2, _⟩ := firstFitIn_some _ _ _ _ hin
      simp only [false_iff, not_and, reduceCtorEq]
      intro hall
      have := hall b (List.getElem?_mem h1)
      simp [holds] at h2
      omega
    | none =>
      simp only [Option.map_eq_none', ih]
      have := (firstFitIn_none _ _).1 hin
      simp only [holds, decide_eq_false_iff_not, not_le] at this
      exact ⟨fun h => ⟨this, h⟩, fun h => h.2⟩

/-- C5: the pair returned by `FirstFitStrategy::findRange` points to a free region that
holds `size`, every free region visited before it (earlier chunk, or same chunk and
earlier free-list position) is smaller than `size`, and the result is "none" exactly
when no free region of any chunk holds `size`; for free regions of sizes 10, 30, 5 and a
request of size 8 it is whichever sufficient region comes first in the free list. -/
theorem FirstFitStrategy.findRange_first_sufficient (chunks : List ChunkAllocation)
    (size : Nat) :
    (∀ ci fi, FirstFitStrategy.findRange chunks size = some (ci, fi) →
      ∃ r, regionAt chunks ci fi = some r ∧ size ≤ r.size ∧
        ∀ cj fj r2, visitedBefore cj fj ci fi → regionAt chunks cj fj = some r2 →
          r2.size < size) ∧
    (FirstFitStrategy.findRange chunks size = none ↔
      ∀ c ∈ chunks, ∀ r ∈ c.freeList, r.size < size) ∧
    (∀ (total o1 o2 o3 : Nat) (live : List MemoryLocation),
      FirstFitStrategy.findRange [⟨total, [⟨o1, 10⟩, ⟨o2, 30⟩, ⟨o3, 5⟩], live⟩] 8 =
        some (0, 0) ∧
      FirstFitStrategy.findRange [⟨total, [⟨o1, 5⟩, ⟨o2, 30⟩, ⟨o3, 10⟩], live⟩] 8 =
        some (0, 1)) :=
  ⟨fun ci fi h => FirstFitStrategy.findRange_some_first chunks size ci fi h,
   FirstFitStrategy.findRange_none_first chunks size,
   fun _ _ _ _ _ => ⟨rfl, rfl⟩⟩

theorem bestFitIn_none_aux (fits : FreeListLocation → Bool) (fl : List FreeListLocation)
    (h : bestFitIn fits fl = none) : ∀ r ∈ fl, fits r = false := by
  induction fl with
  | nil => simp
  | cons f fs ih =>
    simp only [bestFitIn] at h
    cases hrec : bestFitIn fits fs with
    | none =>
      simp only [hrec] at h
      split at h
      · simp at h
      · rename_i hf
        intro r hr
        rcases List.mem_cons.1 hr with rfl | hr
        · simpa using hf
        · exact ih hrec r hr
    | some x =>
      obtain ⟨k, b⟩ := x
      simp only [hrec] at h
      split at h <;> simp at h

theorem bestFitIn_some (fits : FreeListLocation → Bool) (fl : List FreeListLocation)
    (i : Nat) (r : FreeListLocation) (h : bestFitIn fits fl = some (i, r)) :
    fl[i]? = some r ∧ fits r = true ∧ ∀ r2 ∈ fl, fits r2 = true → r.size ≤ r2.size := by
  induction fl generalizing i r with
  | nil => simp [bestFitIn] at h
  | cons f fs ih =>
    simp only [bestFitIn] at h
    cases hrec : bestFitIn fits fs with
    | none =>
      simp only [hrec] at h
      split at h
      · rename_i hf
        simp only [Option.some.injEq, Prod.mk.injEq] at h
        obtain ⟨rfl, rfl⟩ := h
        refine ⟨by simp, hf, ?_⟩
        intro r2 hr2 hfit
        rcases List.mem_cons.1 hr2 with rfl | hr2
        · exact Nat.le_refl _
        · have := (bestFitIn_none_aux fits fs hrec) r2 hr2
          rw [this] at hfit
          exact absurd hfit (by simp)
      · simp at h
    | some x =>
      obtain ⟨k, b⟩ := x
      simp only [hrec] at h
      obtain ⟨h1, h2, h3⟩ := ih k b hrec
      split at h
      · rename_i hf
        simp only [Bool.and_eq_true, decide_eq_true_eq] at hf
        simp only [Option.some.injEq, Prod.mk.injEq] at h
        obtain ⟨rfl, rfl⟩ := h
        refine ⟨by simp, hf.1, ?_⟩
        intro r2 hr2 hfit
        rcases List.mem_cons.1 hr2 with rfl | hr2
        · exact Nat.le_refl _
        · have := h3 r2 hr2 hfit
          omega
      · rename_i hf
        simp only [Bool.and_eq_true, decide_eq_true_eq, not_and, not_le] at hf
        simp only [Option.some.injEq, Prod.mk.injEq] at h
        obtain ⟨rfl, rfl⟩ := h
        refine ⟨by simpa using h1, h2, ?_⟩
        intro r2 hr2 hfit
        rcases List.mem_cons.1 hr2 with rfl | hr2
        · have := hf hfit
          omega
        · exact h3 r2 hr2 hfit

theorem bestFitIn_none (fits : FreeListLocation → Bool) (fl : List FreeListLocation) :
    bestFitIn fits fl = none ↔ ∀ r ∈ fl, fits r = false := by
  constructor
  · exact bestFitIn_none_aux fits fl
  · intro h
    cases hrec : bestFitIn fits fl with
    | none => rfl
    | some x =>
      obtain ⟨k, b⟩ := x
      obtain ⟨h1, h2, _⟩ := bestFitIn_some fits fl k b hrec
      rw [h b (List.getElem?_mem h1)] at h2
      exact absurd h2 (by simp)

theorem BestFitStrategy.best_none_aux (chunks : List ChunkAllocation) (size : Nat)
    (h : BestFitStrategy.best chunks size = none) :
    ∀ c ∈ chunks, ∀ r ∈ c.freeList, r.size < size := by
  induction chunks with
  | nil => simp
  | cons c cs ih =>
    simp only [BestFitStrategy.best] at h
    cases hin : bestFitIn (holds size) c.freeList with
    | none =>
      have hnone := bestFitIn_none_aux _ _ hin
      simp only [holds, decide_eq_false_iff_not, not_le] at hnone
      cases hrec : BestFitStrategy.best cs size with
      | none =>
        intro c2 hc2
        rcases List.mem_cons.1 hc2 with rfl | hc2
        · exact hnone
        · exact ih hrec c2 hc2
      | some x =>
        obtain ⟨cj, fj, b⟩ := x
        simp [hin, hrec] at h
    | some y =>
      obtain ⟨k, a⟩ := y
      cases hrec : BestFitStrategy.best cs size with
      | none => simp [hin, hrec] at h
      | some x =>
        obtain ⟨cj, fj, b⟩ := x
        simp only [hin, hrec] at h
        split at h <;> simp at h

theorem BestFitStrategy.best_some (chunks : List ChunkAllocation) (size ci fi : Nat)
    (r : FreeListLocation) (h : BestFitStrategy.best chunks size = some (ci, fi, r)) :
    regionAt chunks ci fi = some r ∧ size ≤ r.size ∧
      ∀ c ∈ chunks, ∀ r2 ∈ c.freeList, size ≤ r2.size → r.size ≤ r2.size := by
  induction chunks generalizing ci fi r with
  | nil => simp [BestFitStrategy.best] at h
  | cons c cs ih =>
    simp only [BestFitStrategy.best] at h
    cases hin : bestFitIn (holds size) c.freeList with
    | none =>
      have hnone := (bestFitIn_none _ _).1 hin
      simp only [holds, decide_eq_false_iff_not, not_le] at hnone
      cases hrec : BestFitStrategy.best cs size with
      | none => simp [hin, hrec] at h
      | some x =>
        obtain ⟨cj, fj, b⟩ := x
        simp only [hin, hrec, Option.some.injEq, Prod.mk.injEq] at h
        obtain ⟨rfl, rfl, rfl⟩ := h
        obtain ⟨h1, h2, h3⟩ := ih cj fj b hrec
        refine ⟨by rw [regionAt_succ]; exact h1, h2, ?_⟩
        intro c2 hc2 r2 hr2 hsz
        rcases List.mem_cons.1 hc2 with rfl | hc2
        · have := hnone r2 hr2
          omega
        · exact h3 c2 hc2 r2 hr2 hsz
    | some y =>
      obtain ⟨k, a⟩ := y
      obtain ⟨g1, g2, g3⟩ := bestFitIn_some _ _ _ _ hin
      simp only [holds, decide_eq_true_eq] at g2 g3
      cases hrec : BestFitStrategy.best cs size with
      | none =>
        have hnone := (BestFitStrategy.best_none_aux cs size) hrec
        simp only [hin, hrec, Option.some.injEq, Prod.mk.injEq] at h
        obtain ⟨rfl, rfl, rfl⟩ := h
        refine ⟨by rw [regionAt_zero]; exact g1, g2, ?_⟩
        intro c2 hc2 r2 hr2 hsz
        rcases List.mem_cons.1 hc2 with rfl | hc2
        · exact g3 r2 hr2 hsz
        · have := hnone c2 hc2 r2 hr2
          omega
      | some x =>
        obtain ⟨cj, fj, b⟩ := x
        obtain ⟨h1, h2, h3⟩ := ih cj fj b hrec
        simp only [hin, hrec] at h
        split at h
        · rename_i hle
          simp only [Option.some.injEq, Prod.mk.injEq] at h
          obtain ⟨rfl, rfl, rfl⟩ := h
          refine ⟨by rw [regionAt_zero]; exact g1, g2, ?_⟩
          intro c2 hc2 r2 hr2 hsz
          rcases List.mem_cons.1 hc2 with rfl | hc2
          · exact g3 r2 hr2 hsz
          · have := h3 c2 hc2 r2 hr2 hsz
            omega
        · rename_i hle
          simp only [Option.some.injEq, Prod.mk.injEq] at h
          obtain ⟨rfl, rfl, rfl⟩ := h
          refine ⟨by rw [regionAt_succ]; exact h1, h2, ?_⟩
          intro c2 hc2 r2 hr2 hsz
          rcases List.mem_cons.1 hc2 with rfl | hc2
          · have := g3 r2 hr2 hsz
            omega
          · exact h3 c2 hc2 r2 hr2 hsz

theorem BestFitStrategy.best_none (chunks : List ChunkAllocation) (size : Nat) :
    BestFitStrategy.best chunks size = none ↔
      ∀ c ∈ chunks, ∀ r ∈ c.freeList, r.size < size := by
  constructor
  · exact BestFitStrategy.best_none_aux chunks size
  · intro h
    cases hrec : BestFitStrategy.best chunks size with
    | none => rfl
    | some x =>
      obtain ⟨ci, fi, b⟩ := x
      obtain ⟨h1, h2, _⟩ := BestFitStrategy.best_some chunks size ci fi b hrec
      obtain ⟨c, hc, hb⟩ := regionAt_mem chunks ci fi b h1
      have := h c hc b hb
      omega

theorem BestFitStrategy.findRange_some_best (chunks : List ChunkAllocation) (size ci fi : Nat)
    (h : BestFitStrategy.findRange chunks size = some (ci, fi)) :
    ∃ r, regionAt chunks ci fi = some r ∧ size ≤ r.size ∧
      ∀ c ∈ chunks, ∀ r2 ∈ c.freeList, size ≤ r2.size → r.size ≤ r2.size := by
  unfold BestFitStrategy.findRange at h
  cases hrec : BestFitStrategy.best chunks size with
  | none => simp [hrec] at h
  | some x =>
    obtain ⟨cj, fj, b⟩ := x
    simp only [hrec, Option.map_some', Option.some.injEq, Prod.mk.injEq] at h
    obtain ⟨rfl, rfl⟩ := h
    exact ⟨b, BestFitStrategy.best_some chunks size cj fj b hrec⟩

theorem BestFitStrategy.findRange_none_best (chunks : List ChunkAllocation) (size : Nat) :
    BestFitStrategy.findRange chunks size = none ↔
      ∀ c ∈ chunks, ∀ r ∈ c.freeList, r.size < size := by
  unfold BestFitStrategy.findRange
  rw [Option.map_eq_none', BestFitStrategy.best_none]

/-- C6: the free region returned by `BestFitStrategy::findRange` holds `size`, and no free
region of any chunk of the range is both sufficient and strictly smaller (the result is
"none" exactly when no region is sufficient); a chunk whose free regions have the sizes
10, 30 and 5, in any order, answers a request of size 8 with its size-10 region. -/
theorem BestFitStrategy.findRange_smallest_sufficient (chunks : List ChunkAllocation)
    (size : Nat) :
    (∀ ci fi, BestFitStrategy.findRange chunks size = some (ci, fi) →
      ∃ r, regionAt chunks ci fi = some r ∧ size ≤ r.size ∧
        ∀ c ∈ chunks, ∀ r2 ∈ c.freeList, ¬ (size ≤ r2.size ∧ r2.size < r.size)) ∧
    (BestFitStrategy.findRange chunks size = none ↔
      ∀ c ∈ chunks, ∀ r ∈ c.freeList, r.size < size) ∧
    (∀ c : ChunkAllocation, (c.freeList.map (fun r => r.size)).Perm [10, 30, 5] →
      ∃ fi r, BestFitStrategy.findRange [c] 8 = some (0, fi) ∧
        c.freeList[fi]? = some r ∧ r.size = 10) := by
  refine ⟨?_, BestFitStrategy.findRange_none_best chunks size, ?_⟩
  · intro ci fi h
    obtain ⟨r, h1, h2, h3⟩ := BestFitStrategy.findRange_some_best chunks size ci fi h
    refine ⟨r, h1, h2, ?_⟩
    intro c hc r2 hr2 hcon
    have := h3 c hc r2 hr2 hcon.1
    omega
  · intro c hperm
    have hten : (10 : Nat) ∈ c.freeList.map (fun r => r.size) :=
      hperm.symm.subset (by simp)
    obtain ⟨r10, hr10, hsz10⟩ := List.mem_map.1 hten
    cases hres : BestFitStrategy.findRange [c] 8 with
    | none =>
      have := (BestFitStrategy.findRange_none_best [c] 8).1 hres c (by simp) r10 hr10
      omega
    | some x =>
      obtain ⟨ci, fi⟩ := x
      obtain ⟨r, h1, h2, h3⟩ := BestFitStrategy.findRange_some_best [c] 8 ci fi hres
      have hci : ci = 0 := by
        cases ci with
        | zero => rfl
        | succ k => simp [regionAt] at h1
      subst hci
      rw [regionAt_zero] at h1
      refine ⟨fi, r, rfl, h1, ?_⟩
      have hmem : r.size ∈ c.freeList.map (fun r => r.size) :=
        List.mem_map.2 ⟨r, List.getElem?_mem h1, rfl⟩
      have hcases := hperm.subset hmem
      have hmin := h3 c (by simp) r10 hr10 (by omega)
      simp only [List.mem_cons, List.mem_singleton] at hcases
      have hnil : r.size ∉ ([] : List Nat) := List.not_mem_nil _
      rcases hcases with h | h | h | h
      · exact h
      · omega
      · omega
      · exact absurd h hnil

theorem worstFitIn_none_aux (fits : FreeListLocation → Bool) (fl : List FreeListLocation)
    (h : worstFitIn fits fl = none) : ∀ r ∈ fl, fits r = false := by
  induction fl with
  | nil => simp
  | cons f fs ih =>
    simp only [worstFitIn] at h
    cases hrec : worstFitIn fits fs with
    | none =>
      simp only [hrec] at h
      split at h
      · simp at h
      · rename_i hf
        intro r hr
        rcases List.mem_cons.1 hr with rfl | hr
        · simpa using hf
        · exact ih hrec r hr
    | some x =>
      obtain ⟨k, b⟩ := x
      simp only [hrec] at h
      split at h <;> simp at h

theorem worstFitIn_some (fits : FreeListLocation → Bool) (fl : List FreeListLocation)
    (i : Nat) (r : FreeListLocation) (h : worstFitIn fits fl = some (i, r)) :
    fl[i]? = some r ∧ fits r = true ∧ ∀ r2 ∈ fl, fits r2 = true → r2.size ≤ r.size := by
  induction fl generalizing i r with
  | nil => simp [worstFitIn] at h
  | cons f fs ih =>
    simp only [worstFitIn] at h
    cases hrec : worstFitIn fits fs with
    | none =>
      simp only [hrec] at h
      split at h
      · rename_i hf
        simp only [Option.some.injEq, Prod.mk.injEq] at h
        obtain ⟨rfl, rfl⟩ := h
        refine ⟨by simp, hf, ?_⟩
        intro r2 hr2 hfit
        rcases List.mem_cons.1 hr2 with rfl | hr2
        · exact Nat.le_refl _
        · have := (worstFitIn_none_aux fits fs hrec) r2 hr2
          rw [this] at hfit
          exact absurd hfit (by simp)
      · simp at h
    | some x =>
      obtain ⟨k, b⟩ := x
      simp only [hrec] at h
      obtain ⟨h1, h2, h3⟩ := ih k b hrec
      split at h
      · rename_i hf
        simp only [Bool.and_eq_true, decide_eq_true_eq] at hf
        simp only [Option.some.injEq, Prod.mk.injEq] at h
        obtain ⟨rfl, rfl⟩ := h
        refine ⟨by simp, hf.1, ?_⟩
        intro r2 hr2 hfit
        rcases List.mem_cons.1 hr2 with rfl | hr2
        · exact Nat.le_refl _
        · have := h3 r2 hr2 hfit
          omega
      · rename_i hf
        simp only [Bool.and_eq_true, decide_eq_true_eq, not_and, not_le] at hf
        simp only [Option.some.injEq, Prod.mk.injEq] at h
        obtain ⟨rfl, rfl⟩ := h
        refine ⟨by simpa using h1, h2, ?_⟩
        intro r2 hr2 hfit
        rcases List.mem_cons.1 hr2 with rfl | hr2
        · have := hf hfit
          omega
        · exact h3 r2 hr2 hfit

theorem worstFitIn_none (fits : FreeListLocation → Bool) (fl : List FreeListLocation) :
    worstFitIn fits fl = none ↔ ∀ r ∈ fl, fits r = false := by
  constructor
  · exact worstFitIn_none_aux fits fl
  · intro h
    cases hrec : worstFitIn fits fl with
    | none => rfl
    | some x =>
      obtain ⟨k, b⟩ := x
      obtain ⟨h1, h2, _⟩ := worstFitIn_some fits fl k b hrec
      rw [h b (List.getElem?_mem h1)] at h2
      exact absurd h2 (by simp)

theorem WorstFitStrategy.worst_none_aux (chunks : List ChunkAllocation) (size : Nat)
    (h : WorstFitStrategy.worst chunks size = none) :
    ∀ c ∈ chunks, ∀ r ∈ c.freeList, r.size < size := by
  induction chunks with
  | nil => simp
  | cons c cs ih =>
    simp only [WorstFitStrategy.worst] at h
    cases hin : worstFitIn (holds size) c.freeList with
    | none =>
      have hnone := worstFitIn_none_aux _ _ hin
      simp only [holds, decide_eq_false_iff_not, not_le] at hnone
      cases hrec : WorstFitStrategy.worst cs size with
      | none =>
        intro c2 hc2
        rcases List.mem_cons.1 hc2 with rfl | hc2
        · exact hnone
        · exact ih hrec c2 hc2
      | some x =>
        obtain ⟨cj, fj, b⟩ := x
        simp [hin, hrec] at h
    | some y =>
      obtain ⟨k, a⟩ := y
      cases hrec : WorstFitStrategy.worst cs size with
      | none => simp [hin, hrec] at h
      | some x =>
        obtain ⟨cj, fj, b⟩ := x
        simp only [hin, hrec] at h
        split at h <;> simp at h

theorem WorstFitStrategy.worst_some (chunks : List ChunkAllocation) (size ci fi : Nat)
    (r : FreeListLocation) (h : WorstFitStrategy.worst chunks size = some (ci, fi, r)) :
    regionAt chunks ci fi = some r ∧ size ≤ r.size ∧
      ∀ c ∈ chunks, ∀ r2 ∈ c.freeList, size ≤ r2.size → r2.size ≤ r.size := by
  induction chunks generalizing ci fi r with
  | nil => simp [WorstFitStrategy.worst] at h
  | cons c cs ih =>
    simp only [WorstFitStrategy.worst] at h
    cases hin : worstFitIn (holds size) c.freeList with
    | none =>
      have hnone := (worstFitIn_none _ _).1 hin
      simp only [holds, decide_eq_false_iff_not, not_le] at hnone
      cases hrec : WorstFitStrategy.worst cs size with
      | none => simp [hin, hrec] at h
      | some x =>
        obtain ⟨cj, fj, b⟩ := x
        simp only [hin, hrec, Option.some.injEq, Prod.mk.injEq] at h
        obtain ⟨rfl, rfl, rfl⟩ := h
        obtain ⟨h1, h2, h3⟩ := ih cj fj b hrec
        refine ⟨by rw [regionAt_succ]; exact h1, h2, ?_⟩
        intro c2 hc2 r2 hr2 hsz
        rcases List.mem_cons.1 hc2 with rfl | hc2
        · have := hnone r2 hr2
          omega
        · exact h3 c2 hc2 r2 hr2 hsz
    | some y =>
      obtain ⟨k, a⟩ := y
      obtain ⟨g1, g2, g3⟩ := worstFitIn_some _ _ _ _ hin
      simp only [holds, decide_eq_true_eq] at g2 g3
      cases hrec : WorstFitStrategy.worst cs size with
      | none =>
        have hnone := (WorstFitStrategy.worst_none_aux cs size) hrec
        simp only [hin, hrec, Option.some.injEq, Prod.mk.injEq] at h
        obtain ⟨rfl, rfl, rfl⟩ := h
        refine ⟨by rw [regionAt_zero]; exact g1, g2, ?_⟩
        intro c2 hc2 r2 hr2 hsz
        rcases List.mem_cons.1 hc2 with rfl | hc2
        · exact g3 r2 hr2 hsz
        · have := hnone c2 hc2 r2 hr2
          omega
      | some x =>
        obtain ⟨cj, fj, b⟩ := x
        obtain ⟨h1, h2, h3⟩ := ih cj fj b hrec
        simp only [hin, hrec] at h
        split at h
        · rename_i hle
          simp only [Option.some.injEq, Prod.mk.injEq] at h
          obtain ⟨rfl, rfl, rfl⟩ := h
          refine ⟨by rw [regionAt_zero]; exact g1, g2, ?_⟩
          intro c2 hc2 r2 hr2 hsz
          rcases List.mem_cons.1 hc2 with rfl | hc2
          · exact g3 r2 hr2 hsz
          · have := h3 c2 hc2 r2 hr2 hsz
            omega
        · rename_i hle
          simp only [Option.some.injEq, Prod.mk.injEq] at h
          obtain ⟨rfl, rfl, rfl⟩ := h
          refine ⟨by rw [regionAt_succ]; exact h1, h2, ?_⟩
          intro c2 hc2 r2 hr2 hsz
          rcases List.mem_cons.1 hc2 with rfl | hc2
          · have := g3 r2 hr2 hsz
            omega
          · exact h3 c2 hc2 r2 hr2 hsz

theorem WorstFitStrategy.worst_none (chunks : List ChunkAllocation) (size : Nat) :
    WorstFitStrategy.worst chunks size = none ↔
      ∀ c ∈ chunks, ∀ r ∈ c.freeList, r.size < size := by
  constructor
  · exact WorstFitStrategy.worst_none_aux chunks size
  · intro h
    cases hrec : WorstFitStrategy.worst chunks size with
    | none => rfl
    | some x =>
      obtain ⟨ci, fi, b⟩ := x
      obtain ⟨h1, h2, _⟩ := WorstFitStrategy.worst_some chunks size ci fi b hrec
      obtain ⟨c, hc, hb⟩ := regionAt_mem chunks ci fi b h1
      have := h c hc b hb
      omega

theorem WorstFitStrategy.findRange_some_worst (chunks : List ChunkAllocation) (size ci fi : Nat)
    (h : WorstFitStrategy.findRange chunks size = some (ci, fi)) :
    ∃ r, regionAt chunks ci fi = some r ∧ size ≤ r.size ∧
      ∀ c ∈ chunks, ∀ r2 ∈ c.freeList, size ≤ r2.size → r2.size ≤ r.size := by
  unfold WorstFitStrategy.findRange at h
  cases hrec : WorstFitStrategy.worst chunks size with
  | none => simp [hrec] at h
  | some x =>
    obtain ⟨cj, fj, b⟩ := x
    simp only [hrec, Option.map_some', Option.some.injEq, Prod.mk.injEq] at h
    obtain ⟨rfl, rfl⟩ := h
    exact ⟨b, WorstFitStrategy.worst_some chunks size cj fj b hrec⟩

theorem WorstFitStrategy.findRange_none_worst (chunks : List ChunkAllocation) (size : Nat) :
    WorstFitStrategy.findRange chunks size = none ↔
      ∀ c ∈ chunks, ∀ r ∈ c.freeList, r.size < size := by
  unfold WorstFitStrategy.findRange
  rw [Option.map_eq_none', WorstFitStrategy.worst_none]

/-- C7: the free region returned by `WorstFitStrategy::findRange` holds `size` and is of
maximal size among all free regions of all chunks of the range (the result is "none"
exactly when no region is sufficient); a chunk whose free regions have the sizes 10, 30
and 5, in any order, answers a request of size 8 with its size-30 region. -/
theorem WorstFitStrategy.findRange_largest (chunks : List ChunkAllocation) (size : Nat) :
    (∀ ci fi, WorstFitStrategy.findRange chunks size = some (ci, fi) →
      ∃ r, regionAt chunks ci fi = some r ∧ size ≤ r.size ∧
        ∀ c ∈ chunks, ∀ r2 ∈ c.freeList, r2.size ≤ r.size) ∧
    (WorstFitStrategy.findRange chunks size = none ↔
      ∀ c ∈ chunks, ∀ r ∈ c.freeList, r.size < size) ∧
    (∀ c : ChunkAllocation, (c.freeList.map (fun r => r.size)).Perm [10, 30, 5] →
      ∃ fi r, WorstFitStrategy.findRange [c] 8 = some (0, fi) ∧
        c.freeList[fi]? = some r ∧ r.size = 30) := by
  refine ⟨?_, WorstFitStrategy.findRange_none_worst chunks size, ?_⟩
  · intro ci fi h
    obtain ⟨r, h1, h2, h3⟩ := WorstFitStrategy.findRange_some_worst chunks size ci fi h
    refine ⟨r, h1, h2, ?_⟩
    intro c hc r2 hr2
    by_cases hsz : size ≤ r2.size
    · exact h3 c hc r2 hr2 hsz
    · omega
  · intro c hperm
    have hmem30 : (30 : Nat) ∈ c.freeList.map (fun r => r.size) :=
      hperm.symm.subset (by simp)
    obtain ⟨r30, hr30, hsz30⟩ := List.mem_map.1 hmem30
    cases hres : WorstFitStrategy.findRange [c] 8 with
    | none =>
      have := (WorstFitStrategy.findRange_none_worst [c] 8).1 hres c (by simp) r30 hr30
      omega
    | some x =>
      obtain ⟨ci, fi⟩ := x
      obtain ⟨r, h1, h2, h3⟩ := WorstFitStrategy.findRange_some_worst [c] 8 ci fi hres
      have hci : ci = 0 := by
        cases ci with
        | zero => rfl
        | succ k => simp [regionAt] at h1
      subst hci
      rw [regionAt_zero] at h1
      refine ⟨fi, r, rfl, h1, ?_⟩
      have hmem : r.size ∈ c.freeList.map (fun r => r.size) :=
        List.mem_map.2 ⟨r, List.getElem?_mem h1, rfl⟩
      have hcases := hperm.subset hmem
      have hmax := h3 c (by simp) r30 hr30 (by omega)
      simp only [List.mem_cons, List.mem_singleton] at hcases
      have hnil : r.size ∉ ([] : List Nat) := List.not_mem_nil _
      rcases hcases with h | h | h | h
      · omega
      · exact h
      · omega
      · exact absurd h hnil

/-! ## The partition invariant -/

theorem mem_remainder (f x : FreeListLocation) (offset size : Nat)
    (h1 : f.offset ≤ offset) (h2 : offset + size ≤ f.offset + f.size)
    (h : x ∈ remainder f offset size) :
    f.offset ≤ x.offset ∧ x.offset + x.size ≤ f.offset + f.size ∧ 0 < x.size ∧
      (x.offset + x.size ≤ offset ∨ offset + size ≤ x.offset) := by
  unfold remainder at h
  rcases List.mem_append.1 h with h | h
  · split at h
    · rw [List.mem_singleton] at h
      subst h
      simp only
      omega
    · exact absurd h (List.not_mem_nil _)
  · split at h
    · rw [List.mem_singleton] at h
      subst h
      simp only
      omega
    · exact absurd h (List.not_mem_nil _)

theorem remainder_separated (f : FreeListLocation) (offset size : Nat) (hs : 0 < size) :
    (remainder f offset size).Pairwise (fun a b => a.offset + a.size < b.offset) := by
  unfold remainder
  split <;> split <;> simp
  omega

theorem remainder_sum (f : FreeListLocation) (offset size : Nat) (h1 : f.offset ≤ offset)
    (h2 : offset + size ≤ f.offset + f.size) :
    ((remainder f offset size).map (fun r => r.size)).sum + size = f.size := by
  unfold remainder
  split <;> split <;> simp <;> omega

theorem remainder_covers (f : FreeListLocation) (offset size p : Nat)
    (hp : f.covers p) :
    (∃ x ∈ remainder f offset size, x.covers p) ∨ (offset ≤ p ∧ p < offset + size) := by
  unfold FreeListLocation.covers at hp
  by_cases h1 : p < offset
  · left
    refine ⟨⟨f.offset, offset - f.offset⟩, ?_, ?_⟩
    · unfold remainder
      rw [if_pos (by omega)]
      simp
    · unfold FreeListLocation.covers
      simp only
      omega
  · by_cases h2 : p < offset + size
    · right; omega
    · left
      refine ⟨⟨offset + size, f.offset + f.size - (offset + size)⟩, ?_, ?_⟩
      · unfold remainder
        rw [if_pos (show offset + size < f.offset + f.size by omega)]
        simp
      · unfold FreeListLocation.covers
        simp only
        omega

/-- Taking a non-empty range out of one free region of a chunk and making it a live
allocation keeps the partition invariant. -/
theorem ChunkAllocation.Partition.carve (c : ChunkAllocation) (hc : c.Partition)
    (l1 l2 : List FreeListLocation) (f : FreeListLocation) (self offset size : Nat)
    (hfl : c.freeList = l1 ++ f :: l2) (hs : 0 < size) (h1 : f.offset ≤ offset)
    (h2 : offset + size ≤ f.offset + f.size) :
    ChunkAllocation.Partition
      { c with freeList := l1 ++ remainder f offset size ++ l2
               liveAllocations := ⟨self, offset, size⟩ :: c.liveAllocations } := by
  obtain ⟨hsep, hfin, hlin, hld, hfld, hcov, hsz⟩ := hc
  rw [hfl] at hsep hfin hfld hcov
  rw [List.pairwise_append] at hsep
  obtain ⟨hsep1, hsep2, hsep12⟩ := hsep
  rw [List.pairwise_cons] at hsep2
  have hfmem : f ∈ l1 ++ f :: l2 := by simp
  have hfin_f := hfin f hfmem
  have hnew_in_f : ∀ p, (⟨self, offset, size⟩ : MemoryLocation).covers p → f.covers p := by
    intro p hp
    unfold MemoryLocation.covers at hp
    unfold FreeListLocation.covers
    simp only at hp
    omega
  have hrem_in_f : ∀ x ∈ remainder f offset size, ∀ p, x.covers p → f.covers p := by
    intro x hx p hp
    have := mem_remainder f x offset size h1 h2 hx
    unfold FreeListLocation.covers at hp ⊢
    omega
  have hother : ∀ x, x ∈ l1 ∨ x ∈ l2 → ∀ p, ¬ (x.covers p ∧ f.covers p) := by
    intro x hx p hp
    unfold FreeListLocation.covers at hp
    rcases hx with hx | hx
    · have := hsep12 x hx f (List.mem_cons_self _ _)
      omega
    · have := hsep2.1 x hx
      omega
  constructor
  · -- free_separated
    show (l1 ++ remainder f offset size ++ l2).Pairwise _
    rw [List.append_assoc, List.pairwise_append]
    refine ⟨hsep1, ?_, ?_⟩
    · rw [List.pairwise_append]
      refine ⟨remainder_separated f offset size hs, hsep2.2, ?_⟩
      intro a ha b hb
      have := mem_remainder f a offset size h1 h2 ha
      have := hsep2.1 b hb
      omega
    · intro a ha b hb
      rcases List.mem_append.1 hb with hb | hb
      · have := mem_remainder f b offset size h1 h2 hb
        have := hsep12 a ha f (List.mem_cons_self _ _)
        omega
      · exact hsep12 a ha b (List.mem_cons_of_mem _ hb)
  · -- free_inside
    intro x hx
    show 0 < x.size ∧ x.offset + x.size ≤ c.totalSize
    have hx2 : x ∈ l1 ++ remainder f offset size ++ l2 := hx
    rw [List.append_assoc] at hx2
    rcases List.mem_append.1 hx2 with hx2 | hx2
    · exact hfin x (List.mem_append_left _ hx2)
    · rcases List.mem_append.1 hx2 with hx2 | hx2
      · have := mem_remainder f x offset size h1 h2 hx2
        omega
      · exact hfin x (List.mem_append_right _ (List.mem_cons_of_mem _ hx2))
  · -- live_inside
    intro l hl
    show 0 < l.size ∧ l.offset + l.size ≤ c.totalSize
    rcases List.mem_cons.1 hl with rfl | hl
    · simp only
      omega
    · exact hlin l hl
  · -- live_disjoint
    show List.Pairwise _ (_ :: c.liveAllocations)
    rw [List.pairwise_cons]
    refine ⟨?_, hld⟩
    intro l hl p hp
    exact hfld f hfmem l hl p ⟨hnew_in_f p hp.1, hp.2⟩
  · -- free_live_disjoint
    intro x hx l hl p hp
    have hx2 : x ∈ l1 ++ remainder f offset size ++ l2 := hx
    have hl2 : l ∈ (⟨self, offset, size⟩ : MemoryLocation) :: c.liveAllocations := hl
    rw [List.append_assoc] at hx2
    have hx3 : x ∈ remainder f offset size ∨ (x ∈ l1 ∨ x ∈ l2) := by
      rcases List.mem_append.1 hx2 with h | h
      · exact Or.inr (Or.inl h)
      · rcases List.mem_append.1 h with h | h
        · exact Or.inl h
        · exact Or.inr (Or.inr h)
    rcases List.mem_cons.1 hl2 with rfl | hl2
    · rcases hx3 with hx3 | hx3
      · have := mem_remainder f x offset size h1 h2 hx3
        have h3 := hp.1
        have h4 := hp.2
        unfold FreeListLocation.covers at h3
        unfold MemoryLocation.covers at h4
        simp only at h4
        omega
      · exact hother x hx3 p ⟨hp.1, hnew_in_f p hp.2⟩
    · rcases hx3 with hx3 | hx3
      · exact hfld f hfmem l hl2 p ⟨hrem_in_f x hx3 p hp.1, hp.2⟩
      · refine hfld x ?_ l hl2 p hp
        rcases hx3 with h | h
        · exact List.mem_append_left _ h
        · exact List.mem_append_right _ (List.mem_cons_of_mem _ h)
  · -- covered
    intro p hp
    show (∃ x ∈ l1 ++ remainder f offset size ++ l2, x.covers p) ∨
      (∃ l ∈ (⟨self, offset, size⟩ : MemoryLocation) :: c.liveAllocations, l.covers p)
    rcases hcov p hp with ⟨x, hx, hxp⟩ | ⟨l, hl, hlp⟩
    · rcases List.mem_append.1 hx with hx | hx
      · exact Or.inl ⟨x, by simp [hx], hxp⟩
      · rcases List.mem_cons.1 hx with rfl | hx
        · rcases remainder_covers x offset size p hxp with ⟨y, hy, hyp⟩ | hnew
          · exact Or.inl ⟨y, by simp [hy], hyp⟩
          · exact Or.inr ⟨⟨self, offset, size⟩, List.mem_cons_self _ _, hnew⟩
        · exact Or.inl ⟨x, by simp [hx], hxp⟩
    · exact Or.inr ⟨l, List.mem_cons_of_mem _ hl, hlp⟩
  · -- sizes
    have hrem := remainder_sum f offset size h1 h2
    unfold ChunkAllocation.freeSize ChunkAllocation.liveSize at hsz ⊢
    rw [hfl] at hsz
    simp only [List.map_append, List.sum_append, List.map_cons, List.sum_cons] at hsz ⊢
    omega

theorem insertFree_sum (fl : List FreeListLocation) (r : FreeListLocation) :
    ((insertFree fl r).map (fun x => x.size)).sum =
      (fl.map (fun x => x.size)).sum + r.size := by
  induction fl generalizing r with
  | nil => simp [insertFree]
  | cons f fs ih =>
    simp only [insertFree]
    split
    · simp only [List.map_cons, List.sum_cons, ih]
      omega
    · split
      · rw [ih]
        simp only [List.map_cons, List.sum_cons]
        omega
      · split
        · simp only [List.map_cons, List.sum_cons]
          omega
        · simp only [List.map_cons, List.sum_cons]
          omega

theorem insertFree_covers (fl : List FreeListLocation) (r : FreeListLocation) (p : Nat) :
    (∃ x ∈ insertFree fl r, x.covers p) ↔ (∃ x ∈ fl, x.covers p) ∨ r.covers p := by
  induction fl generalizing r with
  | nil => simp [insertFree]
  | cons f fs ih =>
    simp only [insertFree]
    split
    · simp only [List.exists_mem_cons_iff, ih]
      generalize (∃ x ∈ fs, x.covers p) = E
      tauto
    · split
      · rename_i h1 h2
        rw [ih]
        simp only [List.exists_mem_cons_iff]
        have : FreeListLocation.covers ⟨f.offset, f.size + r.size⟩ p ↔
            f.covers p ∨ r.covers p := by
          unfold FreeListLocation.covers
          simp only
          omega
        rw [this]
        generalize (∃ x ∈ fs, x.covers p) = E
        tauto
      · split
        · rename_i h1 h2 h3
          simp only [List.exists_mem_cons_iff]
          have : FreeListLocation.covers ⟨r.offset, r.size + f.size⟩ p ↔
              f.covers p ∨ r.covers p := by
            unfold FreeListLocation.covers
            simp only
            omega
          rw [this]
          generalize (∃ x ∈ fs, x.covers p) = E
          tauto
        · simp only [List.exists_mem_cons_iff]
          generalize (∃ x ∈ fs, x.covers p) = E
          tauto

theorem insertFree_lower (fl : List FreeListLocation) (r : FreeListLocation) (lb : Nat)
    (h1 : ∀ x ∈ fl, lb < x.offset) (h2 : lb < r.offset) :
    ∀ y ∈ insertFree fl r, lb < y.offset := by
  induction fl generalizing r with
  | nil =>
    intro y hy
    simp only [insertFree, List.mem_singleton] at hy
    rw [hy]; exact h2
  | cons f fs ih =>
    have hf := h1 f (List.mem_cons_self _ _)
    have hfs : ∀ x ∈ fs, lb < x.offset := fun x hx => h1 x (List.mem_cons_of_mem _ hx)
    intro y hy
    simp only [insertFree] at hy
    split at hy
    · rcases List.mem_cons.1 hy with rfl | hy
      · exact hf
      · exact ih r hfs h2 y hy
    · split at hy
      · exact ih ⟨f.offset, f.size + r.size⟩ hfs hf y hy
      · split at hy
        · rcases List.mem_cons.1 hy with rfl | hy
          · exact h2
          · exact hfs y hy
        · rcases List.mem_cons.1 hy with rfl | hy
          · exact h2
          · exact h1 y hy

theorem insertFree_inside (fl : List FreeListLocation) (r : FreeListLocation) (total : Nat)
    (h1 : ∀ x ∈ fl, 0 < x.size ∧ x.offset + x.size ≤ total)
    (h2 : 0 < r.size ∧ r.offset + r.size ≤ total) :
    ∀ y ∈ insertFree fl r, 0 < y.size ∧ y.offset + y.size ≤ total := by
  induction fl generalizing r with
  | nil =>
    intro y hy
    simp only [insertFree, List.mem_singleton] at hy
    rw [hy]; exact h2
  | cons f fs ih =>
    have hf := h1 f (List.mem_cons_self _ _)
    have hfs : ∀ x ∈ fs, 0 < x.size ∧ x.offset + x.size ≤ total :=
      fun x hx => h1 x (List.mem_cons_of_mem _ hx)
    intro y hy
    simp only [insertFree] at hy
    split at hy
    · rcases List.mem_cons.1 hy with rfl | hy
      · exact hf
      · exact ih r hfs h2 y hy
    · split at hy
      · rename_i h3 h4
        refine ih ⟨f.offset, f.size + r.size⟩ hfs ?_ y hy
        simp only
        omega
      · split at hy
        · rcases List.mem_cons.1 hy with rfl | hy
          · simp only
            omega
          · exact hfs y hy
        · rcases List.mem_cons.1 hy with rfl | hy
          · exact h2
          · exact h1 y hy

theorem insertFree_separated (fl : List FreeListLocation) (r : FreeListLocation)
    (hsep : fl.Pairwise (fun a b => a.offset + a.size < b.offset))
    (hpos : ∀ x ∈ fl, 0 < x.size) (hr : 0 < r.size)
    (hdis : ∀ x ∈ fl, x.offset + x.size ≤ r.offset ∨ r.offset + r.size ≤ x.offset) :
    (insertFree fl r).Pairwise (fun a b => a.offset + a.size < b.offset) := by
  induction fl generalizing r with
  | nil => simp [insertFree]
  | cons f fs ih =>
    rw [List.pairwise_cons] at hsep
    have hposf := hpos f (List.mem_cons_self _ _)
    have hposfs : ∀ x ∈ fs, 0 < x.size := fun x hx => hpos x (List.mem_cons_of_mem _ hx)
    have hdisf := hdis f (List.mem_cons_self _ _)
    have hdisfs : ∀ x ∈ fs, x.offset + x.size ≤ r.offset ∨ r.offset + r.size ≤ x.offset :=
      fun x hx => hdis x (List.mem_cons_of_mem _ hx)
    simp only [insertFree]
    split
    · rename_i h1
      rw [List.pairwise_cons]
      exact ⟨insertFree_lower fs r _ hsep.1 h1, ih r hsep.2 hposfs hr hdisfs⟩
    · split
      · rename_i h1 h2
        refine ih ⟨f.offset, f.size + r.size⟩ hsep.2 hposfs (by simp only; omega) ?_
        intro x hx
        have := hsep.1 x hx
        have := hposfs x hx
        have := hdisfs x hx
        simp only
        omega
      · split
        · rename_i h1 h2 h3
          rw [List.pairwise_cons]
          refine ⟨?_, hsep.2⟩
          intro x hx
          have := hsep.1 x hx
          simp only
          omega
        · rename_i h1 h2 h3
          rw [List.pairwise_cons, List.pairwise_cons]
          refine ⟨?_, hsep⟩
          intro x hx
          rcases List.mem_cons.1 hx with rfl | hx
          · omega
          · have := hsep.1 x hx
            omega

theorem pairwise_erase_of_symm {α : Type} [DecidableEq α] (R : α → α → Prop)
    (hsymm : ∀ a b, R a b → R b a) (l : List α) (x : α) (h : l.Pairwise R) (hx : x ∈ l) :
    ∀ y ∈ l.erase x, R x y := by
  induction l with
  | nil => exact absurd hx (List.not_mem_nil _)
  | cons a as ih =>
    rw [List.pairwise_cons] at h
    intro y hy
    by_cases hax : a = x
    · subst hax
      rw [List.erase_cons_head] at hy
      exact h.1 y hy
    · have hxas : x ∈ as := by
        rcases List.mem_cons.1 hx with h | h
        · exact absurd h.symm hax
        · exact h
      rw [List.erase_cons_tail (by simpa using hax)] at hy
      rcases List.mem_cons.1 hy with rfl | hy
      · exact hsymm _ _ (h.1 x hxas)
      · exact ih h.2 hxas y hy

theorem disjoint_intervals (o1 s1 o2 s2 : Nat) (h1 : 0 < s1) (h2 : 0 < s2)
    (h : ∀ p, ¬ ((o1 ≤ p ∧ p < o1 + s1) ∧ (o2 ≤ p ∧ p < o2 + s2))) :
    o1 + s1 ≤ o2 ∨ o2 + s2 ≤ o1 := by
  by_contra hcon
  rcases Nat.le_total o1 o2 with hle | hle
  · exact h o2 (by omega)
  · exact h o1 (by omega)

/-- Releasing a live allocation of a chunk (erasing it from the live set and reinserting
its range into the free list with merging) keeps the partition invariant. -/
theorem ChunkAllocation.Partition.release (c : ChunkAllocation) (hc : c.Partition)
    (x : MemoryLocation) (hx : x ∈ c.liveAllocations) :
    ChunkAllocation.Partition
      { c with liveAllocations := c.liveAllocations.erase x
               freeList := insertFree c.freeList ⟨x.offset, x.size⟩ } := by
  obtain ⟨hsep, hfin, hlin, hld, hfld, hcov, hsz⟩ := hc
  have hxin := hlin x hx
  have hdis : ∀ f ∈ c.freeList,
      f.offset + f.size ≤ x.offset ∨ x.offset + x.size ≤ f.offset := by
    intro f hf
    exact disjoint_intervals _ _ _ _ (hfin f hf).1 hxin.1 (fun p hp => hfld f hf x hx p hp)
  have hothers : ∀ l ∈ c.liveAllocations.erase x, ∀ p, ¬ (x.covers p ∧ l.covers p) :=
    pairwise_erase_of_symm _ (fun a b hab p hp => hab p ⟨hp.2, hp.1⟩) _ x hld hx
  have hrx : ∀ p, FreeListLocation.covers ⟨x.offset, x.size⟩ p ↔ x.covers p := by
    intro p
    unfold FreeListLocation.covers MemoryLocation.covers
    exact Iff.rfl
  constructor
  · exact insertFree_separated _ _ hsep (fun f hf => (hfin f hf).1) hxin.1 hdis
  · exact insertFree_inside _ _ _ hfin hxin
  · intro l hl
    exact hlin l (List.mem_of_mem_erase hl)
  · exact hld.sublist (List.erase_sublist x _)
  · intro y hy l hl p hp
    have hy2 : ∃ z ∈ insertFree c.freeList ⟨x.offset, x.size⟩, z.covers p := ⟨y, hy, hp.1⟩
    rw [insertFree_covers] at hy2
    rcases hy2 with ⟨z, hz, hzp⟩ | hxp
    · exact hfld z hz l (List.mem_of_mem_erase hl) p ⟨hzp, hp.2⟩
    · exact hothers l hl p ⟨(hrx p).1 hxp, hp.2⟩
  · intro p hp
    show (∃ z ∈ insertFree c.freeList ⟨x.offset, x.size⟩, z.covers p) ∨
      (∃ l ∈ c.liveAllocations.erase x, l.covers p)
    rw [insertFree_covers]
    rcases hcov p hp with hf | ⟨l, hl, hlp⟩
    · exact Or.inl (Or.inl hf)
    · by_cases hlx : l = x
      · subst hlx
        exact Or.inl (Or.inr ((hrx p).2 hlp))
      · exact Or.inr ⟨l, (List.mem_erase_of_ne hlx).2 hl, hlp⟩
  · unfold ChunkAllocation.freeSize ChunkAllocation.liveSize at hsz ⊢
    simp only
    rw [insertFree_sum]
    have := List.sum_map_erase (fun l : MemoryLocation => l.size) hx
    simp only at this ⊢
    omega

theorem FitStrategy.scan_some (s : FitStrategy) (fits : FreeListLocation → Bool)
    (fl : List FreeListLocation) (i : Nat) (r : FreeListLocation)
    (h : s.scan fits fl = some (i, r)) : fl[i]? = some r ∧ fits r = true := by
  cases s
  · have := firstFitIn_some fits fl i r h
    exact ⟨this.1, this.2.1⟩
  · have := bestFitIn_some fits fl i r h
    exact ⟨this.1, this.2.1⟩
  · have := worstFitIn_some fits fl i r h
    exact ⟨this.1, this.2.1⟩

/-- For a positive alignment the aligned offset is never below the offset, so the first
check of `fitsAligned` only excludes the degenerate alignment `0`. -/
theorem le_alignUp (offset alignment : Nat) (h : 0 < alignment) :
    offset ≤ alignUp offset alignment := by
  unfold alignUp
  have h1 := Nat.div_add_mod (offset + alignment - 1) alignment
  have h2 := Nat.mod_lt (offset + alignment - 1) h
  rw [Nat.mul_comm] at h1
  omega

theorem split_at_getElem? (fl : List FreeListLocation) (i : Nat) (r : FreeListLocation)
    (h : fl[i]? = some r) : fl = fl.take i ++ r :: fl.drop (i + 1) := by
  induction fl generalizing i with
  | nil => simp at h
  | cons f fs ih =>
    cases i with
    | zero =>
      simp only [List.getElem?_cons_zero, Option.some.injEq] at h
      simp [h]
    | succ k =>
      simp only [List.getElem?_cons_succ] at h
      simp only [List.take_succ_cons, List.drop_succ_cons, List.cons_append]
      rw [← ih k h]

theorem ChunkAllocation.allocate_keeps_partition (c c2 : ChunkAllocation) (hc : c.Partition)
    (strategy : FitStrategy) (self size alignment : Nat) (location : MemoryLocation)
    (hs : 0 < size)
    (h : c.allocate strategy self size alignment = .ok (c2, location)) : c2.Partition := by
  unfold ChunkAllocation.allocate at h
  cases hscan : strategy.scan (fitsAligned size alignment) c.freeList with
  | none => simp [hscan] at h
  | some x =>
    obtain ⟨i, r⟩ := x
    simp only [hscan, Except.ok.injEq, Prod.mk.injEq] at h
    obtain ⟨h1, h2⟩ := FitStrategy.scan_some _ _ _ _ _ hscan
    simp only [fitsAligned, Bool.and_eq_true, decide_eq_true_eq] at h2
    rw [← h.1]
    exact ChunkAllocation.Partition.carve c hc _ _ r self _ size
      (split_at_getElem? _ _ _ h1) hs h2.1 h2.2

theorem ChunkAllocation.deallocate_keeps_partition (c c2 : ChunkAllocation) (hc : c.Partition)
    (location : MemoryLocation) (h : c.deallocate location = .ok c2) : c2.Partition := by
  unfold ChunkAllocation.deallocate at h
  split at h
  · rename_i hmem
    simp only [Except.ok.injEq] at h
    rw [← h]
    exact ChunkAllocation.Partition.release c hc location hmem
  · simp at h

theorem carveAt_some (fl fl2 : List FreeListLocation) (offset size : Nat)
    (h : carveAt fl offset size = some fl2) :
    ∃ l1 f l2, fl = l1 ++ f :: l2 ∧ fl2 = l1 ++ remainder f offset size ++ l2 ∧
      f.offset ≤ offset ∧ offset + size ≤ f.offset + f.size := by
  induction fl generalizing fl2 with
  | nil => simp [carveAt] at h
  | cons g gs ih =>
    simp only [carveAt] at h
    split at h
    · rename_i hg
      simp only [Option.some.injEq] at h
      exact ⟨[], g, gs, rfl, by simp [← h], hg.1, hg.2⟩
    · cases hrec : carveAt gs offset size with
      | none => simp [hrec] at h
      | some gs2 =>
        simp only [hrec, Option.map_some', Option.some.injEq] at h
        obtain ⟨l1, f, l2, e1, e2, e3, e4⟩ := ih gs2 hrec
        exact ⟨g :: l1, f, l2, by simp [e1], by simp [← h, e2], e3, e4⟩

theorem ChunkAllocation.place_keeps_partition (c c2 : ChunkAllocation) (hc : c.Partition)
    (self offset size : Nat) (location : MemoryLocation) (hs : 0 < size)
    (h : c.place self offset size = .ok (c2, location)) : c2.Partition := by
  unfold ChunkAllocation.place at h
  cases hcarve : carveAt c.freeList offset size with
  | none => simp [hcarve] at h
  | some fl2 =>
    simp only [hcarve, Except.ok.injEq, Prod.mk.injEq] at h
    obtain ⟨l1, f, l2, e1, e2, e3, e4⟩ := carveAt_some _ _ _ _ hcarve
    rw [← h.1, e2]
    exact ChunkAllocation.Partition.carve c hc l1 l2 f self offset size e1 hs e3 e4

theorem ChunkAllocation.create_partition (totalSize : Nat) (h : 0 < totalSize) :
    (ChunkAllocation.create totalSize).Partition := by
  constructor
  · simp [ChunkAllocation.create]
  · intro f hf
    simp only [ChunkAllocation.create, List.mem_singleton] at hf
    subst hf
    simp only [ChunkAllocation.create]
    omega
  · intro l hl
    simp [ChunkAllocation.create] at hl
  · simp [ChunkAllocation.create]
  · intro f _ l hl
    simp [ChunkAllocation.create] at hl
  · intro p hp
    left
    refine ⟨⟨0, totalSize⟩, by simp [ChunkAllocation.create], ?_⟩
    unfold FreeListLocation.covers
    simp only [ChunkAllocation.create] at hp
    simp only
    omega
  · simp [ChunkAllocation.create, ChunkAllocation.freeSize, ChunkAllocation.liveSize]

theorem ChunkAllocation.create_zero_allocate (strategy : FitStrategy)
    (self size alignment : Nat) (hs : 0 < size) :
    (ChunkAllocation.create 0).allocate strategy self size alignment =
      .error .outOfSpace := by
  unfold ChunkAllocation.allocate
  cases hscan : strategy.scan (fitsAligned size alignment)
      (ChunkAllocation.create 0).freeList with
  | none => rfl
  | some x =>
    obtain ⟨i, r⟩ := x
    obtain ⟨h1, h2⟩ := FitStrategy.scan_some _ _ _ _ _ hscan
    have hr := List.getElem?_mem h1
    simp only [ChunkAllocation.create, List.mem_singleton] at hr
    subst hr
    simp only [fitsAligned, Bool.and_eq_true, decide_eq_true_eq] at h2
    omega

theorem ChunkAllocation.create_zero_place (self offset size : Nat) (hs : 0 < size) :
    (ChunkAllocation.create 0).place self offset size = .error .outOfSpace := by
  have h : carveAt (ChunkAllocation.create 0).freeList offset size = none := by
    simp only [ChunkAllocation.create, carveAt]
    rw [if_neg (by omega)]
    rfl
  unfold ChunkAllocation.place
  rw [h]

theorem ChunkAllocation.create_zero_deallocate (location : MemoryLocation) :
    (ChunkAllocation.create 0).deallocate location = .error .staleLocation := by
  simp [ChunkAllocation.deallocate, ChunkAllocation.create]

theorem partition_set (chunks : List ChunkAllocation) (ci : Nat) (c2 : ChunkAllocation)
    (h : ∀ c ∈ chunks, c.Partition ∨ c = ChunkAllocation.create 0)
    (h2 : c2.Partition ∨ c2 = ChunkAllocation.create 0) :
    ∀ c ∈ chunks.set ci c2, c.Partition ∨ c = ChunkAllocation.create 0 := by
  intro c hc
  rcases List.mem_or_eq_of_mem_set hc with hc | hc
  · exact h c hc
  · rw [hc]; exact h2

theorem allocate_partition (chunks chunks2 : List ChunkAllocation) (strategy : FitStrategy)
    (ci size alignment : Nat) (location : MemoryLocation)
    (hall : ∀ c ∈ chunks, c.Partition ∨ c = ChunkAllocation.create 0) (hs : 0 < size)
    (h : allocate chunks strategy ci size alignment = .ok (chunks2, location)) :
    ∀ c ∈ chunks2, c.Partition ∨ c = ChunkAllocation.create 0 := by
  unfold allocate at h
  cases hc : chunks[ci]? with
  | none => simp [hc] at h
  | some c =>
    simp only [hc] at h
    cases hres : c.allocate strategy ci size alignment with
    | error e => simp [hres] at h
    | ok x =>
      obtain ⟨c2, loc⟩ := x
      simp only [hres, Except.ok.injEq, Prod.mk.injEq] at h
      rw [← h.1]
      refine partition_set _ _ _ hall ?_
      rcases hall c (List.getElem?_mem hc) with hp | hz
      · exact Or.inl (ChunkAllocation.allocate_keeps_partition c c2 hp
          strategy ci size alignment loc hs hres)
      · rw [hz, ChunkAllocation.create_zero_allocate strategy ci size alignment hs] at hres
        cases hres

theorem deallocate_partition (chunks chunks2 : List ChunkAllocation)
    (location : MemoryLocation)
    (hall : ∀ c ∈ chunks, c.Partition ∨ c = ChunkAllocation.create 0)
    (h : deallocate chunks location = .ok chunks2) :
    ∀ c ∈ chunks2, c.Partition ∨ c = ChunkAllocation.create 0 := by
  unfold deallocate at h
  cases hc : chunks[location.chunk]? with
  | none => simp [hc] at h
  | some c =>
    simp only [hc] at h
    cases hres : c.deallocate location with
    | error e => simp [hres] at h
    | ok c2 =>
      simp only [hres, Except.ok.injEq] at h
      rw [← h]
      refine partition_set _ _ _ hall ?_
      rcases hall c (List.getElem?_mem hc) with hp | hz
      · exact Or.inl (ChunkAllocation.deallocate_keeps_partition c c2 hp location hres)
      · rw [hz, ChunkAllocation.create_zero_deallocate location] at hres
        cases hres

theorem defragment_partition (chunks chunks2 : List ChunkAllocation) (ci target_offset : Nat)
    (source location : MemoryLocation) (copyIssued : Bool)
    (hall : ∀ c ∈ chunks, c.Partition ∨ c = ChunkAllocation.create 0)
    (h : defragment chunks ci target_offset source copyIssued = .ok (chunks2, location)) :
    ∀ c ∈ chunks2, c.Partition ∨ c = ChunkAllocation.create 0 := by
  unfold defragment at h
  cases hsc : chunks[source.chunk]? with
  | none => simp [hsc] at h
  | some sc =>
    simp only [hsc] at h
    split at h
    · rename_i hlive
      have hpos : 0 < source.size := by
        rcases hall sc (List.getElem?_mem hsc) with hp | hz
        · exact (hp.live_inside source hlive).1
        · rw [hz] at hlive
          simp [ChunkAllocation.create] at hlive
      cases htc : chunks[ci]? with
      | none => simp [htc] at h
      | some tc =>
        simp only [htc] at h
        cases hplace : tc.place ci target_offset source.size with
        | error e => simp [hplace] at h
        | ok x =>
          obtain ⟨tc2, loc⟩ := x
          simp only [hplace] at h
          split at h
          · cases hde : deallocate (chunks.set ci tc2) source with
            | error e => simp [hde] at h
            | ok chunks3 =>
              simp only [hde, Except.ok.injEq, Prod.mk.injEq] at h
              rw [← h.1]
              refine deallocate_partition _ _ source ?_ hde
              refine partition_set _ _ _ hall ?_
              rcases hall tc (List.getElem?_mem htc) with hp | hz
              · exact Or.inl (ChunkAllocation.place_keeps_partition tc tc2 hp
                  ci target_offset source.size loc hpos hplace)
              · rw [hz, ChunkAllocation.create_zero_place ci target_offset source.size hpos]
                  at hplace
                cases hplace
          · simp at h
    · simp at h

theorem Reachable.partition (chunks : List ChunkAllocation) (h : Reachable chunks) :
    ∀ c ∈ chunks, c.Partition ∨ c = ChunkAllocation.create 0 := by
  induction h with
  | empty => intro c hc; exact absurd hc (List.not_mem_nil _)
  | create chunks totalSize _ ih =>
    intro c hc
    rcases List.mem_append.1 hc with hc | hc
    · exact ih c hc
    · rw [List.mem_singleton] at hc
      rw [hc]
      rcases Nat.eq_zero_or_pos totalSize with h0 | hpos
      · exact Or.inr (by rw [h0])
      · exact Or.inl (ChunkAllocation.create_partition totalSize hpos)
  | allocate chunks chunks2 strategy ci size alignment location _ hs hop ih =>
    exact allocate_partition chunks chunks2 strategy ci size alignment location ih hs hop
  | deallocate chunks chunks2 location _ hop ih =>
    exact deallocate_partition chunks chunks2 location ih hop
  | defragment chunks chunks2 ci target_offset source location copyIssued _ hop ih =>
    exact defragment_partition chunks chunks2 ci target_offset source location copyIssued
      ih hop

/-- C8 (amended): in every chunk table the allocator can reach by creating chunks (of any
size) and by completed allocate, deallocate and defragment operations whose allocations
request a positive number of bytes (any alignment, any fit strategy), each chunk is
partitioned: free regions are pairwise disjoint, live allocations are pairwise disjoint,
no free region meets a live allocation, no region is empty (but for the one free region
of a chunk of size 0), the bytes covered by some region are exactly those of
`[0, totalSize)`, the free sizes plus the live sizes are `totalSize`, and no two free
regions touch. -/
theorem partition_invariant (chunks : List ChunkAllocation) (h : Reachable chunks)
    (c : ChunkAllocation) (hc : c ∈ chunks) :
    c.freeList.Pairwise (fun a b => ∀ p, ¬ (a.covers p ∧ b.covers p)) ∧
    c.liveAllocations.Pairwise (fun a b => ∀ p, ¬ (a.covers p ∧ b.covers p)) ∧
    (∀ f ∈ c.freeList, ∀ l ∈ c.liveAllocations, ∀ p, ¬ (f.covers p ∧ l.covers p)) ∧
    ((∀ f ∈ c.freeList, 0 < f.size ∨ c.totalSize = 0) ∧
      (∀ l ∈ c.liveAllocations, 0 < l.size)) ∧
    (∀ p, p < c.totalSize ↔
      ((∃ f ∈ c.freeList, f.covers p) ∨ (∃ l ∈ c.liveAllocations, l.covers p))) ∧
    c.freeSize + c.liveSize = c.totalSize ∧
    c.freeList.Pairwise
      (fun a b => a.offset + a.size ≠ b.offset ∧ b.offset + b.size ≠ a.offset) := by
  rcases Reachable.partition chunks h c hc with hp | hz
  · obtain ⟨hsep, hfin, hlin, hld, hfld, hcov, hsz⟩ := hp
    refine ⟨?_, hld, hfld,
      ⟨fun f hf => Or.inl (hfin f hf).1, fun l hl => (hlin l hl).1⟩, ?_, hsz, ?_⟩
    · refine hsep.imp ?_
      intro a b hab p hp
      unfold FreeListLocation.covers at hp
      omega
    · intro p
      constructor
      · exact hcov p
      · rintro (⟨f, hf, hp⟩ | ⟨l, hl, hp⟩)
        · have := (hfin f hf).2
          unfold FreeListLocation.covers at hp
          omega
        · have := (hlin l hl).2
          unfold MemoryLocation.covers at hp
          omega
    · refine hsep.imp_of_mem ?_
      intro a b ha hb hab
      have := (hfin a ha).1
      have := (hfin b hb).1
      omega
  · subst hz
    refine ⟨?_, ?_, ?_, ⟨?_, ?_⟩, ?_, ?_, ?_⟩
    · simp [ChunkAllocation.create]
    · simp [ChunkAllocation.create]
    · intro f _ l hl
      simp [ChunkAllocation.create] at hl
    · intro f _
      exact Or.inr rfl
    · intro l hl
      simp [ChunkAllocation.create] at hl
    · intro p
      simp only [ChunkAllocation.create, List.mem_singleton, exists_eq_left,
        FreeListLocation.covers, List.not_mem_nil, false_and, exists_false, or_false]
      omega
    · simp [ChunkAllocation.create, ChunkAllocation.freeSize, ChunkAllocation.liveSize]
    · simp [ChunkAllocation.create]

theorem reachable_example : Reachable [movedExample] := by
  have h0 : Reachable [ChunkAllocation.create 1024] :=
    Reachable.create [] 1024 Reachable.empty
  have h1 : Reachable [⟨1024, [⟨100, 924⟩], [⟨0, 0, 100⟩]⟩] :=
    Reachable.allocate _ _ .firstFit 0 100 1 ⟨0, 0, 100⟩ h0 (by decide) rfl
  have h2 : Reachable [⟨1024, [⟨300, 724⟩], [⟨0, 100, 200⟩, ⟨0, 0, 100⟩]⟩] :=
    Reachable.allocate _ _ .bestFit 0 200 4 ⟨0, 100, 200⟩ h1 (by decide) rfl
  have h3 : Reachable [⟨1024, [⟨600, 424⟩],
      [⟨0, 300, 300⟩, ⟨0, 100, 200⟩, ⟨0, 0, 100⟩]⟩] :=
    Reachable.allocate _ _ .worstFit 0 300 1 ⟨0, 300, 300⟩ h2 (by decide) rfl
  have h4 : Reachable
      [⟨1024, [⟨0, 100⟩, ⟨600, 424⟩], [⟨0, 300, 300⟩, ⟨0, 100, 200⟩]⟩] :=
    Reachable.deallocate _ _ ⟨0, 0, 100⟩ h3 rfl
  exact Reachable.defragment _ _ 0 600 ⟨0, 100, 200⟩ ⟨0, 600, 200⟩ true h4 rfl

theorem partition_invariant_witness :
    Reachable [movedExample] ∧ movedExample ∈ [movedExample] ∧
    (let c := movedExample
    c.freeList.Pairwise (fun a b => ∀ p, ¬ (a.covers p ∧ b.covers p)) ∧
    c.liveAllocations.Pairwise (fun a b => ∀ p, ¬ (a.covers p ∧ b.covers p)) ∧
    (∀ f ∈ c.freeList, ∀ l ∈ c.liveAllocations, ∀ p, ¬ (f.covers p ∧ l.covers p)) ∧
    ((∀ f ∈ c.freeList, 0 < f.size ∨ c.totalSize = 0) ∧
      (∀ l ∈ c.liveAllocations, 0 < l.size)) ∧
    (∀ p, p < c.totalSize ↔
      ((∃ f ∈ c.freeList, f.covers p) ∨ (∃ l ∈ c.liveAllocations, l.covers p))) ∧
    c.freeSize + c.liveSize = c.totalSize ∧
    c.freeList.Pairwise
      (fun a b => a.offset + a.size ≠ b.offset ∧ b.offset + b.size ≠ a.offset)) :=
  ⟨reachable_example, List.mem_singleton.2 rfl,
    partition_invariant _ reachable_example _ (List.mem_singleton.2 rfl)⟩

/-- C8 (counterexample): a completed allocation of zero bytes breaks the invariant. With
alignment 8, zero bytes allocated in the free region `[100, 1024)` are placed at offset
104 and the free region is split into `[100, 104)` and `[104, 1024)`, which touch. With
alignment 1, zero bytes are placed at offset 200 without splitting anything; once the
allocation in front of it is released the empty allocation lies inside a free region,
releasing it puts the empty range in front of that region, and the next release to the
left of the region, `[0, 100)`, is no longer merged with `[100, 1024)`. -/
theorem zero_size_allocate_breaks_partition :
    (allocate [ChunkAllocation.create 1024] .firstFit 0 100 1 =
        .ok ([⟨1024, [⟨100, 924⟩], [⟨0, 0, 100⟩]⟩], ⟨0, 0, 100⟩) ∧
      allocate [⟨1024, [⟨100, 924⟩], [⟨0, 0, 100⟩]⟩] .firstFit 0 0 8 =
        .ok ([⟨1024, [⟨100, 4⟩, ⟨104, 920⟩], [⟨0, 104, 0⟩, ⟨0, 0, 100⟩]⟩], ⟨0, 104, 0⟩) ∧
      ¬ ([⟨100, 4⟩, ⟨104, 920⟩] : List FreeListLocation).Pairwise
        (fun a b => a.offset + a.size ≠ b.offset ∧ b.offset + b.size ≠ a.offset)) ∧
    (allocate [⟨1024, [⟨100, 924⟩], [⟨0, 0, 100⟩]⟩] .firstFit 0 100 1 =
        .ok ([⟨1024, [⟨200, 824⟩], [⟨0, 100, 100⟩, ⟨0, 0, 100⟩]⟩], ⟨0, 100, 100⟩) ∧
      allocate [⟨1024, [⟨200, 824⟩], [⟨0, 100, 100⟩, ⟨0, 0, 100⟩]⟩] .firstFit 0 0 1 =
        .ok ([⟨1024, [⟨200, 824⟩], [⟨0, 200, 0⟩, ⟨0, 100, 100⟩, ⟨0, 0, 100⟩]⟩],
          ⟨0, 200, 0⟩) ∧
      deallocate [⟨1024, [⟨200, 824⟩], [⟨0, 200, 0⟩, ⟨0, 100, 100⟩, ⟨0, 0, 100⟩]⟩]
          ⟨0, 100, 100⟩ =
        .ok [⟨1024, [⟨100, 924⟩], [⟨0, 200, 0⟩, ⟨0, 0, 100⟩]⟩] ∧
      deallocate [⟨1024, [⟨100, 924⟩], [⟨0, 200, 0⟩, ⟨0, 0, 100⟩]⟩] ⟨0, 200, 0⟩ =
        .ok [⟨1024, [⟨200, 0⟩, ⟨100, 924⟩], [⟨0, 0, 100⟩]⟩] ∧
      deallocate [⟨1024, [⟨200, 0⟩, ⟨100, 924⟩], [⟨0, 0, 100⟩]⟩] ⟨0, 0, 100⟩ =
        .ok [⟨1024, [⟨0, 100⟩, ⟨200, 0⟩, ⟨100, 924⟩], []⟩] ∧
      ¬ ([⟨0, 100⟩, ⟨200, 0⟩, ⟨100, 924⟩] : List FreeListLocation).Pairwise
        (fun a b => a.offset + a.size ≠ b.offset ∧ b.offset + b.size ≠ a.offset)) := by
  refine ⟨⟨rfl, rfl, ?_⟩, ⟨rfl, rfl, rfl, rfl, rfl, ?_⟩⟩
  · simp
  · simp

/-! ## Merging on release -/

/-- C10: in one chunk of size 1024, allocating A (100), B (200), C (300), deallocating B
and allocating D (150), all with first fit and no alignment constraint (alignment 1),
puts D at the offset B had (B's freed region
is the first sufficient one `findRange` sees), and leaves 474 free bytes in the chunk. -/
theorem endToEnd_firstFit :
    ∃ (s1 s2 s3 s4 s5 : List ChunkAllocation) (a b c d : MemoryLocation)
      (chunk : ChunkAllocation),
      allocate [ChunkAllocation.create 1024] .firstFit 0 100 1 = .ok (s1, a) ∧
      allocate s1 .firstFit 0 200 1 = .ok (s2, b) ∧
      allocate s2 .firstFit 0 300 1 = .ok (s3, c) ∧
      deallocate s3 b = .ok s4 ∧
      FirstFitStrategy.findRange s4 150 = some (0, 0) ∧
      regionAt s4 0 0 = some ⟨b.offset, b.size⟩ ∧
      allocate s4 .firstFit 0 150 1 = .ok (s5, d) ∧
      d.offset = b.offset ∧ s5 = [chunk] ∧ chunk.freeSize = 474 :=
  ⟨[⟨1024, [⟨100, 924⟩], [⟨0, 0, 100⟩]⟩],
   [⟨1024, [⟨300, 724⟩], [⟨0, 100, 200⟩, ⟨0, 0, 100⟩]⟩],
   [⟨1024, [⟨600, 424⟩], [⟨0, 300, 300⟩, ⟨0, 100, 200⟩, ⟨0, 0, 100⟩]⟩],
   [⟨1024, [⟨100, 200⟩, ⟨600, 424⟩], [⟨0, 300, 300⟩, ⟨0, 0, 100⟩]⟩],
   [⟨1024, [⟨250, 50⟩, ⟨600, 424⟩], [⟨0, 100, 150⟩, ⟨0, 300, 300⟩, ⟨0, 0, 100⟩]⟩],
   ⟨0, 0, 100⟩, ⟨0, 100, 200⟩, ⟨0, 300, 300⟩, ⟨0, 100, 150⟩,
   ⟨1024, [⟨250, 50⟩, ⟨600, 424⟩], [⟨0, 100, 150⟩, ⟨0, 300, 300⟩, ⟨0, 0, 100⟩]⟩,
   rfl, rfl, rfl, rfl, rfl, rfl, rfl, rfl, rfl, rfl⟩

/-! ## Defragger shutdown -/

theorem Defragger.join_events (workerEnds : Defragger → Bool) (self : Defragger) :
    (Defragger.join workerEnds self).state.events =
      self.events ++ [Defragger.Event.joinWorker] := by
  unfold Defragger.join
  cases self.worker
  · by_cases h : workerEnds self = true
    · simp [h]
    · simp [h]
  · rfl

theorem Defragger.exit_events (stop : Defragger → Defragger)
    (workerEnds : Defragger → Bool) (self : Defragger) :
    (Defragger.exit stop workerEnds self).state.events =
      (stop self).events ++ [Defragger.Event.storeQuit true, Defragger.Event.joinWorker] := by
  unfold Defragger.exit
  simp only [Defragger.join_events]
  simp

theorem Defragger.afterQuit_append (pre : List Defragger.Event) :
    Defragger.afterQuit
      (pre ++ [Defragger.Event.storeQuit true, Defragger.Event.joinWorker]) =
      [Defragger.Event.joinWorker] := by
  induction pre with
  | nil => simp [Defragger.afterQuit]
  | cons e es ih =>
    rw [List.cons_append, Defragger.afterQuit, if_pos (by simp), ih]

/-- C12 (what the code does): after the store `quit = true`, `exit()` performs the join and
nothing else; it does not notify `start_condition` between setting `quit` and joining,
whatever `stop()` does and however the join ends. For a freshly constructed Defragger
whose `stop()` clears `running`, the whole shutdown is: store `running = false`, store
`quit = true`, join; with a worker that does not finish unless it is woken, the
destructor never comes back from the join. -/
theorem Defragger.exit_joins_without_notify (stop : Defragger → Defragger)
    (workerEnds : Defragger → Bool) (self : Defragger) :
    Defragger.afterQuit (Defragger.exit stop workerEnds self).state.events =
      [Defragger.Event.joinWorker] ∧
    Defragger.Event.notifyStartCondition ∉
      Defragger.afterQuit (Defragger.exit stop workerEnds self).state.events ∧
    (Defragger.destructor Defragger.stop workerEnds Defragger.create).state.events =
      [Defragger.Event.storeRunning false, Defragger.Event.storeQuit true,
        Defragger.Event.joinWorker] ∧
    (Defragger.destructor Defragger.stop
      (fun d => decide (Defragger.Event.notifyStartCondition ∈ d.events))
      Defragger.create).ending = Defragger.Ending.blocked := by
  rw [Defragger.exit_events, Defragger.afterQuit_append]
  refine ⟨rfl, by simp, ?_, ?_⟩
  · unfold Defragger.destructor
    rw [Defragger.exit_events]
    rfl
  · rfl

end Saiga.Vulkan.Memory

namespace Saiga

/-! ## SpinLock -/

theorem SpinLock.tryLockTimes_held (n : Nat) :
    SpinLock.tryLockTimes n ⟨true⟩ = (List.replicate n false, ⟨true⟩) := by
  induction n with
  | zero => rfl
  | succ k ih => simp [SpinLock.tryLockTimes, SpinLock.try_lock, ih, List.replicate_succ]

theorem SpinLock.after_append (ops1 ops2 : List SpinLock.Op) (s : SpinLock) :
    SpinLock.after (ops1 ++ ops2) s = SpinLock.after ops2 (SpinLock.after ops1 s) := by
  induction ops1 generalizing s with
  | nil => rfl
  | cons op ops ih => cases op <;> simp [SpinLock.after, ih]

theorem SpinLock.lockLoop_held (fuel k : Nat) :
    SpinLock.lockLoop fuel k ⟨true⟩ = none := by
  induction fuel generalizing k with
  | zero => rfl
  | succ n ih => simp [SpinLock.lockLoop, SpinLock.try_lock, ih]

/-- C13: `try_lock()` returns true exactly when the lock was free before the call, and the
lock is held after the call whether it succeeded or not. -/
theorem SpinLock.try_lock_true_iff_free (s : SpinLock) :
    (s.try_lock.1 = true ↔ s = SpinLock.free) ∧
    (s.try_lock.1 = true ↔ s.v = false) ∧
    s.try_lock.2.v = true := by
  cases s with
  | mk v => cases v <;> simp [SpinLock.try_lock, SpinLock.free]

/-- C20: the lock as a sequential state machine. On a free lock `try_lock()` succeeds, and
`lock()` acquires it on the first attempt (no failed attempt, `k = 0`). Once the lock has
been taken by `try_lock()` or `lock()`, any number of further `try_lock()` calls all
return false and leave it held. After any sequence of calls that ends with `unlock()`,
the next `try_lock()` returns true. In general, after a sequence of calls on a free lock
the lock is held exactly when the last call was a `try_lock()`; a sequential `lock()` on
a held lock never gets the lock. -/
theorem SpinLock.sequential_state_machine :
    SpinLock.free.try_lock = (true, ⟨true⟩) ∧
    (∀ fuel, SpinLock.lock (fuel + 1) SpinLock.free = some (0, ⟨true⟩)) ∧
    (∀ (s : SpinLock) (n : Nat),
      SpinLock.tryLockTimes n s.try_lock.2 = (List.replicate n false, s.try_lock.2)) ∧
    (∀ (ops : List SpinLock.Op) (s : SpinLock),
      (SpinLock.after (ops ++ [SpinLock.Op.unlock]) s).try_lock.1 = true) ∧
    (∀ ops : List SpinLock.Op,
      (SpinLock.after ops SpinLock.free).v = true ↔
        ops.getLast? = some SpinLock.Op.try_lock) ∧
    (∀ fuel, SpinLock.lock fuel ⟨true⟩ = none) := by
  refine ⟨rfl, fun fuel => rfl, ?_, ?_, ?_, ?_⟩
  · intro s n
    exact SpinLock.tryLockTimes_held n
  · intro ops s
    rw [SpinLock.after_append]
    rfl
  · intro ops
    induction ops using List.reverseRecOn with
    | nil => simp [SpinLock.after, SpinLock.free]
    | append_singleton ops op _ =>
      rw [SpinLock.after_append, List.getLast?_append]
      cases op <;> simp [SpinLock.after, SpinLock.try_lock, SpinLock.unlock]
  · intro fuel
    exact SpinLock.lockLoop_held fuel 0

/-! ## WorldPoint -/

theorem pairLt_iff (a b : Int × Int) :
    pairLt a b = true ↔ a.1 < b.1 ∨ (a.1 = b.1 ∧ a.2 < b.2) := by
  simp only [pairLt, Bool.or_eq_true, Bool.and_eq_true, Bool.not_eq_true',
    decide_eq_true_eq, decide_eq_false_iff_not]
  omega

theorem pairLt_false_iff (a b : Int × Int) :
    pairLt a b = false ↔ b.1 < a.1 ∨ (a.1 = b.1 ∧ b.2 ≤ a.2) := by
  rw [← Bool.not_eq_true, pairLt_iff]
  omega

theorem pair_eq_of_not_lt (a b : Int × Int) (h1 : pairLt a b = false)
    (h2 : pairLt b a = false) : a = b := by
  rw [pairLt_false_iff] at h1 h2
  apply Prod.ext <;> omega

theorem sortInsert_perm (x : Int × Int) (l : List (Int × Int)) :
    (sortInsert x l).Perm (x :: l) := by
  induction l with
  | nil => exact List.Perm.refl _
  | cons y ys ih =>
    simp only [sortInsert]
    split
    · exact (List.Perm.cons y ih).trans (List.Perm.swap x y ys)
    · exact List.Perm.refl _

theorem stdSort_perm (l : List (Int × Int)) : (stdSort l).Perm l := by
  induction l with
  | nil => exact List.Perm.refl _
  | cons x xs ih => exact (sortInsert_perm x (stdSort xs)).trans (List.Perm.cons x ih)

theorem sortInsert_ascending (x : Int × Int) (l : List (Int × Int))
    (h : l.Pairwise (fun a b => pairLt b a = false)) :
    (sortInsert x l).Pairwise (fun a b => pairLt b a = false) := by
  induction l with
  | nil => simp [sortInsert]
  | cons y ys ih =>
    rw [List.pairwise_cons] at h
    simp only [sortInsert]
    split
    · rename_i hyx
      rw [List.pairwise_cons]
      refine ⟨?_, ih h.2⟩
      intro z hz
      rcases List.mem_cons.1 ((sortInsert_perm x ys).subset hz) with rfl | hz
      · rw [pairLt_iff] at hyx
        rw [pairLt_false_iff]
        omega
      · exact h.1 z hz
    · rename_i hyx
      rw [Bool.not_eq_true] at hyx
      rw [List.pairwise_cons]
      refine ⟨?_, List.pairwise_cons.2 h⟩
      intro z hz
      rcases List.mem_cons.1 hz with rfl | hz
      · exact hyx
      · have := h.1 z hz
        rw [pairLt_false_iff] at hyx this ⊢
        omega

theorem stdSort_ascending (l : List (Int × Int)) :
    (stdSort l).Pairwise (fun a b => pairLt b a = false) := by
  induction l with
  | nil => exact List.Pairwise.nil
  | cons x xs ih => exact sortInsert_ascending x _ ih

theorem stdUnique_length_le (l : List (Int × Int)) : (stdUnique l).length ≤ l.length := by
  induction l with
  | nil => simp [stdUnique]
  | cons x xs ih =>
    cases xs with
    | nil => simp [stdUnique]
    | cons y rest =>
      simp only [stdUnique]
      split
      · simp only [List.length_cons] at ih ⊢
        omega
      · simp only [List.length_cons] at ih ⊢
        omega

/-- On an ascending sequence `std::unique` removes nothing exactly when no element occurs
twice. -/
theorem stdUnique_length_eq_iff (l : List (Int × Int))
    (h : l.Pairwise (fun a b => pairLt b a = false)) :
    (stdUnique l).length = l.length ↔ l.Nodup := by
  induction l with
  | nil => simp [stdUnique]
  | cons x xs ih =>
    cases xs with
    | nil => simp [stdUnique]
    | cons y rest =>
      rw [List.pairwise_cons] at h
      have hle := stdUnique_length_le (y :: rest)
      simp only [stdUnique]
      split
      · rename_i hxy
        subst hxy
        simp only [List.length_cons] at hle ⊢
        constructor
        · intro hlen
          omega
        · intro hnd
          rw [List.nodup_cons] at hnd
          exact absurd (List.mem_cons_self _ _) hnd.1
      · rename_i hxy
        have hmem : x ∉ y :: rest := by
          intro hx
          have hxy1 := h.1 y (List.mem_cons_self _ _)
          rcases List.mem_cons.1 hx with hx | hx
          · exact hxy hx
          · have h2 := h.2
            rw [List.pairwise_cons] at h2
            have hyx := h2.1 x hx
            exact hxy (pair_eq_of_not_lt x y hyx hxy1)
        rw [List.length_cons, List.length_cons (a := x), Nat.succ_inj', ih h.2,
          List.nodup_cons (a := x)]
        exact ⟨fun hnd => ⟨hmem, hnd⟩, fun hnd => hnd.2⟩

/-- C14: `uniqueReferences()` returns true exactly when no (ImageID, ImagePointID) pair
occurs more than once in `stereoreferences` (no two positions hold the same pair), and
it leaves the point, `stereoreferences` included, as it was. -/
theorem WorldPoint.uniqueReferences_iff_nodup (wp : WorldPoint) :
    (wp.uniqueReferences.1 = true ↔ wp.stereoreferences.Nodup) ∧
    (wp.uniqueReferences.1 = true ↔
      ∀ i j : Nat, i < j → j < wp.stereoreferences.length →
        wp.stereoreferences[i]? ≠ wp.stereoreferences[j]?) ∧
    wp.uniqueReferences.2 = wp ∧
    wp.uniqueReferences.2.stereoreferences = wp.stereoreferences := by
  have key : wp.uniqueReferences.1 = true ↔ wp.stereoreferences.Nodup := by
    simp only [WorldPoint.uniqueReferences, beq_iff_eq]
    rw [stdUnique_length_eq_iff _ (stdSort_ascending _)]
    exact (stdSort_perm _).nodup_iff
  refine ⟨key, ?_, rfl, rfl⟩
  exact key.trans List.nodup_iff_getElem?_ne_getElem?

/-- C15: `isValid()` is true exactly when the `valid` flag is set and `stereoreferences`
is not empty, and the conversion to `bool` is `isValid()`. -/
theorem WorldPoint.isValid_iff (wp : WorldPoint) :
    (wp.isValid = true ↔ wp.valid = true ∧ wp.stereoreferences ≠ []) ∧
    (wp.isValid = true ↔ wp.valid = true ∧ 0 < wp.stereoreferences.length) ∧
    wp.toBool = wp.isValid := by
  refine ⟨?_, ?_, rfl⟩
  · simp [WorldPoint.isValid, List.isEmpty_iff]
  · simp [WorldPoint.isValid, List.isEmpty_iff, List.length_pos]

/-! ## SparseTSDF: trilinear access -/

theorem sub_floor_mem_unit (q : ℚ) : 0 ≤ q - (⌊q⌋ : Int) ∧ q - (⌊q⌋ : Int) < 1 := by
  have h1 := Int.floor_le q
  have h2 := Int.lt_floor_add_one q
  constructor <;> linarith

theorem SparseTSDF.frac_mem_unit (self : SparseTSDF) (position : Vec3) :
    (0 ≤ (self.frac position).x ∧ (self.frac position).x < 1) ∧
    (0 ≤ (self.frac position).y ∧ (self.frac position).y < 1) ∧
    (0 ≤ (self.frac position).z ∧ (self.frac position).z < 1) :=
  ⟨sub_floor_mem_unit _, sub_floor_mem_unit _, sub_floor_mem_unit _⟩

theorem SparseTSDF.TrilinearAccess_eq (self : SparseTSDF) (position : Vec3) :
    self.TrilinearAccess position =
      [((self.corner position).add ⟨0, 0, 0⟩,
          (1 - (self.frac position).x) * (1 - (self.frac position).y) *
            (1 - (self.frac position).z)),
       ((self.corner position).add ⟨0, 0, 1⟩,
          (1 - (self.frac position).x) * (1 - (self.frac position).y) *
            (self.frac position).z),
       ((self.corner position).add ⟨0, 1, 0⟩,
          (1 - (self.frac position).x) * (self.frac position).y *
            (1 - (self.frac position).z)),
       ((self.corner position).add ⟨0, 1, 1⟩,
          (1 - (self.frac position).x) * (self.frac position).y * (self.frac position).z),
       ((self.corner position).add ⟨1, 0, 0⟩,
          (self.frac position).x * (1 - (self.frac position).y) *
            (1 - (self.frac position).z)),
       ((self.corner position).add ⟨1, 0, 1⟩,
          (self.frac position).x * (1 - (self.frac position).y) * (self.frac position).z),
       ((self.corner position).add ⟨1, 1, 0⟩,
          (self.frac position).x * (self.frac position).y * (1 - (self.frac position).z)),
       ((self.corner position).add ⟨1, 1, 1⟩,
          (self.frac position).x * (self.frac position).y * (self.frac position).z)] :=
  rfl

theorem mul3_mem_unit (a b c : ℚ) (ha : 0 ≤ a ∧ a ≤ 1) (hb : 0 ≤ b ∧ b ≤ 1)
    (hc : 0 ≤ c ∧ c ≤ 1) : 0 ≤ a * b * c ∧ a * b * c ≤ 1 := by
  have hab : 0 ≤ a * b := mul_nonneg ha.1 hb.1
  have hab1 : a * b ≤ 1 := by
    calc a * b ≤ 1 * 1 := mul_le_mul ha.2 hb.2 hb.1 (by norm_num)
      _ = 1 := by norm_num
  refine ⟨mul_nonneg hab hc.1, ?_⟩
  calc a * b * c ≤ 1 * 1 := mul_le_mul hab1 hc.2 hc.1 (by norm_num)
    _ = 1 := by norm_num

theorem SparseTSDF.TrilinearAccess_weight_mem_unit (self : SparseTSDF) (position : Vec3)
    (iw : IVec3 × ℚ) (h : iw ∈ self.TrilinearAccess position) : 0 ≤ iw.2 ∧ iw.2 ≤ 1 := by
  obtain ⟨⟨hx0, hx1⟩, ⟨hy0, hy1⟩, ⟨hz0, hz1⟩⟩ := self.frac_mem_unit position
  have fx : 0 ≤ (self.frac position).x ∧ (self.frac position).x ≤ 1 := ⟨hx0, le_of_lt hx1⟩
  have fy : 0 ≤ (self.frac position).y ∧ (self.frac position).y ≤ 1 := ⟨hy0, le_of_lt hy1⟩
  have fz : 0 ≤ (self.frac position).z ∧ (self.frac position).z ≤ 1 := ⟨hz0, le_of_lt hz1⟩
  have gx : 0 ≤ 1 - (self.frac position).x ∧ 1 - (self.frac position).x ≤ 1 :=
    ⟨by linarith, by linarith⟩
  have gy : 0 ≤ 1 - (self.frac position).y ∧ 1 - (self.frac position).y ≤ 1 :=
    ⟨by linarith, by linarith⟩
  have gz : 0 ≤ 1 - (self.frac position).z ∧ 1 - (self.frac position).z ≤ 1 :=
    ⟨by linarith, by linarith⟩
  rw [SparseTSDF.TrilinearAccess_eq] at h
  simp only [List.mem_cons, List.mem_singleton, List.not_mem_nil, or_false] at h
  rcases h with h | h | h | h | h | h | h | h <;> rw [h]
  · exact mul3_mem_unit _ _ _ gx gy gz
  · exact mul3_mem_unit _ _ _ gx gy fz
  · exact mul3_mem_unit _ _ _ gx fy gz
  · exact mul3_mem_unit _ _ _ gx fy fz
  · exact mul3_mem_unit _ _ _ fx gy gz
  · exact mul3_mem_unit _ _ _ fx gy fz
  · exact mul3_mem_unit _ _ _ fx fy gz
  · exact mul3_mem_unit _ _ _ fx fy fz

theorem SparseTSDF.TrilinearAccess_weight_sum (self : SparseTSDF) (position : Vec3) :
    ((self.TrilinearAccess position).map (fun iw => iw.2)).sum = 1 := by
  rw [SparseTSDF.TrilinearAccess_eq]
  simp only [List.map_cons, List.map_nil, List.sum_cons, List.sum_nil]
  ring

theorem SparseTSDF.accumulate_true (self : SparseTSDF) (min_weight : ℚ)
    (l : List (IVec3 × ℚ)) (result : TSDFVoxel) (w_sum : ℚ)
    (h : ∀ iw ∈ l, (self.GetVoxel iw.1).weight > min_weight) :
    self.accumulate min_weight l result w_sum =
      (true,
        { distance := result.distance +
            (l.map (fun iw => (self.GetVoxel iw.1).distance * iw.2)).sum,
          weight := result.weight +
            (l.map (fun iw => (self.GetVoxel iw.1).weight * iw.2)).sum },
        w_sum + (l.map (fun iw => iw.2)).sum) := by
  induction l generalizing result w_sum with
  | nil => simp [SparseTSDF.accumulate]
  | cons iw rest ih =>
    have h1 := h iw (List.mem_cons_self _ _)
    simp only [SparseTSDF.accumulate, if_neg (not_le.2 h1)]
    rw [ih _ _ (fun x hx => h x (List.mem_cons_of_mem _ hx))]
    simp only [List.map_cons, List.sum_cons, add_assoc]

theorem SparseTSDF.accumulate_false (self : SparseTSDF) (min_weight : ℚ)
    (l : List (IVec3 × ℚ)) (result : TSDFVoxel) (w_sum : ℚ)
    (h : ∃ iw ∈ l, (self.GetVoxel iw.1).weight ≤ min_weight) :
    (self.accumulate min_weight l result w_sum).1 = false := by
  induction l generalizing result w_sum with
  | nil =>
    obtain ⟨iw, hiw, _⟩ := h
    exact absurd hiw (List.not_mem_nil _)
  | cons iw rest ih =>
    simp only [SparseTSDF.accumulate]
    split
    · rfl
    · rename_i hiw
      apply ih
      obtain ⟨x, hx, hxw⟩ := h
      rcases List.mem_cons.1 hx with rfl | hx
      · exact absurd hxw hiw
      · exact ⟨x, hx, hxw⟩

/-- What the second `TrilinearAccess` returns: never an assertion failure; `true` with the
two weighted sums when every corner voxel has a weight above `min_weight`, `false`
otherwise. -/
theorem SparseTSDF.TrilinearAccessVoxel_cases (self : SparseTSDF) (position : Vec3)
    (min_weight : ℚ) :
    ((∀ iw ∈ self.TrilinearAccess position, (self.GetVoxel iw.1).weight > min_weight) ∧
      self.TrilinearAccessVoxel position min_weight =
        .ok (true,
          { distance := ((self.TrilinearAccess position).map
              (fun iw => (self.GetVoxel iw.1).distance * iw.2)).sum,
            weight := ((self.TrilinearAccess position).map
              (fun iw => (self.GetVoxel iw.1).weight * iw.2)).sum })) ∨
    ((∃ iw ∈ self.TrilinearAccess position, (self.GetVoxel iw.1).weight ≤ min_weight) ∧
      ∃ result, self.TrilinearAccessVoxel position min_weight = .ok (false, result)) := by
  by_cases h : ∀ iw ∈ self.TrilinearAccess position, (self.GetVoxel iw.1).weight > min_weight
  · left
    refine ⟨h, ?_⟩
    unfold SparseTSDF.TrilinearAccessVoxel
    simp only [SparseTSDF.accumulate_true self min_weight _ _ _ h,
      SparseTSDF.TrilinearAccess_weight_sum, zero_add]
    norm_num
  · right
    push_neg at h
    refine ⟨h, ?_⟩
    have hf := SparseTSDF.accumulate_false self min_weight _
      { distance := 0, weight := 0 } 0 h
    cases hacc : self.accumulate min_weight (self.TrilinearAccess position)
      { distance := 0, weight := 0 } 0 with
    | mk b rest =>
      obtain ⟨r, w⟩ := rest
      rw [hacc] at hf
      simp only at hf
      subst hf
      exact ⟨r, by simp only [SparseTSDF.TrilinearAccessVoxel, hacc]⟩

/-- C16: the fractional part computed by `TrilinearAccess(position)` has its components in
`[0, 1)`; each of the eight weights lies in `[0, 1]`; the eight weights sum to `1`; hence,
when the loop of the second `TrilinearAccess` accepts all eight voxels, its `w_sum`
satisfies `|w_sum - 1| < 0.0001` and the assertion does not fail, for every position,
voxel size, grid content and `min_weight` (exact arithmetic). -/
theorem SparseTSDF.trilinear_weights_partition_of_unity (self : SparseTSDF)
    (position : Vec3) :
    ((0 ≤ (self.frac position).x ∧ (self.frac position).x < 1) ∧
      (0 ≤ (self.frac position).y ∧ (self.frac position).y < 1) ∧
      (0 ≤ (self.frac position).z ∧ (self.frac position).z < 1)) ∧
    (self.TrilinearAccess position).length = 8 ∧
    (∀ iw ∈ self.TrilinearAccess position, 0 ≤ iw.2 ∧ iw.2 ≤ 1) ∧
    ((self.TrilinearAccess position).map (fun iw => iw.2)).sum = 1 ∧
    (∀ (min_weight : ℚ) (result : TSDFVoxel) (w_sum : ℚ),
      self.accumulate min_weight (self.TrilinearAccess position)
        { distance := 0, weight := 0 } 0 = (true, result, w_sum) →
      w_sum = 1 ∧ |w_sum - 1| < 1 / 10000) ∧
    (∀ min_weight : ℚ,
      self.TrilinearAccessVoxel position min_weight ≠ .error Fault.wSumNearOne) := by
  refine ⟨self.frac_mem_unit position, rfl,
    fun iw h => SparseTSDF.TrilinearAccess_weight_mem_unit self position iw h,
    SparseTSDF.TrilinearAccess_weight_sum self position, ?_, ?_⟩
  · intro min_weight result w_sum hacc
    have hall : ∀ iw ∈ self.TrilinearAccess position,
        (self.GetVoxel iw.1).weight > min_weight := by
      by_contra hcon
      push_neg at hcon
      have := SparseTSDF.accumulate_false self min_weight _
        { distance := 0, weight := 0 } 0 hcon
      rw [hacc] at this
      exact absurd this (by simp)
    rw [SparseTSDF.accumulate_true self min_weight _ _ _ hall,
      SparseTSDF.TrilinearAccess_weight_sum] at hacc
    simp only [zero_add, Prod.mk.injEq, true_and] at hacc
    rw [← hacc.2]
    norm_num
  · intro min_weight
    rcases SparseTSDF.TrilinearAccessVoxel_cases self position min_weight with
      ⟨_, h⟩ | ⟨_, r, h⟩ <;> rw [h] <;> simp

/-! ## SparseTSDF: bisection and ray marching -/

theorem SparseTSDF.IntersectionLinear_bracket (a b aDist bDist : ℚ) (hab : a ≤ b)
    (ha : 0 < aDist) (hb : bDist ≤ 0) :
    a ≤ SparseTSDF.IntersectionLinear a b aDist bDist ∧
      SparseTSDF.IntersectionLinear a b aDist bDist ≤ b := by
  unfold SparseTSDF.IntersectionLinear
  have hden : 0 < aDist - bDist := by linarith
  have hr0 : 0 ≤ aDist / (aDist - bDist) := div_nonneg (le_of_lt ha) (le_of_lt hden)
  have hr1 : aDist / (aDist - bDist) ≤ 1 := (div_le_one hden).2 (by linarith)
  have hba : 0 ≤ b - a := by linarith
  constructor
  · have := mul_nonneg hr0 hba
    linarith
  · have := mul_le_mul_of_nonneg_right hr1 hba
    linarith

theorem SparseTSDF.bisectLoop_bracket (self : SparseTSDF) (ray_origin ray_dir : Vec3)
    (t1 t2 min_weight : ℚ) (n : Nat) (a b aDist bDist c : ℚ)
    (h1 : t1 ≤ a) (h2 : b ≤ t2) (hac : a ≤ c) (hcb : c ≤ b)
    (ha : 0 < aDist) (hb : bDist ≤ 0) :
    self.bisectLoop ray_origin ray_dir t1 t2 min_weight n a b aDist bDist c = .ok none ∨
    ∃ t, self.bisectLoop ray_origin ray_dir t1 t2 min_weight n a b aDist bDist c =
        .ok (some t) ∧ t1 ≤ t ∧ t ≤ t2 := by
  induction n generalizing a b aDist bDist c with
  | zero =>
    right
    exact ⟨c, rfl, by linarith, by linarith⟩
  | succ k ih =>
    have hc1 : c ≥ t1 := by linarith
    have hc2 : c ≤ t2 := by linarith
    simp only [SparseTSDF.bisectLoop, not_not.2 hc1, not_not.2 hc2, if_false]
    rcases SparseTSDF.TrilinearAccessVoxel_cases self (ray_origin.add (ray_dir.scale c))
      min_weight with ⟨_, h⟩ | ⟨_, r, h⟩
    · rw [h]
      simp only
      split
      · rename_i hpos
        have hcd : 0 < ((self.TrilinearAccess (ray_origin.add (ray_dir.scale c))).map
            (fun iw => (self.GetVoxel iw.1).distance * iw.2)).sum := by
          by_contra hneg
          have := mul_nonpos_of_nonneg_of_nonpos (le_of_lt ha) (not_lt.1 hneg)
          linarith
        have hbr := SparseTSDF.IntersectionLinear_bracket c b _ bDist hcb hcd hb
        exact ih c b _ bDist _ (by linarith) h2 hbr.1 hbr.2 hcd hb
      · rename_i hpos
        have hcd : ((self.TrilinearAccess (ray_origin.add (ray_dir.scale c))).map
            (fun iw => (self.GetVoxel iw.1).distance * iw.2)).sum ≤ 0 := by
          by_contra hneg
          exact hpos (mul_pos ha (not_le.1 hneg))
        have hbr := SparseTSDF.IntersectionLinear_bracket a c aDist _ hac ha hcd
        exact ih a c aDist _ _ h1 (by linarith) hbr.1 hbr.2 ha hcd
    · rw [h]
      left
      rfl

theorem SparseTSDF.findIntersectionBisection_bracket (self : SparseTSDF)
    (bisect_iterations : Nat) (ray_origin ray_dir : Vec3) (t1 t2 d1 d2 min_weight : ℚ)
    (h12 : t1 ≤ t2) (hd1 : d1 > 0) (hd2 : 0 > d2) :
    self.findIntersectionBisection bisect_iterations ray_origin ray_dir t1 t2 d1 d2
        min_weight = .ok none ∨
    ∃ t, self.findIntersectionBisection bisect_iterations ray_origin ray_dir t1 t2 d1 d2
        min_weight = .ok (some t) ∧ t1 ≤ t ∧ t ≤ t2 := by
  have hbr := SparseTSDF.IntersectionLinear_bracket t1 t2 d1 d2 h12 hd1 (le_of_lt hd2)
  exact SparseTSDF.bisectLoop_bracket self ray_origin ray_dir t1 t2 min_weight
    bisect_iterations t1 t2 d1 d2 _ (le_refl _) (le_refl _) hbr.1 hbr.2 hd1 (le_of_lt hd2)

/-- C19: for `t1 <= t2` and `d1 > 0 > d2`, every iteration count, every grid content and
every ray, the initial linear estimate lies in `[t1, t2]`, no run of
`findIntersectionBisection` fails the assertions `c >= t1` and `c <= t2` (nor any other
assertion), and a run that returns true outputs a `t` in `[t1, t2]` (exact arithmetic).
Since this holds for every iteration count, it holds for every `c` the function
computes: the estimate after iteration `k` is the output of the run with `k`
iterations. -/
theorem SparseTSDF.bisection_stays_in_bracket (self : SparseTSDF) (bisect_iterations : Nat)
    (ray_origin ray_dir : Vec3) (t1 t2 d1 d2 min_weight : ℚ)
    (h12 : t1 ≤ t2) (hd1 : d1 > 0) (hd2 : 0 > d2) :
    (t1 ≤ SparseTSDF.IntersectionLinear t1 t2 d1 d2 ∧
      SparseTSDF.IntersectionLinear t1 t2 d1 d2 ≤ t2) ∧
    (∀ e : Fault,
      self.findIntersectionBisection bisect_iterations ray_origin ray_dir t1 t2 d1 d2
        min_weight ≠ .error e) ∧
    (∀ t : ℚ,
      self.findIntersectionBisection bisect_iterations ray_origin ray_dir t1 t2 d1 d2
        min_weight = .ok (some t) → t1 ≤ t ∧ t ≤ t2) := by
  refine ⟨SparseTSDF.IntersectionLinear_bracket t1 t2 d1 d2 h12 hd1 (le_of_lt hd2), ?_, ?_⟩
  · intro e
    rcases SparseTSDF.findIntersectionBisection_bracket self bisect_iterations ray_origin
      ray_dir t1 t2 d1 d2 min_weight h12 hd1 hd2 with h | ⟨t, h, _⟩ <;> rw [h] <;> simp
  · intro t ht
    rcases SparseTSDF.findIntersectionBisection_bracket self bisect_iterations ray_origin
      ray_dir t1 t2 d1 d2 min_weight h12 hd1 hd2 with h | ⟨t0, h, hb⟩
    · rw [h] at ht
      simp at ht
    · rw [h] at ht
      simp only [Except.ok.injEq, Option.some.injEq] at ht
      rw [← ht]
      exact hb

theorem SparseTSDF.bisection_stays_in_bracket_witness :
    (2 : ℚ) ≤ 3 ∧ (1 / 2 : ℚ) > 0 ∧ (0 : ℚ) > -1 / 2 ∧
    ((2 ≤ SparseTSDF.IntersectionLinear 2 3 (1 / 2) (-1 / 2) ∧
      SparseTSDF.IntersectionLinear 2 3 (1 / 2) (-1 / 2) ≤ 3) ∧
    (∀ e : Fault,
      planeTSDF.findIntersectionBisection 3 ⟨0, 0, 0⟩ ⟨1, 0, 0⟩ 2 3 (1 / 2) (-1 / 2) 0 ≠
        .error e) ∧
    (∀ t : ℚ,
      planeTSDF.findIntersectionBisection 3 ⟨0, 0, 0⟩ ⟨1, 0, 0⟩ 2 3 (1 / 2) (-1 / 2) 0 =
        .ok (some t) → 2 ≤ t ∧ t ≤ 3)) :=
  ⟨by norm_num, by norm_num, by norm_num,
    SparseTSDF.bisection_stays_in_bracket planeTSDF 3 ⟨0, 0, 0⟩ ⟨1, 0, 0⟩ 2 3 (1 / 2)
      (-1 / 2) 0 (by norm_num) (by norm_num) (by norm_num)⟩

theorem pow2_eq_zpow (e : Int) : pow2 e = (2 : ℚ) ^ e := by
  unfold pow2
  split
  · rename_i h
    conv_rhs => rw [← Int.toNat_of_nonneg h]
    rw [zpow_natCast]
  · rename_i h
    have h2 : 0 ≤ -e := by omega
    have h3 : e = -((-e).toNat : Int) := by rw [Int.toNat_of_nonneg h2]; omega
    conv_rhs => rw [h3]
    rw [zpow_neg, zpow_natCast, one_div]

theorem pow2_pos (e : Int) : 0 < pow2 e := by
  rw [pow2_eq_zpow]
  positivity

theorem pow2_add (a b : Int) : pow2 (a + b) = pow2 a * pow2 b := by
  simp only [pow2_eq_zpow]
  exact zpow_add₀ (by norm_num) a b

theorem pow2_le_pow2 (a b : Int) (h : a ≤ b) : pow2 a ≤ pow2 b := by
  simp only [pow2_eq_zpow]
  exact zpow_le_zpow_right₀ (by norm_num) h

theorem pow2_lt_pow2 (a b : Int) (h : a < b) : pow2 a < pow2 b := by
  simp only [pow2_eq_zpow]
  exact zpow_lt_zpow_right₀ (by norm_num) h

theorem pow2_natCast (n : Nat) : pow2 (n : Int) = ((2 ^ n : Nat) : ℚ) := by
  rw [pow2_eq_zpow, zpow_natCast]
  push_cast
  rfl

theorem log2Nat_spec (fuel n : Nat) (h1 : 1 ≤ n) (h2 : n ≤ fuel) :
    2 ^ log2Nat fuel n ≤ n ∧ n < 2 ^ (log2Nat fuel n + 1) := by
  induction fuel generalizing n with
  | zero => omega
  | succ fuel ih =>
    unfold log2Nat
    split
    · simp only [pow_zero, zero_add, pow_one]
      omega
    · rename_i h
      have h3 := ih (n / 2) (by omega) (by omega)
      have h4 := Nat.div_add_mod n 2
      have h5 := Nat.mod_lt n (show 0 < 2 by decide)
      rw [pow_succ, pow_succ]
      rw [pow_succ] at h3
      omega

theorem floorLog2_spec (q : ℚ) (hq : 0 < q) :
    pow2 (floorLog2 q) ≤ q ∧ q < pow2 (floorLog2 q + 1) := by
  have hnum : 0 < q.num := Rat.num_pos.2 hq
  have hn1 : 1 ≤ q.num.natAbs := by omega
  have hd1 : 1 ≤ q.den := q.den_pos
  obtain ⟨ha1, ha2⟩ := log2Nat_spec q.num.natAbs q.num.natAbs hn1 (le_refl _)
  obtain ⟨hb1, hb2⟩ := log2Nat_spec q.den q.den hd1 (le_refl _)
  unfold floorLog2
  simp only
  generalize log2Nat q.num.natAbs q.num.natAbs = a at ha1 ha2 ⊢
  generalize log2Nat q.den q.den = b at hb1 hb2 ⊢
  have hdpos : (0 : ℚ) < (q.den : ℚ) := by exact_mod_cast hd1
  have hqd : q * (q.den : ℚ) = (q.num.natAbs : ℚ) := by
    have h1 : ((q.num.natAbs : Int) : ℚ) = (q.num : ℚ) := by
      rw [Int.natAbs_of_nonneg hnum.le]
    rw [Int.cast_natCast] at h1
    rw [h1]
    exact Rat.mul_den_eq_num q
  have hA1 : pow2 a ≤ (q.num.natAbs : ℚ) := by rw [pow2_natCast]; exact_mod_cast ha1
  have hA2 : (q.num.natAbs : ℚ) < pow2 (a + 1) := by
    have := pow2_natCast (a + 1)
    push_cast at this
    rw [this]
    exact_mod_cast ha2
  have hB1 : pow2 b ≤ (q.den : ℚ) := by rw [pow2_natCast]; exact_mod_cast hb1
  have hB2 : (q.den : ℚ) < pow2 (b + 1) := by
    have := pow2_natCast (b + 1)
    push_cast at this
    rw [this]
    exact_mod_cast hb2
  split
  · rename_i h
    refine ⟨h, ?_⟩
    have e1 : pow2 ((a : Int) - b + 1) * pow2 b = pow2 (a + 1) := by
      rw [← pow2_add]; congr 1; ring
    have hpb := pow2_pos b
    have hp := pow2_pos ((a : Int) - b + 1)
    by_contra hcon
    push_neg at hcon
    have : pow2 (a + 1) ≤ q * (q.den : ℚ) := by
      rw [← e1]
      exact mul_le_mul hcon hB1 hpb.le hq.le
    rw [hqd] at this
    linarith
  · rename_i h
    push_neg at h
    constructor
    · have e1 : pow2 ((a : Int) - b - 1) * pow2 (b + 1) = pow2 a := by
        rw [← pow2_add]; congr 1; ring
      have hp := pow2_pos ((a : Int) - b - 1)
      by_contra hcon
      push_neg at hcon
      have : q * (q.den : ℚ) < pow2 a := by
        rw [← e1]
        exact mul_lt_mul'' hcon hB2 hq.le hdpos.le
      rw [hqd] at this
      linarith
    · rw [show (a : Int) - b - 1 + 1 = a - b by ring]
      exact h

theorem floorLog2_unique (q : ℚ) (e : Int) (h1 : pow2 e ≤ q) (h2 : q < pow2 (e + 1)) :
    floorLog2 q = e := by
  have hq : 0 < q := lt_of_lt_of_le (pow2_pos e) h1
  obtain ⟨h3, h4⟩ := floorLog2_spec q hq
  by_contra hne
  rcases lt_or_gt_of_ne hne with h | h
  · have := pow2_le_pow2 (floorLog2 q + 1) e (by omega)
    linarith
  · have := pow2_le_pow2 (e + 1) (floorLog2 q) (by omega)
    linarith

theorem roundHalfEven_sub_le (y : ℚ) : |(roundHalfEven y : ℚ) - y| ≤ 1 / 2 := by
  have h1 := Int.floor_le y
  have h2 := Int.lt_floor_add_one y
  unfold roundHalfEven
  split
  · rw [abs_le]; constructor <;> linarith
  · rename_i h
    push_neg at h
    split
    · push_cast; rw [abs_le]; constructor <;> linarith
    · rename_i h'
      push_neg at h'
      split
      · rw [abs_le]; constructor <;> linarith
      · push_cast; rw [abs_le]; constructor <;> linarith

theorem roundHalfEven_intCast (k : Int) : roundHalfEven (k : ℚ) = k := by
  unfold roundHalfEven
  simp

theorem roundHalfEven_mono (y z : ℚ) (h : y ≤ z) : roundHalfEven y ≤ roundHalfEven z := by
  have hy1 := Int.floor_le y
  have hy2 := Int.lt_floor_add_one y
  have hz1 := Int.floor_le z
  have hz2 := Int.lt_floor_add_one z
  have hfl : ⌊y⌋ ≤ ⌊z⌋ := Int.floor_mono h
  have hry : roundHalfEven y = ⌊y⌋ ∨ roundHalfEven y = ⌊y⌋ + 1 := by
    unfold roundHalfEven; split_ifs <;> simp
  have hrz : roundHalfEven z = ⌊z⌋ ∨ roundHalfEven z = ⌊z⌋ + 1 := by
    unfold roundHalfEven; split_ifs <;> simp
  rcases lt_or_eq_of_le hfl with hlt | heq
  · -- floors differ: ⌊y⌋ + 1 ≤ ⌊z⌋
    rcases hry with hy | hy <;> rcases hrz with hz | hz <;> omega
  · -- same floor
    unfold roundHalfEven
    rw [← heq]
    have hyz : y - ⌊y⌋ ≤ z - ⌊y⌋ := by linarith
    split_ifs <;> first | omega | (exfalso; linarith)

theorem roundHalfEven_neg (y : ℚ) : roundHalfEven (-y) = -roundHalfEven y := by
  have hy1 := Int.floor_le y
  have hy2 := Int.lt_floor_add_one y
  by_cases hint : (⌊y⌋ : ℚ) = y
  · rw [← hint, ← Int.cast_neg, roundHalfEven_intCast, roundHalfEven_intCast]
  · have hlt : (⌊y⌋ : ℚ) < y := lt_of_le_of_ne hy1 hint
    have hfn : ⌊-y⌋ = -⌊y⌋ - 1 := by
      rw [Int.floor_eq_iff]
      push_cast
      constructor <;> linarith
    unfold roundHalfEven
    rw [hfn]
    push_cast
    have hpar : (-⌊y⌋ - 1) % 2 = 0 ↔ ¬ (⌊y⌋ % 2 = 0) := by omega
    split_ifs <;> first | omega | (exfalso; linarith)

namespace F32

theorem spacing_pos (q : ℚ) : 0 < spacing q := pow2_pos _

theorem spacing_neg (q : ℚ) : spacing (-q) = spacing q := by
  unfold spacing
  rw [abs_neg]

theorem nearest_neg (q : ℚ) : nearest (-q) = -nearest q := by
  unfold nearest
  rw [spacing_neg, neg_div, roundHalfEven_neg]
  push_cast
  ring

theorem nearest_zero : nearest 0 = 0 := by
  unfold nearest
  rw [zero_div]
  have := roundHalfEven_intCast 0
  simp only [Int.cast_zero] at this
  rw [this]
  simp

/-- The distance from `q` to the nearest multiple of the spacing is at most half the
spacing. -/
theorem nearest_sub_le (q : ℚ) : |nearest q - q| ≤ spacing q / 2 := by
  have hs := spacing_pos q
  have h := roundHalfEven_sub_le (q / spacing q)
  unfold nearest
  have e : (roundHalfEven (q / spacing q) : ℚ) * spacing q - q =
      ((roundHalfEven (q / spacing q) : ℚ) - q / spacing q) * spacing q := by
    field_simp
  rw [e, abs_mul, abs_of_pos hs]
  calc |(roundHalfEven (q / spacing q) : ℚ) - q / spacing q| * spacing q
      ≤ 1 / 2 * spacing q := mul_le_mul_of_nonneg_right h hs.le
    _ = spacing q / 2 := by ring

/-- Rounding does not cross a multiple of the spacing (upper bound). -/
theorem nearest_le_of_le (q a : ℚ) (k : Int) (ha : a = k * spacing q) (h : q ≤ a) :
    nearest q ≤ a := by
  have hs := spacing_pos q
  have h1 : q / spacing q ≤ (k : ℚ) := by
    rw [div_le_iff₀ hs, ← ha]; exact h
  have h2 := roundHalfEven_mono _ _ h1
  rw [roundHalfEven_intCast] at h2
  unfold nearest
  rw [ha]
  exact mul_le_mul_of_nonneg_right (by exact_mod_cast h2) hs.le

/-- Rounding does not cross a multiple of the spacing (lower bound). -/
theorem le_nearest_of_le (q a : ℚ) (k : Int) (ha : a = k * spacing q) (h : a ≤ q) :
    a ≤ nearest q := by
  have hs := spacing_pos q
  have h1 : (k : ℚ) ≤ q / spacing q := by
    rw [le_div_iff₀ hs, ← ha]; exact h
  have h2 := roundHalfEven_mono _ _ h1
  rw [roundHalfEven_intCast] at h2
  unfold nearest
  rw [ha]
  exact mul_le_mul_of_nonneg_right (by exact_mod_cast h2) hs.le

theorem pow2_intCast (n : Nat) : ∃ k : Int, pow2 (n : Int) = (k : ℚ) := by
  refine ⟨(2 ^ n : Nat), ?_⟩
  rw [pow2_natCast]
  push_cast
  rfl

/-- `2^a` is a multiple of `2^b` for `b ≤ a`. -/
theorem pow2_multiple (a b : Int) (h : b ≤ a) : ∃ k : Int, pow2 a = k * pow2 b := by
  obtain ⟨k, hk⟩ := pow2_intCast (a - b).toNat
  refine ⟨k, ?_⟩
  rw [← hk, Int.toNat_of_nonneg (by omega), ← pow2_add]
  congr 1
  ring

/-- The exponent used for a positive `q`: at least `-126`, with `q < 2^(e+1)`, and
`2^e ≤ q` unless `q` is below the normal range. -/
theorem exponent_spec (q : ℚ) (hq : 0 < q) :
    ∃ e : Int, spacing q = pow2 (e - 23) ∧ -126 ≤ e ∧ q < pow2 (e + 1) ∧
      (pow2 e ≤ q ∨ (e = -126 ∧ q < pow2 (-126))) := by
  obtain ⟨h1, h2⟩ := floorLog2_spec q hq
  refine ⟨max (floorLog2 q) (-126), ?_, le_max_right _ _, ?_, ?_⟩
  · unfold spacing
    rw [abs_of_pos hq]
  · exact lt_of_lt_of_le h2 (pow2_le_pow2 _ _ (by have := le_max_left (floorLog2 q) (-126); omega))
  · rcases le_or_lt (-126) (floorLog2 q) with h | h
    · left
      rw [max_eq_left h]
      exact h1
    · right
      refine ⟨max_eq_right h.le, ?_⟩
      exact lt_of_lt_of_le h2 (pow2_le_pow2 _ _ (by omega))

theorem nearest_nonneg (q : ℚ) (hq : 0 ≤ q) : 0 ≤ nearest q :=
  le_nearest_of_le q 0 0 (by simp) hq

/-- For positive `q` with exponent `e`, the rounded value lies in `[0, 2^(e+1)]`, and in
`[2^e, 2^(e+1)]` when `q` is in the normal range. -/
theorem nearest_bounds (q : ℚ) (e : Int) (hs : spacing q = pow2 (e - 23)) (h2 : q < pow2 (e + 1)) :
    nearest q ≤ pow2 (e + 1) ∧ (pow2 e ≤ q → pow2 e ≤ nearest q) := by
  constructor
  · obtain ⟨k, hk⟩ := pow2_multiple (e + 1) (e - 23) (by omega)
    exact nearest_le_of_le q _ k (by rw [hs]; exact hk) h2.le
  · intro h1
    obtain ⟨k, hk⟩ := pow2_multiple e (e - 23) (by omega)
    exact le_nearest_of_le q _ k (by rw [hs]; exact hk) h1

theorem nearest_mono_pos (q1 q2 : ℚ) (h1 : 0 < q1) (h : q1 ≤ q2) : nearest q1 ≤ nearest q2 := by
  have h2 : 0 < q2 := lt_of_lt_of_le h1 h
  obtain ⟨e1, hs1, he1, hu1, hl1⟩ := exponent_spec q1 h1
  obtain ⟨e2, hs2, he2, hu2, hl2⟩ := exponent_spec q2 h2
  have he : e1 ≤ e2 := by
    by_contra hcon
    push_neg at hcon
    rcases hl1 with hl1 | ⟨hl1, _⟩
    · have := pow2_le_pow2 (e2 + 1) e1 (by omega)
      linarith
    · omega
  rcases lt_or_eq_of_le he with hlt | heq
  · have hn : pow2 e2 ≤ q2 := by
      rcases hl2 with hl2 | ⟨hl2, _⟩
      · exact hl2
      · omega
    have b1 := (nearest_bounds q1 e1 hs1 hu1).1
    have b2 := (nearest_bounds q2 e2 hs2 hu2).2 hn
    have := pow2_le_pow2 (e1 + 1) e2 (by omega)
    linarith
  · have hss : spacing q1 = spacing q2 := by rw [hs1, hs2, heq]
    have hs := spacing_pos q2
    unfold nearest
    rw [hss]
    refine mul_le_mul_of_nonneg_right ?_ hs.le
    have : q1 / spacing q2 ≤ q2 / spacing q2 := div_le_div_of_nonneg_right h hs.le
    exact_mod_cast roundHalfEven_mono _ _ this

/-- Rounding is monotone. -/
theorem nearest_mono (q1 q2 : ℚ) (h : q1 ≤ q2) : nearest q1 ≤ nearest q2 := by
  rcases lt_trichotomy q1 0 with h1 | h1 | h1
  · rcases lt_or_le q2 0 with h2 | h2
    · have := nearest_mono_pos (-q2) (-q1) (by linarith) (by linarith)
      rw [nearest_neg, nearest_neg] at this
      linarith
    · have a := nearest_nonneg q2 h2
      have b := nearest_nonneg (-q1) (by linarith)
      rw [nearest_neg] at b
      linarith
  · rw [h1, nearest_zero]
    exact nearest_nonneg q2 (by linarith)
  · exact nearest_mono_pos q1 q2 h1 h


theorem nearest_eq_self_of_multiple (v : ℚ) (k : Int) (h : v = k * spacing v) :
    nearest v = v := by
  have hs := spacing_pos v
  unfold nearest
  have : v / spacing v = (k : ℚ) := by
    rw [div_eq_iff hs.ne']
    exact h
  rw [this, roundHalfEven_intCast]
  exact h.symm

theorem spacing_eq_of_bounds (v : ℚ) (e : Int) (he : -126 ≤ e) (h1 : pow2 e ≤ v)
    (h2 : v < pow2 (e + 1)) : spacing v = pow2 (e - 23) := by
  have hv : 0 < v := lt_of_lt_of_le (pow2_pos e) h1
  unfold spacing
  rw [abs_of_pos hv, floorLog2_unique v e h1 h2, max_eq_left he]

theorem spacing_eq_of_small (v : ℚ) (h0 : 0 < v) (h : v < pow2 (-126)) :
    spacing v = pow2 (-126 - 23) := by
  obtain ⟨h1, _⟩ := floorLog2_spec v h0
  have hlt : floorLog2 v < -126 := by
    by_contra hcon
    push_neg at hcon
    have := pow2_le_pow2 _ _ hcon
    linarith
  unfold spacing
  rw [abs_of_pos h0, max_eq_right hlt.le]

theorem nearest_idem_pos (q : ℚ) (hq : 0 < q) : nearest (nearest q) = nearest q := by
  obtain ⟨e, hs, he, hu, hl⟩ := exponent_spec q hq
  have hv0 := nearest_nonneg q hq.le
  obtain ⟨hb1, hb2⟩ := nearest_bounds q e hs hu
  rcases eq_or_lt_of_le hv0 with h0 | h0
  · rw [← h0, nearest_zero]
  · -- the rounded value is a multiple of the spacing of q
    have hm : nearest q = (roundHalfEven (q / spacing q) : ℚ) * spacing q := rfl
    rcases eq_or_lt_of_le hb1 with htop | htop
    · -- rounded up to the next power of two
      have hsp : spacing (nearest q) = pow2 (e + 1 - 23) :=
        spacing_eq_of_bounds _ (e + 1) (by omega) (by rw [htop])
          (by rw [htop]; exact pow2_lt_pow2 _ _ (by omega))
      obtain ⟨k, hk⟩ := pow2_multiple (e + 1) (e + 1 - 23) (by omega)
      exact nearest_eq_self_of_multiple _ k (by rw [hsp, ← hk, htop])
    · have hsp : spacing (nearest q) = spacing q := by
        rw [hs]
        rcases hl with hl | ⟨hl1, hl2⟩
        · exact spacing_eq_of_bounds _ e he (hb2 hl) htop
        · subst hl1
          -- below the normal range
          obtain ⟨k, hk⟩ := pow2_multiple (-126) (-126 - 23) (by omega)
          have hle : nearest q ≤ pow2 (-126) :=
            nearest_le_of_le q _ k (by rw [hs]; exact hk) hl2.le
          rcases eq_or_lt_of_le hle with heq | hlt
          · exact spacing_eq_of_bounds _ (-126) (le_refl _) (by rw [heq]) htop
          · exact spacing_eq_of_small _ h0 hlt
      exact nearest_eq_self_of_multiple _ _ (by rw [hsp]; exact hm)

/-- Rounding a rounded value changes nothing. -/
theorem nearest_idem (q : ℚ) : nearest (nearest q) = nearest q := by
  rcases lt_trichotomy q 0 with h | h | h
  · have := nearest_idem_pos (-q) (by linarith)
    rw [nearest_neg, nearest_neg] at this
    linarith
  · rw [h, nearest_zero, nearest_zero]
  · exact nearest_idem_pos q h

theorem ofRat_cases (q : ℚ) :
    (ofRat q = .finite (nearest q) ∧ |nearest q| < pow2 128) ∨
    (ofRat q = .posInf ∧ 0 < q ∧ pow2 128 ≤ nearest q) ∨
    (ofRat q = .negInf ∧ q < 0 ∧ nearest q ≤ -pow2 128) := by
  have hp := pow2_pos 128
  unfold ofRat
  split
  · rename_i h
    left
    rw [h, nearest_zero]
    simpa using hp
  · rename_i h
    split
    · rename_i hov
      split
      · rename_i hpos
        right; left
        refine ⟨rfl, hpos, ?_⟩
        rwa [abs_of_nonneg (nearest_nonneg q hpos.le)] at hov
      · rename_i hpos
        have hneg : q < 0 := lt_of_le_of_ne (not_lt.1 hpos) h
        right; right
        refine ⟨rfl, hneg, ?_⟩
        have h1 := nearest_nonneg (-q) (by linarith)
        rw [nearest_neg] at h1
        rw [abs_of_nonpos (by linarith)] at hov
        linarith
    · rename_i hov
      left
      exact ⟨rfl, not_le.1 hov⟩

/-- Rounding is monotone, infinities included. -/
theorem ofRat_mono (q1 q2 : ℚ) (h : q1 ≤ q2) : le (ofRat q1) (ofRat q2) = true := by
  have hm := nearest_mono q1 q2 h
  rcases ofRat_cases q1 with ⟨e1, b1⟩ | ⟨e1, p1, b1⟩ | ⟨e1, p1, b1⟩ <;>
  rcases ofRat_cases q2 with ⟨e2, b2⟩ | ⟨e2, p2, b2⟩ | ⟨e2, p2, b2⟩ <;>
  rw [e1, e2] <;> simp only [le, decide_eq_true_eq]
  · exact hm
  · rw [abs_lt] at b1; linarith
  · rw [abs_lt] at b2; linarith
  · linarith

/-- Rounding a binary32 value changes nothing. -/
theorem ofRat_idem (q v : ℚ) (h : ofRat q = .finite v) : ofRat v = .finite v := by
  rcases ofRat_cases q with ⟨e1, b1⟩ | ⟨e1, _, _⟩ | ⟨e1, _, _⟩
  · rw [e1] at h
    simp only [finite.injEq] at h
    subst h
    rcases ofRat_cases (nearest q) with ⟨e2, _⟩ | ⟨_, _, b2⟩ | ⟨_, _, b2⟩
    · rw [e2, nearest_idem]
    · rw [nearest_idem] at b2
      rw [abs_lt] at b1; linarith
    · rw [nearest_idem] at b2
      rw [abs_lt] at b1; linarith
  · rw [e1] at h; cases h
  · rw [e1] at h; cases h

theorem spacing_le_of_lt_two (q : ℚ) (h : |q| < 2) : spacing q ≤ 1 / 8388608 := by
  have h23 : pow2 (-23) = 1 / 8388608 := by decide!
  rw [← h23]
  unfold spacing
  apply pow2_le_pow2
  have : max (floorLog2 |q|) (-126) ≤ 0 := by
    apply max_le _ (by omega)
    rcases eq_or_lt_of_le (abs_nonneg q) with h0 | h0
    · rw [← h0]
      have : floorLog2 0 = -1 := by decide!
      omega
    · obtain ⟨h1, _⟩ := floorLog2_spec |q| h0
      by_contra hcon
      push_neg at hcon
      have := pow2_le_pow2 1 (floorLog2 |q|) (by omega)
      have h2 : pow2 1 = 2 := by decide!
      linarith
  omega

/-- A result of magnitude below 2 is finite and is rounded by at most `2^-24`. -/
theorem ofRat_near (q : ℚ) (h : |q| < 2) :
    ∃ v, ofRat q = .finite v ∧ |v - q| ≤ 1 / 16777216 := by
  have hs := spacing_le_of_lt_two q h
  have he := nearest_sub_le q
  have hnear : |nearest q - q| ≤ 1 / 16777216 := by linarith
  have h128 : (4 : ℚ) ≤ pow2 128 := by decide!
  have hb : |nearest q| < pow2 128 := by
    have : |nearest q| ≤ |nearest q - q| + |q| := by
      have := abs_add (nearest q - q) q
      simpa using this
    linarith
  rcases ofRat_cases q with ⟨e1, _⟩ | ⟨_, _, b1⟩ | ⟨_, _, b1⟩
  · exact ⟨nearest q, e1, hnear⟩
  · rw [abs_lt] at hb; linarith
  · rw [abs_lt] at hb; linarith

/-- A result in `[0, 1]` is rounded to a number in `[0, 1]`, by at most `2^-24`. -/
theorem ofRat_unit (q : ℚ) (h0 : 0 ≤ q) (h1 : q ≤ 1) :
    ∃ v, ofRat q = .finite v ∧ 0 ≤ v ∧ v ≤ 1 ∧ |v - q| ≤ 1 / 16777216 := by
  obtain ⟨v, hv, he⟩ := ofRat_near q (by rw [abs_lt]; constructor <;> linarith)
  refine ⟨v, hv, ?_, ?_, he⟩
  · have := ofRat_mono 0 q h0
    rw [hv] at this
    have e0 : ofRat 0 = .finite 0 := by decide!
    rw [e0] at this
    simpa [le] using this
  · have := ofRat_mono q 1 h1
    rw [hv] at this
    have e1 : ofRat 1 = .finite 1 := by decide!
    rw [e1] at this
    simpa [le] using this

end F32

theorem truncToInt_intCast (n : Int) : truncToInt (n : ℚ) = n := by
  unfold truncToInt
  split
  · exact Int.floor_intCast n
  · exact Int.ceil_intCast n

namespace F32

theorem le_eq_false_iff_gt (a b : F32) (ha : a ≠ .nan) (hb : b ≠ .nan) :
    le a b = false ↔ gt a b = true := by
  cases a <;> cases b <;> simp_all [le, gt, lt]

theorem toInt_intCast (k : Int) (h1 : -2147483648 ≤ k) (h2 : k ≤ 2147483647) :
    (F32.finite (k : ℚ)).toInt = some k := by
  simp only [toInt, truncToInt_intCast]
  rw [if_pos ⟨h1, h2⟩]

theorem sub_finite (a b : ℚ) : sub (.finite a) (.finite b) = ofRat (a - b) := by
  simp only [sub, neg, add, sub_eq_add_neg]


/-- A `float` product that is finite is a binary32 number. -/
theorem mul_isFloat (x y : F32) (n : ℚ) (h : mul x y = .finite n) :
    ofRat n = .finite n := by
  cases x <;> cases y <;> simp only [mul] at h <;>
    first
    | exact ofRat_idem _ _ h
    | (split_ifs at h)
    | cases h

/-- No binary32 number lies in `[2^31 - 1, 2^31)`: a `float` whose floor is an `int` has
a floor of at most `2^31 - 128`, so adding 1 to the floor does not overflow. -/
theorem floor_succ_le (n : ℚ) (h : ofRat n = .finite n) (hn : ⌊n⌋ ≤ 2147483647) :
    ⌊n⌋ + 1 ≤ 2147483647 := by
  by_contra hcon
  have hfl : ⌊n⌋ = 2147483647 := by omega
  have h1 : (2147483647 : ℚ) ≤ n := by
    have := Int.floor_le n
    rw [hfl] at this
    exact_mod_cast this
  have h2 : n < 2147483648 := by
    have := Int.lt_floor_add_one n
    rw [hfl] at this
    push_cast at this
    linarith
  have p30 : pow2 30 = 1073741824 := by decide!
  have p31 : pow2 (30 + 1) = 2147483648 := by decide!
  have p7 : pow2 (30 - 23) = 128 := by decide!
  have hsp : spacing n = 128 := by
    rw [spacing_eq_of_bounds n 30 (by omega) (by rw [p30]; linarith) (by rw [p31]; exact h2), p7]
  have hnear : nearest n = n := by
    rcases ofRat_cases n with ⟨e, _⟩ | ⟨e, _, _⟩ | ⟨e, _, _⟩
    · rw [e] at h
      simpa using h
    · rw [e] at h; cases h
    · rw [e] at h; cases h
  unfold nearest at hnear
  rw [hsp] at hnear
  generalize roundHalfEven (n / 128) = k at hnear
  rw [← hnear] at h1 h2
  have h3 : (2147483647 : Int) ≤ k * 128 := by exact_mod_cast h1
  have h4 : k * 128 < (2147483648 : Int) := by exact_mod_cast h2
  omega

end F32

namespace Machine

/-! ## Machine arithmetic: the cell of a trilinear access -/

/-- With the rounded products `position * voxel_size_inv` finite and their floors (and the
floors plus one) in `int` range, the first `TrilinearAccess` returns its eight entries:
the corner is the floor, the fractional part is the rounded difference. -/
theorem SparseTSDF.TrilinearAccess_in_range (self : SparseTSDF) (position : Vec3)
    (nx ny nz : ℚ)
    (hx : F32.mul position.x self.voxel_size_inv = .finite nx)
    (hy : F32.mul position.y self.voxel_size_inv = .finite ny)
    (hz : F32.mul position.z self.voxel_size_inv = .finite nz)
    (rx : -2147483648 ≤ ⌊nx⌋ ∧ ⌊nx⌋ + 1 ≤ 2147483647)
    (ry : -2147483648 ≤ ⌊ny⌋ ∧ ⌊ny⌋ + 1 ≤ 2147483647)
    (rz : -2147483648 ≤ ⌊nz⌋ ∧ ⌊nz⌋ + 1 ≤ 2147483647) :
    self.TrilinearAccess position = .ok
      [(⟨⌊nx⌋, ⌊ny⌋, ⌊nz⌋⟩,
          F32.mul (F32.mul (axisWeight false (F32.ofRat (nx - ⌊nx⌋)))
            (axisWeight false (F32.ofRat (ny - ⌊ny⌋)))) (axisWeight false (F32.ofRat (nz - ⌊nz⌋)))),
       (⟨⌊nx⌋, ⌊ny⌋, ⌊nz⌋ + 1⟩,
          F32.mul (F32.mul (axisWeight false (F32.ofRat (nx - ⌊nx⌋)))
            (axisWeight false (F32.ofRat (ny - ⌊ny⌋)))) (axisWeight true (F32.ofRat (nz - ⌊nz⌋)))),
       (⟨⌊nx⌋, ⌊ny⌋ + 1, ⌊nz⌋⟩,
          F32.mul (F32.mul (axisWeight false (F32.ofRat (nx - ⌊nx⌋)))
            (axisWeight true (F32.ofRat (ny - ⌊ny⌋)))) (axisWeight false (F32.ofRat (nz - ⌊nz⌋)))),
       (⟨⌊nx⌋, ⌊ny⌋ + 1, ⌊nz⌋ + 1⟩,
          F32.mul (F32.mul (axisWeight false (F32.ofRat (nx - ⌊nx⌋)))
            (axisWeight true (F32.ofRat (ny - ⌊ny⌋)))) (axisWeight true (F32.ofRat (nz - ⌊nz⌋)))),
       (⟨⌊nx⌋ + 1, ⌊ny⌋, ⌊nz⌋⟩,
          F32.mul (F32.mul (axisWeight true (F32.ofRat (nx - ⌊nx⌋)))
            (axisWeight false (F32.ofRat (ny - ⌊ny⌋)))) (axisWeight false (F32.ofRat (nz - ⌊nz⌋)))),
       (⟨⌊nx⌋ + 1, ⌊ny⌋, ⌊nz⌋ + 1⟩,
          F32.mul (F32.mul (axisWeight true (F32.ofRat (nx - ⌊nx⌋)))
            (axisWeight false (F32.ofRat (ny - ⌊ny⌋)))) (axisWeight true (F32.ofRat (nz - ⌊nz⌋)))),
       (⟨⌊nx⌋ + 1, ⌊ny⌋ + 1, ⌊nz⌋⟩,
          F32.mul (F32.mul (axisWeight true (F32.ofRat (nx - ⌊nx⌋)))
            (axisWeight true (F32.ofRat (ny - ⌊ny⌋)))) (axisWeight false (F32.ofRat (nz - ⌊nz⌋)))),
       (⟨⌊nx⌋ + 1, ⌊ny⌋ + 1, ⌊nz⌋ + 1⟩,
          F32.mul (F32.mul (axisWeight true (F32.ofRat (nx - ⌊nx⌋)))
            (axisWeight true (F32.ofRat (ny - ⌊ny⌋)))) (axisWeight true (F32.ofRat (nz - ⌊nz⌋))))] := by
  have cx := F32.toInt_intCast ⌊nx⌋ rx.1 (by omega)
  have cy := F32.toInt_intCast ⌊ny⌋ ry.1 (by omega)
  have cz := F32.toInt_intCast ⌊nz⌋ rz.1 (by omega)
  have ix : isInt32 (⌊nx⌋ + 1) = true := by
    simp only [isInt32, Bool.and_eq_true, decide_eq_true_eq]; omega
  have iy : isInt32 (⌊ny⌋ + 1) = true := by
    simp only [isInt32, Bool.and_eq_true, decide_eq_true_eq]; omega
  have iz : isInt32 (⌊nz⌋ + 1) = true := by
    simp only [isInt32, Bool.and_eq_true, decide_eq_true_eq]; omega
  simp only [SparseTSDF.TrilinearAccess, Vec3.scale, Vec3.floor, Vec3.castInt, Vec3.sub,
    hx, hy, hz, cx, cy, cz, ix, iy, iz, Bool.and_self, if_true, IVec3.add, add_zero,
    axisWeight, F32.floor, F32.sub_finite, Bool.false_eq_true, if_false]


/-- C21 (amended): for a position whose cell has `int` indices (the rounded products
`position * voxel_size_inv` are finite numbers `n` with `floor(n)` in the range of
`int`), `TrilinearAccess(position)` returns the 8 voxels of the cell of the position: with `corner = floor(position * voxel_size_inv)` and
`frac = position * voxel_size_inv - corner` in `float` arithmetic, entry
`4 * bx + 2 * by + bz` (bits `bx`, `by`, `bz`) has the index `corner + (bx, by, bz)` and
the weight that is the `float` product, over the three axes from x to z, of `frac` when
the bit is 1 and `1.0f - frac` when it is 0; there are exactly 8 entries and their
indices are pairwise distinct. -/
theorem SparseTSDF.TrilinearAccess_enclosing_cell (self : SparseTSDF) (position : Vec3)
    (nx ny nz : ℚ)
    (hx : F32.mul position.x self.voxel_size_inv = .finite nx)
    (hy : F32.mul position.y self.voxel_size_inv = .finite ny)
    (hz : F32.mul position.z self.voxel_size_inv = .finite nz)
    (rx : -2147483648 ≤ ⌊nx⌋ ∧ ⌊nx⌋ ≤ 2147483647)
    (ry : -2147483648 ≤ ⌊ny⌋ ∧ ⌊ny⌋ ≤ 2147483647)
    (rz : -2147483648 ≤ ⌊nz⌋ ∧ ⌊nz⌋ ≤ 2147483647) :
    ∃ r, self.TrilinearAccess position = .ok r ∧ r.length = 8 ∧
      (∀ bx by_ bz : Bool,
        r[4 * bx.toNat + 2 * by_.toNat + bz.toNat]? =
          some (⟨⌊nx⌋ + bx.toNat, ⌊ny⌋ + by_.toNat, ⌊nz⌋ + bz.toNat⟩,
            F32.mul
              (F32.mul (axisWeight bx (F32.sub (.finite nx) (F32.finite nx).floor))
                (axisWeight by_ (F32.sub (.finite ny) (F32.finite ny).floor)))
              (axisWeight bz (F32.sub (.finite nz) (F32.finite nz).floor)))) ∧
      (r.map (fun iw => iw.1)).Nodup := by
  refine ⟨_, SparseTSDF.TrilinearAccess_in_range self position nx ny nz hx hy hz
    ⟨rx.1, F32.floor_succ_le nx (F32.mul_isFloat _ _ _ hx) rx.2⟩
    ⟨ry.1, F32.floor_succ_le ny (F32.mul_isFloat _ _ _ hy) ry.2⟩
    ⟨rz.1, F32.floor_succ_le nz (F32.mul_isFloat _ _ _ hz) rz.2⟩,
    rfl, ?_, ?_⟩
  · intro bx by_ bz
    simp only [F32.floor, F32.sub_finite]
    cases bx <;> cases by_ <;> cases bz <;> simp
  · simp

theorem SparseTSDF.TrilinearAccess_enclosing_cell_witness :
    (F32.finite (5368709 / 536870912)).isFloat = true ∧
    F32.mul (.finite (5368709 / 536870912)) fineTSDF.voxel_size_inv = .finite 1 ∧
    F32.mul (.finite 0) fineTSDF.voxel_size_inv = .finite 0 ∧
    (-2147483648 ≤ ⌊(1 : ℚ)⌋ ∧ ⌊(1 : ℚ)⌋ ≤ 2147483647) ∧
    (-2147483648 ≤ ⌊(0 : ℚ)⌋ ∧ ⌊(0 : ℚ)⌋ ≤ 2147483647) ∧
    ∃ r, fineTSDF.TrilinearAccess ⟨.finite (5368709 / 536870912), .finite 0, .finite 0⟩ =
        .ok r ∧ r.length = 8 ∧
      (∀ bx by_ bz : Bool,
        r[4 * bx.toNat + 2 * by_.toNat + bz.toNat]? =
          some (⟨⌊(1 : ℚ)⌋ + bx.toNat, ⌊(0 : ℚ)⌋ + by_.toNat, ⌊(0 : ℚ)⌋ + bz.toNat⟩,
            F32.mul
              (F32.mul (axisWeight bx (F32.sub (.finite 1) (F32.finite 1).floor))
                (axisWeight by_ (F32.sub (.finite 0) (F32.finite 0).floor)))
              (axisWeight bz (F32.sub (.finite 0) (F32.finite 0).floor)))) ∧
      (r.map (fun iw => iw.1)).Nodup :=
  ⟨by decide!, by decide!, by decide!, by decide!, by decide!,
    SparseTSDF.TrilinearAccess_enclosing_cell fineTSDF
      ⟨.finite (5368709 / 536870912), .finite 0, .finite 0⟩ 1 0 0
      (by decide!) (by decide!) (by decide!) (by decide!) (by decide!) (by decide!)⟩

/-- C21 (as stated) fails: for the position `(3e9, 0, 0)` on a grid with voxels of size 1
the floor of `position * voxel_size_inv` is `3000000000`, which is not an `int`; the
conversion `ipos.cast<int>()` is undefined and the call yields no cell (on x86 the
conversion gives `INT_MIN`, which is not the floor either). -/
theorem SparseTSDF.TrilinearAccess_cast_undefined :
    (F32.finite 3000000000).isFloat = true ∧
    F32.mul (.finite 3000000000) emptyTSDF.voxel_size_inv = .finite 3000000000 ∧
    (F32.finite 3000000000).floor = .finite 3000000000 ∧
    (F32.finite 3000000000).toInt = none ∧
    emptyTSDF.TrilinearAccess ⟨.finite 3000000000, .finite 0, .finite 0⟩ =
      .fault .castOutOfRange := by
  decide!

theorem SparseTSDF.accumulate_accepts (self : SparseTSDF) (min_weight : F32)
    (l : List (IVec3 × F32)) (result : TSDFVoxel) (w_sum : F32)
    (h : ∀ iw ∈ l, F32.le (self.GetVoxel iw.1).weight min_weight = false) :
    self.accumulate min_weight l result w_sum =
      (true,
        { distance := l.foldl
            (fun acc iw => F32.add acc (F32.mul (self.GetVoxel iw.1).distance iw.2))
            result.distance,
          weight := l.foldl
            (fun acc iw => F32.add acc (F32.mul (self.GetVoxel iw.1).weight iw.2))
            result.weight },
        l.foldl (fun acc iw => F32.add acc iw.2) w_sum) := by
  induction l generalizing result w_sum with
  | nil => simp [SparseTSDF.accumulate]
  | cons iw rest ih =>
    have h1 := h iw (List.mem_cons_self _ _)
    simp only [SparseTSDF.accumulate, h1, Bool.false_eq_true, if_false]
    rw [ih _ _ (fun x hx => h x (List.mem_cons_of_mem _ hx))]
    simp only [List.foldl_cons]

theorem SparseTSDF.accumulate_rejects (self : SparseTSDF) (min_weight : F32)
    (l : List (IVec3 × F32)) (result : TSDFVoxel) (w_sum : F32)
    (h : ∃ iw ∈ l, F32.le (self.GetVoxel iw.1).weight min_weight = true) :
    (self.accumulate min_weight l result w_sum).1 = false := by
  induction l generalizing result w_sum with
  | nil =>
    obtain ⟨iw, hiw, _⟩ := h
    exact absurd hiw (List.not_mem_nil _)
  | cons iw rest ih =>
    simp only [SparseTSDF.accumulate]
    split
    · rfl
    · rename_i hiw
      apply ih
      obtain ⟨x, hx, hxw⟩ := h
      rcases List.mem_cons.1 hx with rfl | hx
      · exact absurd hxw hiw
      · exact ⟨x, hx, hxw⟩

end Machine

namespace F32

theorem mul_finite (a b : ℚ) : mul (.finite a) (.finite b) = ofRat (a * b) := rfl

theorem add_finite (a b : ℚ) : add (.finite a) (.finite b) = ofRat (a + b) := rfl

/-- The rounded `1.0f - a` for `a` in `[0, 1]`. -/
theorem one_sub_unit (a : ℚ) (ha : 0 ≤ a ∧ a ≤ 1) :
    ∃ v, sub (.finite 1) (.finite a) = .finite v ∧ (0 ≤ v ∧ v ≤ 1) ∧
      |v - (1 - a)| ≤ 1 / 16777216 := by
  rw [sub_finite]
  obtain ⟨v, hv, h0, h1, he⟩ := ofRat_unit (1 - a) (by linarith) (by linarith)
  exact ⟨v, hv, ⟨h0, h1⟩, he⟩

/-- The rounded product of three numbers of `[0, 1]`, two roundings. -/
theorem mul3_unit (a b c : ℚ) (ha : 0 ≤ a ∧ a ≤ 1) (hb : 0 ≤ b ∧ b ≤ 1)
    (hc : 0 ≤ c ∧ c ≤ 1) :
    ∃ w, mul (mul (.finite a) (.finite b)) (.finite c) = .finite w ∧ (0 ≤ w ∧ w ≤ 1) ∧
      |w - a * b * c| ≤ 2 / 16777216 := by
  have hab0 : 0 ≤ a * b := mul_nonneg ha.1 hb.1
  have hab1 : a * b ≤ 1 := by
    have := mul_le_mul ha.2 hb.2 hb.1 (by norm_num : (0 : ℚ) ≤ 1)
    linarith
  obtain ⟨p, hp, hp0, hp1, hpe⟩ := ofRat_unit (a * b) hab0 hab1
  have hpc0 : 0 ≤ p * c := mul_nonneg hp0 hc.1
  have hpc1 : p * c ≤ 1 := by
    have := mul_le_mul hp1 hc.2 hc.1 (by norm_num : (0 : ℚ) ≤ 1)
    linarith
  obtain ⟨w, hw, hw0, hw1, hwe⟩ := ofRat_unit (p * c) hpc0 hpc1
  refine ⟨w, by rw [mul_finite, hp, mul_finite, hw], ⟨hw0, hw1⟩, ?_⟩
  have h1 : |(p - a * b) * c| ≤ 1 / 16777216 := by
    rw [abs_mul, abs_of_nonneg hc.1]
    calc |p - a * b| * c ≤ 1 / 16777216 * 1 :=
          mul_le_mul hpe hc.2 hc.1 (by norm_num)
      _ = 1 / 16777216 := by ring
  have e : w - a * b * c = (w - p * c) + (p - a * b) * c := by ring
  rw [e]
  calc |(w - p * c) + (p - a * b) * c| ≤ |w - p * c| + |(p - a * b) * c| := abs_add _ _
    _ ≤ 2 / 16777216 := by linarith

/-- A sum of non-negative numbers accumulated from the left in `float` arithmetic stays
within one rounding error per addition of the exact sum, as long as it stays below 2. -/
theorem foldl_add_near (ws : List ℚ) (s0 S0 : ℚ) (k : Nat)
    (h0 : |s0 - S0| ≤ k * (1 / 16777216)) (hS0 : 0 ≤ S0) (hw : ∀ w ∈ ws, 0 ≤ w)
    (hb : S0 + ws.sum + ((k : ℚ) + ws.length) * (1 / 16777216) < 2) :
    ∃ s, (ws.map F32.finite).foldl add (.finite s0) = .finite s ∧
      |s - (S0 + ws.sum)| ≤ ((k : ℚ) + ws.length) * (1 / 16777216) := by
  induction ws generalizing s0 S0 k with
  | nil =>
    refine ⟨s0, rfl, ?_⟩
    simpa using h0
  | cons w rest ih =>
    have hw0 : 0 ≤ w := hw w (List.mem_cons_self _ _)
    have hrest : ∀ x ∈ rest, 0 ≤ x := fun x hx => hw x (List.mem_cons_of_mem _ hx)
    have hrs : 0 ≤ rest.sum := List.sum_nonneg hrest
    have hk : (0 : ℚ) ≤ (k : ℚ) := Nat.cast_nonneg k
    have hl : (0 : ℚ) ≤ (rest.length : ℚ) := Nat.cast_nonneg _
    simp only [List.sum_cons, List.length_cons, Nat.cast_add, Nat.cast_one] at hb ⊢
    rw [abs_le] at h0
    have hlt : |s0 + w| < 2 := by
      rw [abs_lt]
      constructor <;> nlinarith
    obtain ⟨s1, hs1, he⟩ := ofRat_near (s0 + w) hlt
    rw [abs_le] at he
    obtain ⟨s, hs, hse⟩ := ih s1 (S0 + w) (k + 1)
      (by rw [abs_le]; push_cast; constructor <;> linarith) (by linarith) hrest
      (by push_cast; linarith)
    refine ⟨s, ?_, ?_⟩
    · simp only [List.map_cons, List.foldl_cons, add_finite, hs1]
      exact hs
    · push_cast at hse
      rw [abs_le] at hse ⊢
      constructor <;> linarith

theorem prod3_near_one (x y z : ℚ) (hx : |x - 1| ≤ 1 / 16777216) (hy : |y - 1| ≤ 1 / 16777216)
    (hz : |z - 1| ≤ 1 / 16777216) : |x * y * z - 1| ≤ 4 / 16777216 := by
  rw [abs_le] at hx hy hz ⊢
  have hx0 : 0 ≤ x := by linarith
  have hy0 : 0 ≤ y := by linarith
  have hz0 : 0 ≤ z := by linarith
  have u1 : x * y ≤ (1 + 1 / 16777216) * (1 + 1 / 16777216) :=
    mul_le_mul (by linarith) (by linarith) hy0 (by norm_num)
  have u2 : x * y * z ≤ (1 + 1 / 16777216) * (1 + 1 / 16777216) * (1 + 1 / 16777216) :=
    mul_le_mul u1 (by linarith) hz0 (by norm_num)
  have l1 : (1 - 1 / 16777216) * (1 - 1 / 16777216) ≤ x * y :=
    mul_le_mul (by linarith) (by linarith) (by norm_num) hx0
  have l2 : (1 - 1 / 16777216) * (1 - 1 / 16777216) * (1 - 1 / 16777216) ≤ x * y * z :=
    mul_le_mul l1 (by linarith) (by norm_num) (mul_nonneg hx0 hy0)
  constructor
  · have : (1 : ℚ) - 4 / 16777216 ≤
        (1 - 1 / 16777216) * (1 - 1 / 16777216) * (1 - 1 / 16777216) := by norm_num
    linarith
  · have : (1 + 1 / 16777216) * (1 + 1 / 16777216) * (1 + 1 / 16777216) ≤
        (1 : ℚ) + 4 / 16777216 := by norm_num
    linarith

end F32

namespace Machine

/-- The `float` sum of the eight trilinear weights built from fractional parts in `[0, 1]`
is within `28 * 2^-24` of 1, so `SAIGA_ASSERT(std::abs(w_sum - 1) < 0.0001)` holds. -/
theorem weights_sum_assert (i0 i1 i2 i3 i4 i5 i6 i7 : IVec3) (a b c : ℚ)
    (ha : 0 ≤ a ∧ a ≤ 1) (hb : 0 ≤ b ∧ b ≤ 1) (hc : 0 ≤ c ∧ c ≤ 1) :
    F32.lt (F32.sub
      (List.foldl (fun acc (iw : IVec3 × F32) => F32.add acc iw.2) (.finite 0)
        [(i0, F32.mul (F32.mul (axisWeight false (.finite a)) (axisWeight false (.finite b)))
            (axisWeight false (.finite c))),
         (i1, F32.mul (F32.mul (axisWeight false (.finite a)) (axisWeight false (.finite b)))
            (axisWeight true (.finite c))),
         (i2, F32.mul (F32.mul (axisWeight false (.finite a)) (axisWeight true (.finite b)))
            (axisWeight false (.finite c))),
         (i3, F32.mul (F32.mul (axisWeight false (.finite a)) (axisWeight true (.finite b)))
            (axisWeight true (.finite c))),
         (i4, F32.mul (F32.mul (axisWeight true (.finite a)) (axisWeight false (.finite b)))
            (axisWeight false (.finite c))),
         (i5, F32.mul (F32.mul (axisWeight true (.finite a)) (axisWeight false (.finite b)))
            (axisWeight true (.finite c))),
         (i6, F32.mul (F32.mul (axisWeight true (.finite a)) (axisWeight true (.finite b)))
            (axisWeight false (.finite c))),
         (i7, F32.mul (F32.mul (axisWeight true (.finite a)) (axisWeight true (.finite b)))
            (axisWeight true (.finite c)))])
      (.finite 1)).abs (.finite double_0_0001) = true := by
  obtain ⟨a', hsa, ha', hea⟩ := F32.one_sub_unit a ha
  obtain ⟨b', hsb, hb', heb⟩ := F32.one_sub_unit b hb
  obtain ⟨c', hsc, hc', hec⟩ := F32.one_sub_unit c hc
  obtain ⟨w0, hw0, r0, e0⟩ := F32.mul3_unit a' b' c' ha' hb' hc'
  obtain ⟨w1, hw1, r1, e1⟩ := F32.mul3_unit a' b' c ha' hb' hc
  obtain ⟨w2, hw2, r2, e2⟩ := F32.mul3_unit a' b c' ha' hb hc'
  obtain ⟨w3, hw3, r3, e3⟩ := F32.mul3_unit a' b c ha' hb hc
  obtain ⟨w4, hw4, r4, e4⟩ := F32.mul3_unit a b' c' ha hb' hc'
  obtain ⟨w5, hw5, r5, e5⟩ := F32.mul3_unit a b' c ha hb' hc
  obtain ⟨w6, hw6, r6, e6⟩ := F32.mul3_unit a b c' ha hb hc'
  obtain ⟨w7, hw7, r7, e7⟩ := F32.mul3_unit a b c ha hb hc
  simp only [axisWeight, Bool.false_eq_true, if_false, if_true, hsa, hsb, hsc,
    hw0, hw1, hw2, hw3, hw4, hw5, hw6, hw7, List.foldl_cons, List.foldl_nil]
  -- the exact products add up to a product of three numbers near one
  have hprod := F32.prod3_near_one (a' + a) (b' + b) (c' + c)
    (by rw [show a' + a - 1 = a' - (1 - a) by ring]; exact hea)
    (by rw [show b' + b - 1 = b' - (1 - b) by ring]; exact heb)
    (by rw [show c' + c - 1 = c' - (1 - c) by ring]; exact hec)
  have hexp : (a' + a) * (b' + b) * (c' + c) =
      a' * b' * c' + a' * b' * c + a' * b * c' + a' * b * c +
        a * b' * c' + a * b' * c + a * b * c' + a * b * c := by ring
  rw [abs_le] at e0 e1 e2 e3 e4 e5 e6 e7 hprod
  have hsum : |[w0, w1, w2, w3, w4, w5, w6, w7].sum - 1| ≤ 20 / 16777216 := by
    simp only [List.sum_cons, List.sum_nil, add_zero]
    rw [abs_le]
    constructor <;> linarith
  rw [abs_le] at hsum
  obtain ⟨s, hs, hse⟩ := F32.foldl_add_near [w0, w1, w2, w3, w4, w5, w6, w7] 0 0 0
    (by simp) (le_refl 0)
    (by
      intro w hw
      simp only [List.mem_cons, List.mem_singleton, List.not_mem_nil, or_false] at hw
      rcases hw with h | h | h | h | h | h | h | h <;> rw [h] <;>
        first | exact r0.1 | exact r1.1 | exact r2.1 | exact r3.1 | exact r4.1 | exact r5.1
              | exact r6.1 | exact r7.1)
    (by
      simp only [List.length_cons, List.length_nil]
      norm_num
      linarith)
  simp only [List.map_cons, List.map_nil, List.foldl_cons, List.foldl_nil] at hs
  rw [hs, F32.sub_finite]
  simp only [List.length_cons, List.length_nil] at hse
  norm_num at hse
  rw [abs_le] at hse
  have hs1 : |s - 1| < 2 := by
    rw [abs_lt]
    constructor <;> linarith
  obtain ⟨d, hd, hde⟩ := F32.ofRat_near (s - 1) hs1
  rw [hd]
  simp only [F32.abs, F32.lt, decide_eq_true_eq, double_0_0001]
  rw [abs_le] at hde
  rw [abs_lt]
  constructor <;> linarith


theorem frac_unit (n : ℚ) :
    ∃ a, F32.ofRat (n - ⌊n⌋) = .finite a ∧ 0 ≤ a ∧ a ≤ 1 := by
  have h1 := Int.floor_le n
  have h2 := Int.lt_floor_add_one n
  obtain ⟨a, ha, h0, h1, _⟩ := F32.ofRat_unit (n - ⌊n⌋) (by linarith) (by linarith)
  exact ⟨a, ha, h0, h1⟩

/-- What the second `TrilinearAccess` returns for a position whose cell has `int`
indices: never a fault; `true` with the two accumulated sums when no corner voxel has
`v.weight <= min_weight`, `false` otherwise. -/
theorem SparseTSDF.TrilinearAccessVoxel_in_range (self : SparseTSDF) (position : Vec3)
    (min_weight : F32) (nx ny nz : ℚ)
    (hx : F32.mul position.x self.voxel_size_inv = .finite nx)
    (hy : F32.mul position.y self.voxel_size_inv = .finite ny)
    (hz : F32.mul position.z self.voxel_size_inv = .finite nz)
    (rx : -2147483648 ≤ ⌊nx⌋ ∧ ⌊nx⌋ ≤ 2147483647)
    (ry : -2147483648 ≤ ⌊ny⌋ ∧ ⌊ny⌋ ≤ 2147483647)
    (rz : -2147483648 ≤ ⌊nz⌋ ∧ ⌊nz⌋ ≤ 2147483647) :
    ∃ iws, self.TrilinearAccess position = .ok iws ∧
      (((∀ iw ∈ iws, F32.le (self.GetVoxel iw.1).weight min_weight = false) ∧
        self.TrilinearAccessVoxel position min_weight =
          .ok (true,
            { distance := iws.foldl
                (fun acc iw => F32.add acc (F32.mul (self.GetVoxel iw.1).distance iw.2))
                (.finite 0),
              weight := iws.foldl
                (fun acc iw => F32.add acc (F32.mul (self.GetVoxel iw.1).weight iw.2))
                (.finite 0) })) ∨
      ((∃ iw ∈ iws, F32.le (self.GetVoxel iw.1).weight min_weight = true) ∧
        ∃ result, self.TrilinearAccessVoxel position min_weight = .ok (false, result))) := by
  have hacc := SparseTSDF.TrilinearAccess_in_range self position nx ny nz hx hy hz
    ⟨rx.1, F32.floor_succ_le nx (F32.mul_isFloat _ _ _ hx) rx.2⟩
    ⟨ry.1, F32.floor_succ_le ny (F32.mul_isFloat _ _ _ hy) ry.2⟩
    ⟨rz.1, F32.floor_succ_le nz (F32.mul_isFloat _ _ _ hz) rz.2⟩
  obtain ⟨a, hfa, ha0, ha1⟩ := frac_unit nx
  obtain ⟨b, hfb, hb0, hb1⟩ := frac_unit ny
  obtain ⟨c, hfc, hc0, hc1⟩ := frac_unit nz
  rw [hfa, hfb, hfc] at hacc
  refine ⟨_, hacc, ?_⟩
  generalize hl : ([(⟨⌊nx⌋, ⌊ny⌋, ⌊nz⌋⟩,
          F32.mul (F32.mul (axisWeight false (.finite a)) (axisWeight false (.finite b)))
            (axisWeight false (.finite c))),
       (⟨⌊nx⌋, ⌊ny⌋, ⌊nz⌋ + 1⟩,
          F32.mul (F32.mul (axisWeight false (.finite a)) (axisWeight false (.finite b)))
            (axisWeight true (.finite c))),
       (⟨⌊nx⌋, ⌊ny⌋ + 1, ⌊nz⌋⟩,
          F32.mul (F32.mul (axisWeight false (.finite a)) (axisWeight true (.finite b)))
            (axisWeight false (.finite c))),
       (⟨⌊nx⌋, ⌊ny⌋ + 1, ⌊nz⌋ + 1⟩,
          F32.mul (F32.mul (axisWeight false (.finite a)) (axisWeight true (.finite b)))
            (axisWeight true (.finite c))),
       (⟨⌊nx⌋ + 1, ⌊ny⌋, ⌊nz⌋⟩,
          F32.mul (F32.mul (axisWeight true (.finite a)) (axisWeight false (.finite b)))
            (axisWeight false (.finite c))),
       (⟨⌊nx⌋ + 1, ⌊ny⌋, ⌊nz⌋ + 1⟩,
          F32.mul (F32.mul (axisWeight true (.finite a)) (axisWeight false (.finite b)))
            (axisWeight true (.finite c))),
       (⟨⌊nx⌋ + 1, ⌊ny⌋ + 1, ⌊nz⌋⟩,
          F32.mul (F32.mul (axisWeight true (.finite a)) (axisWeight true (.finite b)))
            (axisWeight false (.finite c))),
       (⟨⌊nx⌋ + 1, ⌊ny⌋ + 1, ⌊nz⌋ + 1⟩,
          F32.mul (F32.mul (axisWeight true (.finite a)) (axisWeight true (.finite b)))
            (axisWeight true (.finite c)))] : List (IVec3 × F32)) = iws at hacc
  have hassert : F32.lt (F32.sub
      (iws.foldl (fun acc (iw : IVec3 × F32) => F32.add acc iw.2) (.finite 0))
      (.finite 1)).abs (.finite double_0_0001) = true := by
    rw [← hl]
    exact weights_sum_assert _ _ _ _ _ _ _ _ a b c ⟨ha0, ha1⟩ ⟨hb0, hb1⟩ ⟨hc0, hc1⟩
  by_cases h : ∀ iw ∈ iws, F32.le (self.GetVoxel iw.1).weight min_weight = false
  · left
    refine ⟨h, ?_⟩
    unfold SparseTSDF.TrilinearAccessVoxel
    simp only [hacc, SparseTSDF.accumulate_accepts self min_weight _ _ _ h, hassert, if_true]
  · right
    push_neg at h
    have h2 : ∃ iw ∈ iws, F32.le (self.GetVoxel iw.1).weight min_weight = true := by
      obtain ⟨iw, hiw, hne⟩ := h
      exact ⟨iw, hiw, by simpa using hne⟩
    refine ⟨h2, ?_⟩
    have hf := SparseTSDF.accumulate_rejects self min_weight iws
      { distance := .finite 0, weight := .finite 0 } (.finite 0) h2
    cases hres : self.accumulate min_weight iws
      { distance := .finite 0, weight := .finite 0 } (.finite 0) with
    | mk flag rest =>
      obtain ⟨r, w⟩ := rest
      rw [hres] at hf
      simp only at hf
      subst hf
      exact ⟨r, by simp only [SparseTSDF.TrilinearAccessVoxel, hacc, hres]⟩

/-- C17 (amended): for a position whose cell has `int` indices (the rounded products
`position * voxel_size_inv` are finite numbers `n` with `floor(n)` in the range of
`int`), the second `TrilinearAccess` always returns, and it returns true
exactly when no corner voxel has `v.weight <= min_weight` in the `float` comparison,
which accepts a NaN weight and a NaN `min_weight`; when neither `min_weight` nor a
corner weight is NaN this is: every one of the eight corner voxels has a weight strictly
greater than `min_weight`. When it returns true, `result.distance` and `result.weight`
are the sums over the eight corners, accumulated in `float` arithmetic from 0 in the
order of the array, of the rounded products `distance_k * weight_k` and
`voxelWeight_k * weight_k` with the trilinear weights. -/
theorem SparseTSDF.TrilinearAccessVoxel_true_iff (self : SparseTSDF) (position : Vec3)
    (min_weight : F32) (nx ny nz : ℚ)
    (hx : F32.mul position.x self.voxel_size_inv = .finite nx)
    (hy : F32.mul position.y self.voxel_size_inv = .finite ny)
    (hz : F32.mul position.z self.voxel_size_inv = .finite nz)
    (rx : -2147483648 ≤ ⌊nx⌋ ∧ ⌊nx⌋ ≤ 2147483647)
    (ry : -2147483648 ≤ ⌊ny⌋ ∧ ⌊ny⌋ ≤ 2147483647)
    (rz : -2147483648 ≤ ⌊nz⌋ ∧ ⌊nz⌋ ≤ 2147483647) :
    ∃ (iws : List (IVec3 × F32)) (b : Bool) (result : TSDFVoxel),
      self.TrilinearAccess position = .ok iws ∧ iws.length = 8 ∧
      self.TrilinearAccessVoxel position min_weight = .ok (b, result) ∧
      (b = true ↔ ∀ iw ∈ iws, F32.le (self.GetVoxel iw.1).weight min_weight = false) ∧
      (min_weight ≠ .nan → (∀ iw ∈ iws, (self.GetVoxel iw.1).weight ≠ .nan) →
        (b = true ↔ ∀ iw ∈ iws, F32.gt (self.GetVoxel iw.1).weight min_weight = true)) ∧
      (b = true →
        result.distance = iws.foldl
          (fun acc iw => F32.add acc (F32.mul (self.GetVoxel iw.1).distance iw.2))
          (.finite 0) ∧
        result.weight = iws.foldl
          (fun acc iw => F32.add acc (F32.mul (self.GetVoxel iw.1).weight iw.2))
          (.finite 0)) := by
  have hlen := SparseTSDF.TrilinearAccess_in_range self position nx ny nz hx hy hz
    ⟨rx.1, F32.floor_succ_le nx (F32.mul_isFloat _ _ _ hx) rx.2⟩
    ⟨ry.1, F32.floor_succ_le ny (F32.mul_isFloat _ _ _ hy) ry.2⟩
    ⟨rz.1, F32.floor_succ_le nz (F32.mul_isFloat _ _ _ hz) rz.2⟩
  obtain ⟨iws, hacc, hcases⟩ := SparseTSDF.TrilinearAccessVoxel_in_range self position
    min_weight nx ny nz hx hy hz rx ry rz
  have hl : iws.length = 8 := by
    rw [hacc] at hlen
    simp only [Outcome.ok.injEq] at hlen
    rw [hlen]
    rfl
  have hgt : min_weight ≠ .nan → (∀ iw ∈ iws, (self.GetVoxel iw.1).weight ≠ .nan) →
      ((∀ iw ∈ iws, F32.le (self.GetVoxel iw.1).weight min_weight = false) ↔
        ∀ iw ∈ iws, F32.gt (self.GetVoxel iw.1).weight min_weight = true) := by
    intro hm hw
    constructor
    · intro h iw hiw
      exact (F32.le_eq_false_iff_gt _ _ (hw iw hiw) hm).1 (h iw hiw)
    · intro h iw hiw
      exact (F32.le_eq_false_iff_gt _ _ (hw iw hiw) hm).2 (h iw hiw)
  rcases hcases with ⟨hall, h⟩ | ⟨⟨iw, hiw, hw⟩, r, h⟩
  · refine ⟨iws, true, _, hacc, hl, h, ⟨fun _ => hall, fun _ => rfl⟩, ?_, fun _ => ⟨rfl, rfl⟩⟩
    intro hm hn
    exact ⟨fun _ => (hgt hm hn).1 hall, fun _ => rfl⟩
  · have hnot : ¬ ∀ iw ∈ iws, F32.le (self.GetVoxel iw.1).weight min_weight = false := by
      intro hall
      rw [hall iw hiw] at hw
      exact absurd hw (by simp)
    refine ⟨iws, false, r, hacc, hl, h, ⟨fun hb => absurd hb (by simp), fun hall => absurd hall hnot⟩,
      ?_, fun hb => absurd hb (by simp)⟩
    intro hm hn
    exact ⟨fun hb => absurd hb (by simp), fun hall => absurd ((hgt hm hn).2 hall) hnot⟩


/-! ## Machine arithmetic: ray marching -/

theorem SparseTSDF.TrilinearAccessVoxel_true_iff_witness :
    (F32.finite (5368709 / 536870912)).isFloat = true ∧
    F32.mul (.finite (5368709 / 536870912)) fineTSDF.voxel_size_inv = .finite 1 ∧
    F32.mul (.finite 0) fineTSDF.voxel_size_inv = .finite 0 ∧
    (-2147483648 ≤ ⌊(1 : ℚ)⌋ ∧ ⌊(1 : ℚ)⌋ ≤ 2147483647) ∧
    (-2147483648 ≤ ⌊(0 : ℚ)⌋ ∧ ⌊(0 : ℚ)⌋ ≤ 2147483647) ∧
    ∃ (iws : List (IVec3 × F32)) (b : Bool) (result : TSDFVoxel),
      fineTSDF.TrilinearAccess ⟨.finite (5368709 / 536870912), .finite 0, .finite 0⟩ =
        .ok iws ∧ iws.length = 8 ∧
      fineTSDF.TrilinearAccessVoxel ⟨.finite (5368709 / 536870912), .finite 0, .finite 0⟩
        (.finite (-1)) = .ok (b, result) ∧
      (b = true ↔ ∀ iw ∈ iws, F32.le (fineTSDF.GetVoxel iw.1).weight (.finite (-1)) = false) ∧
      (F32.finite (-1) ≠ .nan → (∀ iw ∈ iws, (fineTSDF.GetVoxel iw.1).weight ≠ .nan) →
        (b = true ↔
          ∀ iw ∈ iws, F32.gt (fineTSDF.GetVoxel iw.1).weight (.finite (-1)) = true)) ∧
      (b = true →
        result.distance = iws.foldl
          (fun acc iw => F32.add acc (F32.mul (fineTSDF.GetVoxel iw.1).distance iw.2))
          (.finite 0) ∧
        result.weight = iws.foldl
          (fun acc iw => F32.add acc (F32.mul (fineTSDF.GetVoxel iw.1).weight iw.2))
          (.finite 0)) :=
  ⟨by decide!, by decide!, by decide!, by decide!, by decide!,
    SparseTSDF.TrilinearAccessVoxel_true_iff fineTSDF
      ⟨.finite (5368709 / 536870912), .finite 0, .finite 0⟩ (.finite (-1)) 1 0 0
      (by decide!) (by decide!) (by decide!) (by decide!) (by decide!) (by decide!)⟩

/-- C17 (as stated) fails. On a grid whose voxels all have a NaN weight the call with
`min_weight = 0` returns true, although no voxel has a weight greater than `min_weight`:
`v.weight <= min_weight` is false for a NaN weight. On a grid of default voxels (weight
0) the call with a NaN `min_weight` returns true as well. And for the position
`(+inf, 0, 0)` on a grid whose voxels all have weight 1 the call does not return true
although every weight is greater than `min_weight = 0`: the conversion of the floored
position to `int` is undefined (on x86 the call ends in the assertion on `w_sum`, which
is NaN). -/
theorem SparseTSDF.TrilinearAccessVoxel_accepts_nan :
    (nanTSDF.TrilinearAccessVoxel ⟨.finite 0, .finite 0, .finite 0⟩ (.finite 0) =
        .ok (true, { distance := .finite 0, weight := .nan }) ∧
      ∀ i, F32.gt (nanTSDF.GetVoxel i).weight (.finite 0) = false) ∧
    (emptyTSDF.TrilinearAccessVoxel ⟨.finite 0, .finite 0, .finite 0⟩ .nan =
        .ok (true, { distance := .finite 0, weight := .finite 0 }) ∧
      ∀ i, F32.gt (emptyTSDF.GetVoxel i).weight .nan = false) ∧
    (stepTSDF.TrilinearAccessVoxel ⟨.posInf, .finite 0, .finite 0⟩ (.finite 0) =
        .fault .castOutOfRange ∧
      ∀ i, F32.gt (stepTSDF.GetVoxel i).weight (.finite 0) = true) :=
  ⟨⟨by decide!, fun _ => rfl⟩, ⟨by decide!, fun _ => rfl⟩, ⟨by decide!, fun _ => by simp [stepTSDF, F32.gt, F32.lt]⟩⟩

end Machine

/-! ## RaySurfaceIntersection: result range -/

end Saiga
